import Mathlib

/-!
# ZoneLooker: a shallow embedding of `zonelooker.c` and `zonelooker_output.c`

The lookup engine of `src/c/zonelooker.c` is embedded as pure functions.

* C `int` pixel coordinates are `Int`; `v >> s` is `Int.shiftRight` (arithmetic
  shift) and `v & 7` is the Euclidean remainder `v % 8`, which is what the
  bitwise and computes on a two's complement `int` (`land_mask_eq_maskBits`).
* Unsigned machine integers are `Nat`, truncated with an explicit `% 2 ^ w`
  where the C code converts to a narrower type.
* Arrays are lists.  A read outside an array is undefined behaviour in C and
  is reported as the fault `outOfBounds`.
* `leafLookupZone` is recursive without a bound in C.  The embedding carries a
  fuel argument that counts the nested calls of `leafLookupZone`; `outOfFuel`
  is reported when the fuel does not suffice.
* The floating point values of `zl_lookup` are rational numbers, and every
  floating point operation is the exact operation followed by rounding to the
  nearest number of the format, ties to even (`flround`): 24 significant bits
  for `float`, 53 for `double`.  An expression of `float` operands is evaluated
  in single precision.  The exponent range is not bounded; a value too large
  for the format is too large for `int` as well, and the conversion to `int`
  is truncation toward zero, undefined outside the range of `int`.
* Of the renderer `src/c/zonelooker_output.c` the functions `main`,
  `write_png_file` and `color_for_country` are embedded, with the array
  `colors` as in the source.  The C library functions `strncmp` and `bsearch`
  are given by their usual definitions; the results of `fopen`, `malloc` and
  of the calls into libpng are read from an environment (`Env`), and every
  failure of them ends the run in `abort_`, as in the source.
-/

namespace ZoneLooker

/-! ## Data model -/

/-- One entry of a zoom level: `struct zl_tile`, a 32-bit key and a 16-bit leaf index. -/
structure zl_tile where
  key : Nat
  idx : Nat
  deriving DecidableEq, Repr

/-- A zoom level, `struct zl_zoom_level`: the array `tiles`, whose length is `count`. -/
structure zl_zoom_level where
  tiles : List zl_tile
  deriving DecidableEq, Repr

/-- The field `count` of `struct zl_zoom_level`: the number of tiles of the level. -/
def zl_zoom_level.count (zl : zl_zoom_level) : Nat := zl.tiles.length

/-- A leaf, `struct zl_leaf`: the tag `type` and the members of the union `data`, each kept
as a field of its own.  `name` is a C string pointer (`none` is `NULL`), `pixmap` the bytes
behind the pointer `data.pixmap`, `idx` and `bits` the members of `data.bitmap`. -/
structure zl_leaf where
  type : Char
  name : Option String
  pixmap : List Nat
  idx : Fin 2 → Nat
  bits : Nat

/-- The table, `struct zl_table`: pixels per degree, six zoom levels and the leaves. -/
structure zl_table where
  deg_pixels : Int
  zoom_levels : Fin 6 → zl_zoom_level
  leaves : List zl_leaf

/-- The ways in which a call can fail to return a value. -/
inductive Fault where
  | outOfBounds
  | outOfRange
  | outOfFuel
  deriving DecidableEq, Repr

/-- The outcome of a call: the value returned, or a fault. -/
inductive Outcome (α : Type) where
  | ret (v : α)
  | fault (f : Fault)
  deriving DecidableEq, Repr

/-- The result of a lookup: a country code, `none` for the `NULL` pointer. -/
abbrev Zone := Option String

/-! ## Machine arithmetic -/

/-- The expression `v & ((1 << k) - 1)` on a C `int`: the low `k` bits of the two's
complement representation, as a natural number (`land_mask_eq_maskBits`). -/
def maskBits (v : Int) (k : Nat) : Nat := (v % 2 ^ k).toNat

/-- The expression `v & 7` on a C `int`: the low three bits. -/
def low3 (v : Int) : Nat := maskBits v 3

/-- The conversion of a `double` to `int`: truncation toward zero, undefined (`none`) when
the truncated value is not representable in a 32-bit `int`. -/
def toInt32 (q : ℚ) : Option Int :=
  let t := Int.tdiv q.num q.den
  if -2 ^ 31 ≤ t ∧ t < 2 ^ 31 then some t else none

/-- The product of two `int` values; signed overflow is undefined (`none`). -/
def mulInt32 (a b : Int) : Option Int :=
  if -2 ^ 31 ≤ a * b ∧ a * b < 2 ^ 31 then some (a * b) else none

/-- Rounding of a rational number to the nearest integer, a tie going to the even one. -/
def roundHalfEven (t : ℚ) : Int :=
  let f := ⌊t⌋
  let r := t - f
  if r < 1 / 2 then f else if 1 / 2 < r then f + 1 else if f % 2 = 0 then f else f + 1

/-- Rounding to the nearest binary floating point number with `p` significant bits, ties to
even (the IEEE 754 default), with no bound on the exponent: a nonzero `q` lies in the binade
`[2 ^ L, 2 ^ (L + 1))` with `L = Int.log 2 |q|`, where the numbers of the format are the
multiples of `2 ^ (L - (p - 1))`. -/
def flround (p : Nat) (q : ℚ) : ℚ :=
  if q = 0 then 0
  else
    let e : Int := Int.log 2 |q| - (p - 1)
    roundHalfEven (q / 2 ^ e) * 2 ^ e

/-- Rounding to `float`, the single precision format of 24 significant bits. -/
def roundFloat (q : ℚ) : ℚ := flround 24 q

/-- Rounding to `double`, the double precision format of 53 significant bits. -/
def roundDouble (q : ℚ) : ℚ := flround 53 q

/-- The value is a `float`: rounding to single precision leaves it unchanged. -/
def IsFloat (q : ℚ) : Prop := roundFloat q = q

instance (q : ℚ) : Decidable (IsFloat q) :=
  inferInstanceAs (Decidable (roundFloat q = q))

/-- The sum `a + b` of two `float` operands. -/
def floatAdd (a b : ℚ) : ℚ := roundFloat (a + b)

/-- The difference `a - b` of two `float` operands. -/
def floatSub (a b : ℚ) : ℚ := roundFloat (a - b)

/-- The product `a * b` of two `double` operands. -/
def doubleMul (a b : ℚ) : ℚ := roundDouble (a * b)

/-- The difference `a - b` of two `double` operands. -/
def doubleSub (a b : ℚ) : ℚ := roundDouble (a - b)

/-! ## The lookup engine -/

/-- The pixel that `zl_lookup` computes from a latitude and a longitude (lines 41-53).  The
parameters `lat` and `lon` are `float`; `lon + 180` and `90 - lat` have `float` operands and
are evaluated in single precision; `degPixels` is a `double` (the conversion of the `int`
field `deg_pixels` is exact), so the products, `360*degPixels` and `360*degPixels - 1` are
evaluated in double precision; the comparison `x >= 360*degPixels` converts the `int` to
`double`, which is exact. -/
def zl_pixel (table : zl_table) (lat lon : ℚ) : Option (Int × Int) := do
  let degPixels : ℚ := table.deg_pixels
  let x0 ← toInt32 (doubleMul (floatAdd lon 180) degPixels)
  let y0 ← toInt32 (doubleMul (floatSub 90 lat) degPixels)
  let x ← (if x0 < 0 then some 0
    else if (x0 : ℚ) ≥ doubleMul 360 degPixels then
      toInt32 (doubleSub (doubleMul 360 degPixels) 1)
    else some x0)
  let y ← (if y0 < 0 then some 0
    else if (y0 : ℚ) ≥ doubleMul 180 degPixels then
      toInt32 (doubleSub (doubleMul 180 degPixels) 1)
    else some y0)
  pure (x, y)

/-- The packing `TILEKEY(size, x, y)`, converted to `uint32_t`. -/
def TILEKEY (size x y : Int) : Nat :=
  (maskBits size 3 <<< 28 ||| maskBits y 14 <<< 14 ||| maskBits x 14) % 2 ^ 32

/-- The loop of `searchTileKey` on the interval `[i, j)`.  Every iteration uses one unit of
fuel. -/
def searchTileKey.loop (zl : zl_zoom_level) (key : Nat) :
    Nat → Nat → Nat → Outcome (Option zl_tile)
  | 0, _, _ => .fault .outOfFuel
  | fuel + 1, i, j =>
    if i < j then
      let h := (i + j) >>> 1
      match zl.tiles[h]? with
      | none => .fault .outOfBounds
      | some tile =>
        let tileKey := tile.key
        if tileKey = key then .ret (some tile)
        else if tileKey > key then searchTileKey.loop zl key fuel i h
        else searchTileKey.loop zl key fuel (h + 1) j
    else .ret none

/-- The binary search `searchTileKey`: the loop started on `[0, count)`.  The interval
shrinks in every iteration, so `count + 1` units of fuel always suffice
(`searchTileKey_ne_fault`). -/
def searchTileKey (zl : zl_zoom_level) (key : Nat) : Outcome (Option zl_tile) :=
  searchTileKey.loop zl key (zl.count + 1) 0 zl.count

/-- The sentinel `OCEAN_INDEX`. -/
def OCEAN_INDEX : Nat := 0xFFFF

/-- The function `leafLookupStatic`: the name stored in the leaf. -/
def leafLookupStatic (leaf : zl_leaf) : Outcome Zone := .ret leaf.name

/-- The subscript `(bits & bit) ? 1 : 0` that `leafLookupBitmap` applies to `idx`. -/
def leafLookupBitmap.sel (leaf : zl_leaf) (x y : Int) : Fin 2 :=
  let bit := (1 <<< (8 * low3 y + low3 x)) % 2 ^ 64
  if leaf.bits &&& bit ≠ 0 then 1 else 0

/-- The function `leafLookupBitmap`; `zone` is the recursive call of `leafLookupZone` on a
leaf index. -/
def leafLookupBitmap (zone : Nat → Outcome Zone) (leaf : zl_leaf) (x y : Int) : Outcome Zone :=
  let idx := leaf.idx (leafLookupBitmap.sel leaf x y)
  zone idx

/-- The function `leafLookupPixmap`; `zone` is the recursive call of `leafLookupZone` on a
leaf index.  The two bytes are read as `uint8_t`. -/
def leafLookupPixmap (zone : Nat → Outcome Zone) (leaf : zl_leaf) (x y : Int) : Outcome Zone :=
  let i := 2 * (low3 y * 8 + low3 x)
  match leaf.pixmap[i]?, leaf.pixmap[i + 1]? with
  | some hi, some lo =>
    let idx := (((hi % 256) <<< 8) + lo % 256) % 2 ^ 16
    if idx = OCEAN_INDEX then .ret none else zone idx
  | _, _ => .fault .outOfBounds

/-- The function `leafLookupZone`.  The fuel bounds the number of nested calls. -/
def leafLookupZone (table : zl_table) (x y : Int) (tk : Nat) : Nat → Nat → Outcome Zone
  | 0, _ => .fault .outOfFuel
  | fuel + 1, leafIndex =>
    match table.leaves[leafIndex]? with
    | none => .fault .outOfBounds
    | some leaf =>
      if leaf.type = 'S' then leafLookupStatic leaf
      else if leaf.type = '2' then leafLookupBitmap (leafLookupZone table x y tk fuel) leaf x y
      else if leaf.type = 'P' then leafLookupPixmap (leafLookupZone table x y tk fuel) leaf x y
      else .ret none

/-- The function `zoomLevelLookupTile`. -/
def zoomLevelLookupTile (fuel : Nat) (table : zl_table) (level : Nat) (x y : Int) (tk : Nat) :
    Outcome Zone :=
  if h : level < 6 then
    match searchTileKey (table.zoom_levels ⟨level, h⟩) tk with
    | .ret none => .ret none
    | .ret (some tile) => leafLookupZone table x y tk fuel tile.idx
    | .fault f => .fault f
  else .fault .outOfBounds

/-- The key that `zoneLokupPixel` computes for the pixel `(x, y)` at `level` (lines 70-73):
the shift is a `uint8_t`, the tile coordinates are `uint16_t`. -/
def pixelKey (level : Nat) (x y : Int) : Nat :=
  let shift : Nat := (3 + level) % 2 ^ 8
  let xt : Int := (x >>> shift) % 2 ^ 16
  let yt : Int := (y >>> shift) % 2 ^ 16
  TILEKEY level xt yt

/-- The loop of `zoneLokupPixel`: `loop n` runs the iterations `level = n - 1, ..., 0`. -/
def zoneLokupPixel.loop (fuel : Nat) (table : zl_table) (x y : Int) : Nat → Outcome Zone
  | 0 => .ret none
  | level + 1 =>
    let tk := pixelKey level x y
    match zoomLevelLookupTile fuel table level x y tk with
    | .ret (some zone) => .ret (some zone)
    | .ret none => zoneLokupPixel.loop fuel table x y level
    | .fault f => .fault f

/-- The function `zoneLokupPixel`: the levels 5, 4, ..., 0 in turn. -/
def zoneLokupPixel (fuel : Nat) (table : zl_table) (x y : Int) : Outcome Zone :=
  zoneLokupPixel.loop fuel table x y 6

/-- The function `zl_lookup`. -/
def zl_lookup (fuel : Nat) (table : zl_table) (lat lon : ℚ) : Outcome Zone :=
  match zl_pixel table lat lon with
  | none => .fault .outOfRange
  | some (x, y) => zoneLokupPixel fuel table x y

/-! ## Well-formedness of tables -/

/-- Invariant 1 of the data model: the keys of a zoom level are strictly increasing. -/
def StrictlySorted (zl : zl_zoom_level) : Prop :=
  zl.tiles.Pairwise (fun a b => a.key < b.key)

instance (zl : zl_zoom_level) : Decidable (StrictlySorted zl) :=
  inferInstanceAs (Decidable (zl.tiles.Pairwise (fun a b : zl_tile => a.key < b.key)))

/-- Every zoom level of the table is strictly sorted. -/
def SortedTable (table : zl_table) : Prop := ∀ l : Fin 6, StrictlySorted (table.zoom_levels l)

instance (table : zl_table) : Decidable (SortedTable table) :=
  inferInstanceAs (Decidable (∀ l : Fin 6, StrictlySorted (table.zoom_levels l)))

/-- The zoom level has an entry with the given key. -/
def HasKey (zl : zl_zoom_level) (key : Nat) : Prop := ∃ t ∈ zl.tiles, t.key = key

instance (zl : zl_zoom_level) (key : Nat) : Decidable (HasKey zl key) :=
  inferInstanceAs (Decidable (∃ t ∈ zl.tiles, t.key = key))

/-- Level `l` of the table has an entry with the key of the pixel `(x, y)` at that level. -/
def Matches (table : zl_table) (x y : Int) (l : Fin 6) : Prop :=
  HasKey (table.zoom_levels l) (pixelKey l x y)

instance (table : zl_table) (x y : Int) (l : Fin 6) : Decidable (Matches table x y l) :=
  inferInstanceAs (Decidable (HasKey (table.zoom_levels l) (pixelKey l x y)))

/-- Invariant 6 of the data model, for one string: exactly two characters, both ASCII
uppercase letters. -/
def IsCountryCode (s : String) : Prop := s.length = 2 ∧ ∀ c ∈ s.data, c.isUpper = true

instance (s : String) : Decidable (IsCountryCode s) :=
  inferInstanceAs (Decidable (s.length = 2 ∧ ∀ c ∈ s.data, c.isUpper = true))

/-- The string is the code stored in some Uniform leaf of the table. -/
def IsUniformCode (table : zl_table) (z : String) : Prop :=
  ∃ leaf ∈ table.leaves, leaf.type = 'S' ∧ leaf.name = some z

/-- The population count of the low `w` bits of `n`; `popcount 64 bits` is the number of set
bits of a 64-bit mask. -/
def popcount : Nat → Nat → Nat
  | 0, _ => 0
  | w + 1, n => n % 2 + popcount w (n / 2)

/-- The 64 cells `(x, y)` of an 8 x 8 tile, row by row. -/
def cells : List (Nat × Nat) :=
  (List.range 8).flatMap fun y => (List.range 8).map fun x => (x, y)

/-! ## The chain of leaves -/

/-- The big-endian 16-bit value of the pixmap cell of the pixel: the bytes at the offsets
`j = 2 * (8 * (y & 7) + (x & 7))` and `j + 1`, read as unsigned (0 where the pixmap has no
such byte). -/
def pixmapCell (leaf : zl_leaf) (x y : Int) : Nat :=
  let j := 2 * (8 * low3 y + low3 x)
  256 * (leaf.pixmap.getD j 0 % 256) + leaf.pixmap.getD (j + 1) 0 % 256

/-- The leaf index that the call of `leafLookupZone` on `leafIndex` passes to its nested
call, `none` when it makes no nested call (`leafLookupZone_succ`). -/
def leafNext (table : zl_table) (x y : Int) (leafIndex : Nat) : Option Nat :=
  match table.leaves[leafIndex]? with
  | none => none
  | some leaf =>
    if leaf.type = 'S' then none
    else if leaf.type = '2' then some (leaf.idx (leafLookupBitmap.sel leaf x y))
    else if leaf.type = 'P' then
      let i := 2 * (low3 y * 8 + low3 x)
      match leaf.pixmap[i]?, leaf.pixmap[i + 1]? with
      | some hi, some lo =>
        let idx := (((hi % 256) <<< 8) + lo % 256) % 2 ^ 16
        if idx = OCEAN_INDEX then none else some idx
      | _, _ => none
    else none

/-- The leaf index of the `k`-th nested call of `leafLookupZone` started on `leafIndex`
(`k = 0` is the start itself), `none` when the chain of calls has ended before. -/
def leafSeq (table : zl_table) (x y : Int) : Nat → Nat → Option Nat
  | 0, leafIndex => some leafIndex
  | k + 1, leafIndex => (leafNext table x y leafIndex).bind (leafSeq table x y k)

/-- The resolution started on `leafIndex` terminates: some budget of nested calls is enough
for `leafLookupZone` to come back. -/
def Terminates (table : zl_table) (x y : Int) (tk leafIndex : Nat) : Prop :=
  ∃ fuel, leafLookupZone table x y tk fuel leafIndex ≠ .fault .outOfFuel

/-- The chain of leaves visited from `leafIndex` never visits an index twice. -/
def NoRepeat (table : zl_table) (x y : Int) (leafIndex : Nat) : Prop :=
  ∀ k l a, k < l → leafSeq table x y k leafIndex = some a →
    leafSeq table x y l leafIndex ≠ some a

/-- Invariant 3 of the data model at the leaves: the two indices of every Bitmap leaf and
every cell of every Pixmap leaf other than the sentinel are indices into `leaves`. -/
def ValidLeafRefs (table : zl_table) : Prop :=
  ∀ leaf ∈ table.leaves,
    (leaf.type = '2' → ∀ s : Fin 2, leaf.idx s < table.leaves.length) ∧
    (leaf.type = 'P' → ∀ c ∈ cells,
      pixmapCell leaf c.1 c.2 = 0xFFFF ∨ pixmapCell leaf c.1 c.2 < table.leaves.length)

instance (table : zl_table) : Decidable (ValidLeafRefs table) :=
  inferInstanceAs (Decidable (∀ leaf ∈ table.leaves,
    (leaf.type = '2' → ∀ s : Fin 2, leaf.idx s < table.leaves.length) ∧
    (leaf.type = 'P' → ∀ c ∈ cells,
      pixmapCell leaf c.1 c.2 = 0xFFFF ∨ pixmapCell leaf c.1 c.2 < table.leaves.length)))

/-- Every leaf has one of the three tags, and every Uniform leaf holds a code. -/
def TagsAndCodes (table : zl_table) : Prop :=
  ∀ leaf ∈ table.leaves,
    (leaf.type = 'S' ∨ leaf.type = '2' ∨ leaf.type = 'P') ∧
    (leaf.type = 'S' → leaf.name ≠ none)

instance (table : zl_table) : Decidable (TagsAndCodes table) :=
  inferInstanceAs (Decidable (∀ leaf ∈ table.leaves,
    (leaf.type = 'S' ∨ leaf.type = '2' ∨ leaf.type = 'P') ∧
    (leaf.type = 'S' → leaf.name ≠ none)))

/-! ## The colour table of the renderer -/

/-- An entry of the colour table, `struct country_color`: the two characters of the code
and the three colour bytes. -/
structure country_color where
  cc : String
  r : Nat
  g : Nat
  b : Nat
  deriving DecidableEq, Repr

/-- The entry `ocean_color` of `color_for_country`. -/
def ocean_color : country_color := ⟨"XO", 0, 0, 0xff⟩

/-- The array `colors` of `color_for_country`, in the order of the source. -/
def colors : List country_color :=
  [
    country_color.mk "AD" 0x93 0x54 0xf2, country_color.mk "AE" 0x53 0xee 0x9e,
    country_color.mk "AF" 0xc9 0x51 0x2d, country_color.mk "AG" 0x09 0xeb 0x41,
    country_color.mk "AI" 0x54 0x83 0x5a, country_color.mk "AL" 0x20 0x32 0x88,
    country_color.mk "AM" 0xe0 0x88 0xe4, country_color.mk "AO" 0xba 0x8d 0x3b,
    country_color.mk "AQ" 0x5a 0x58 0xd2, country_color.mk "AR" 0xc0 0xe7 0x61,
    country_color.mk "AS" 0x00 0x5d 0x0d, country_color.mk "AT" 0x2e 0xe9 0x00,
    country_color.mk "AU" 0xee 0x53 0x6c, country_color.mk "AW" 0xb4 0x56 0xb3,
    country_color.mk "AX" 0x29 0x84 0xc4, country_color.mk "AZ" 0x73 0x81 0x1b,
    country_color.mk "BA" 0x39 0xc4 0x01, country_color.mk "BB" 0xa3 0x7b 0xb2,
    country_color.mk "BD" 0x4d 0x75 0xd3, country_color.mk "BE" 0x8d 0xcf 0xbf,
    country_color.mk "BF" 0x17 0x70 0x0c, country_color.mk "BG" 0xd7 0xca 0x60,
    country_color.mk "BH" 0x4a 0x18 0x17, country_color.mk "BI" 0x8a 0xa2 0x7b,
    country_color.mk "BJ" 0x10 0x1d 0xc8, country_color.mk "BL" 0xfe 0x13 0xa9,
    country_color.mk "BM" 0x3e 0xa9 0xc5, country_color.mk "BN" 0xa4 0x16 0x76,
    country_color.mk "BO" 0x64 0xac 0x1a, country_color.mk "BR" 0x1e 0xc6 0x40,
    country_color.mk "BS" 0xde 0x7c 0x2c, country_color.mk "BT" 0xf0 0xc8 0x21,
    country_color.mk "BV" 0xaa 0xcd 0xfe, country_color.mk "BW" 0x6a 0x77 0x92,
    country_color.mk "BY" 0x37 0x1f 0x89, country_color.mk "BZ" 0xad 0xa0 0x3a,
    country_color.mk "CA" 0x73 0xdb 0x1e, country_color.mk "CC" 0x29 0xde 0xc1,
    country_color.mk "CD" 0x07 0x6a 0xcc, country_color.mk "CF" 0x5d 0x6f 0x13,
    country_color.mk "CG" 0x9d 0xd5 0x7f, country_color.mk "CH" 0x00 0x07 0x08,
    country_color.mk "CI" 0xc0 0xbd 0x64, country_color.mk "CK" 0x9a 0xb8 0xbb,
    country_color.mk "CL" 0xb4 0x0c 0xb6, country_color.mk "CM" 0x74 0xb6 0xda,
    country_color.mk "CN" 0xee 0x09 0x69, country_color.mk "CO" 0x2e 0xb3 0x05,
    country_color.mk "CR" 0x54 0xd9 0x5f, country_color.mk "CU" 0x7a 0x6d 0x52,
    country_color.mk "CV" 0xe0 0xd2 0xe1, country_color.mk "CW" 0x20 0x68 0x8d,
    country_color.mk "CX" 0xbd 0xba 0xfa, country_color.mk "CY" 0x7d 0x00 0x96,
    country_color.mk "CZ" 0xe7 0xbf 0x25, country_color.mk "DE" 0xea 0xfc 0xfb,
    country_color.mk "DJ" 0x77 0x2e 0x8c, country_color.mk "DK" 0xb7 0x94 0xe0,
    country_color.mk "DM" 0x59 0x9a 0x81, country_color.mk "DO" 0x03 0x9f 0x5e,
    country_color.mk "DZ" 0xca 0x93 0x7e, country_color.mk "EC" 0x4e 0xed 0x85,
    country_color.mk "EE" 0xa0 0xe3 0xe4, country_color.mk "EG" 0xfa 0xe6 0x3b,
    country_color.mk "EH" 0x67 0x34 0x4c, country_color.mk "ER" 0x33 0xea 0x1b,
    country_color.mk "ES" 0xf3 0x50 0x77, country_color.mk "ET" 0xdd 0xe4 0x7a,
    country_color.mk "FI" 0x79 0xaf 0x01, country_color.mk "FJ" 0xe3 0x10 0xb2,
    country_color.mk "FK" 0x23 0xaa 0xde, country_color.mk "FM" 0xcd 0xa4 0xbf,
    country_color.mk "FO" 0x97 0xa1 0x60, country_color.mk "FR" 0xed 0xcb 0x3a,
    country_color.mk "GA" 0x80 0xd6 0x64, country_color.mk "GB" 0x1a 0x69 0xd7,
    country_color.mk "GD" 0xf4 0x67 0xb6, country_color.mk "GE" 0x34 0xdd 0xda,
    country_color.mk "GF" 0xae 0x62 0x69, country_color.mk "GG" 0x6e 0xd8 0x05,
    country_color.mk "GH" 0xf3 0x0a 0x72, country_color.mk "GI" 0x33 0xb0 0x1e,
    country_color.mk "GL" 0x47 0x01 0xcc, country_color.mk "GM" 0x87 0xbb 0xa0,
    country_color.mk "GN" 0x1d 0x04 0x13, country_color.mk "GP" 0xfd 0xd1 0xfa,
    country_color.mk "GQ" 0x3d 0x6b 0x96, country_color.mk "GR" 0xa7 0xd4 0x25,
    country_color.mk "GS" 0x67 0x6e 0x49, country_color.mk "GT" 0x49 0xda 0x44,
    country_color.mk "GU" 0x89 0x60 0x28, country_color.mk "GW" 0xd3 0x65 0xf7,
    country_color.mk "GY" 0x8e 0x0d 0xec, country_color.mk "HK" 0x79 0xf2 0x69,
    country_color.mk "HM" 0x97 0xfc 0x08, country_color.mk "HN" 0x0d 0x43 0xbb,
    country_color.mk "HR" 0xb7 0x93 0x8d, country_color.mk "HT" 0x59 0x9d 0xec,
    country_color.mk "HU" 0x99 0x27 0x80, country_color.mk "ID" 0xae 0x3f 0x01,
    country_color.mk "IE" 0x6e 0x85 0x6d, country_color.mk "IL" 0x1d 0x59 0x7b,
    country_color.mk "IM" 0xdd 0xe3 0x17, country_color.mk "IN" 0x47 0x5c 0xa4,
    country_color.mk "IO" 0x87 0xe6 0xc8, country_color.mk "IQ" 0x67 0x33 0x21,
    country_color.mk "IR" 0xfd 0x8c 0x92, country_color.mk "IS" 0x3d 0x36 0xfe,
    country_color.mk "IT" 0x13 0x82 0xf3, country_color.mk "JE" 0xb0 0xa4 0x4c,
    country_color.mk "JM" 0x03 0xc2 0x36, country_color.mk "JO" 0x59 0xc7 0xe9,
    country_color.mk "JP" 0x79 0xa8 0x6c, country_color.mk "KE" 0xfa 0xbb 0x53,
    country_color.mk "KG" 0xa0 0xbe 0x8c, country_color.mk "KH" 0x3d 0x6c 0xfb,
    country_color.mk "KI" 0xfd 0xd6 0x97, country_color.mk "KM" 0x49 0xdd 0x29,
    country_color.mk "KN" 0xd3 0x62 0x9a, country_color.mk "KP" 0x33 0xb7 0x73,
    country_color.mk "KR" 0x69 0xb2 0xac, country_color.mk "KW" 0x1d 0x03 0x7e,
    country_color.mk "KY" 0x40 0x6b 0x65, country_color.mk "KZ" 0xda 0xd4 0xd6,
    country_color.mk "LA" 0x63 0x9c 0xb6, country_color.mk "LB" 0xf9 0x23 0x05,
    country_color.mk "LC" 0x39 0x99 0x69, country_color.mk "LI" 0xd0 0xfa 0xcc,
    country_color.mk "LK" 0x8a 0xff 0x13, country_color.mk "LR" 0x44 0x9e 0xf7,
    country_color.mk "LS" 0x84 0x24 0x9b, country_color.mk "LT" 0xaa 0x90 0x96,
    country_color.mk "LU" 0x6a 0x2a 0xfa, country_color.mk "LV" 0xf0 0x95 0x49,
    country_color.mk "LY" 0x6d 0x47 0x3e, country_color.mk "MA" 0x29 0x83 0xa9,
    country_color.mk "MC" 0x73 0x86 0x76, country_color.mk "MD" 0x5d 0x32 0x7b,
    country_color.mk "ME" 0x9d 0x88 0x17, country_color.mk "MF" 0x07 0x37 0xa4,
    country_color.mk "MG" 0xc7 0x8d 0xc8, country_color.mk "MH" 0x5a 0x5f 0xbf,
    country_color.mk "MK" 0xc0 0xe0 0x0c, country_color.mk "ML" 0xee 0x54 0x01,
    country_color.mk "MM" 0x2e 0xee 0x6d, country_color.mk "MN" 0xb4 0x51 0xde,
    country_color.mk "MO" 0x74 0xeb 0xb2, country_color.mk "MP" 0x54 0x84 0x37,
    country_color.mk "MQ" 0x94 0x3e 0x5b, country_color.mk "MR" 0x0e 0x81 0xe8,
    country_color.mk "MS" 0xce 0x3b 0x84, country_color.mk "MT" 0xe0 0x8f 0x89,
    country_color.mk "MU" 0x20 0x35 0xe5, country_color.mk "MV" 0xba 0x8a 0x56,
    country_color.mk "MW" 0x7a 0x30 0x3a, country_color.mk "MX" 0xe7 0xe2 0x4d,
    country_color.mk "MY" 0x27 0x58 0x21, country_color.mk "MZ" 0xbd 0xe7 0x92,
    country_color.mk "NA" 0xf7 0xa2 0x88, country_color.mk "NC" 0xad 0xa7 0x57,
    country_color.mk "NE" 0x43 0xa9 0x36, country_color.mk "NF" 0xd9 0x16 0x85,
    country_color.mk "NG" 0x19 0xac 0xe9, country_color.mk "NI" 0x44 0xc4 0xf2,
    country_color.mk "NL" 0x30 0x75 0x20, country_color.mk "NO" 0xaa 0xca 0x93,
    country_color.mk "NP" 0x8a 0xa5 0x16, country_color.mk "NR" 0xd0 0xa0 0xc9,
    country_color.mk "NU" 0xfe 0x14 0xc4, country_color.mk "NZ" 0x63 0xc6 0xb3,
    country_color.mk "OM" 0xba 0xd0 0x53, country_color.mk "PA" 0xd7 0x2d 0xd8,
    country_color.mk "PE" 0x63 0x26 0x66, country_color.mk "PF" 0xf9 0x99 0xd5,
    country_color.mk "PG" 0x39 0x23 0xb9, country_color.mk "PH" 0xa4 0xf1 0xce,
    country_color.mk "PK" 0x3e 0x4e 0x7d, country_color.mk "PL" 0x10 0xfa 0x70,
    country_color.mk "PM" 0xd0 0x40 0x1c, country_color.mk "PN" 0x4a 0xff 0xaf,
    country_color.mk "PR" 0xf0 0x2f 0x99, country_color.mk "PS" 0x30 0x95 0xf5,
    country_color.mk "PT" 0x1e 0x21 0xf8, country_color.mk "PW" 0x84 0x9e 0x4b,
    country_color.mk "PY" 0xd9 0xf6 0x50, country_color.mk "QA" 0x9d 0x32 0xc7,
    country_color.mk "RE" 0xf7 0x18 0x58, country_color.mk "RO" 0x1e 0x7b 0xfd,
    country_color.mk "RS" 0xa4 0xab 0xcb, country_color.mk "RU" 0x4a 0xa5 0xaa,
    country_color.mk "RW" 0x10 0xa0 0x75, country_color.mk "SA" 0x09 0x0c 0xf9,
    country_color.mk "SB" 0x93 0xb3 0x4a, country_color.mk "SC" 0x53 0x09 0x26,
    country_color.mk "SD" 0x7d 0xbd 0x2b, country_color.mk "SE" 0xbd 0x07 0x47,
    country_color.mk "SG" 0xe7 0x02 0x98, country_color.mk "SH" 0x7a 0xd0 0xef,
    country_color.mk "SI" 0xba 0x6a 0x83, country_color.mk "SJ" 0x20 0xd5 0x30,
    country_color.mk "SK" 0xe0 0x6f 0x5c, country_color.mk "SL" 0xce 0xdb 0x51,
    country_color.mk "SM" 0x0e 0x61 0x3d, country_color.mk "SN" 0x94 0xde 0x8e,
    country_color.mk "SO" 0x54 0x64 0xe2, country_color.mk "SR" 0x2e 0x0e 0xb8,
    country_color.mk "SS" 0xee 0xb4 0xd4, country_color.mk "ST" 0xc0 0x00 0xd9,
    country_color.mk "SV" 0x9a 0x05 0x06, country_color.mk "SX" 0xc7 0x6d 0x1d,
    country_color.mk "SY" 0x07 0xd7 0x71, country_color.mk "SZ" 0x9d 0x68 0xc2,
    country_color.mk "TC" 0x7e 0x25 0x7d, country_color.mk "TD" 0x50 0x91 0x70,
    country_color.mk "TG" 0xca 0x2e 0xc3, country_color.mk "TH" 0x57 0xfc 0xb4,
    country_color.mk "TJ" 0x0d 0xf9 0x6b, country_color.mk "TK" 0xcd 0x43 0x07,
    country_color.mk "TL" 0xe3 0xf7 0x0a, country_color.mk "TM" 0x23 0x4d 0x66,
    country_color.mk "TN" 0xb9 0xf2 0xd5, country_color.mk "TO" 0x79 0x48 0xb9,
    country_color.mk "TR" 0x03 0x22 0xe3, country_color.mk "TT" 0xed 0x2c 0x82,
    country_color.mk "TV" 0xb7 0x29 0x5d, country_color.mk "TW" 0x77 0x93 0x31,
    country_color.mk "TZ" 0xb0 0x44 0x99, country_color.mk "UA" 0x6e 0x3f 0xbd,
    country_color.mk "UG" 0x80 0x31 0xdc, country_color.mk "UM" 0x69 0x52 0x79,
    country_color.mk "US" 0x89 0x87 0x90, country_color.mk "UY" 0x60 0xe4 0x35,
    country_color.mk "UZ" 0xfa 0x5b 0x86, country_color.mk "VA" 0xb0 0x1e 0x9c,
    country_color.mk "VC" 0xea 0x1b 0x43, country_color.mk "VE" 0x04 0x15 0x22,
    country_color.mk "VG" 0x5e 0x10 0xfd, country_color.mk "VI" 0x03 0x78 0xe6,
    country_color.mk "VN" 0x2d 0xcc 0xeb, country_color.mk "VU" 0xb9 0xa8 0xd0,
    country_color.mk "WF" 0xd4 0xb5 0x8e, country_color.mk "WS" 0x1d 0xb9 0xae,
    country_color.mk "XK" 0x03 0x25 0x8e, country_color.mk "YE" 0x14 0x52 0x8a,
    country_color.mk "YT" 0x69 0x55 0x14, country_color.mk "ZA" 0x7e 0x78 0x15,
    country_color.mk "ZM" 0x79 0x15 0xd1, country_color.mk "ZW" 0x2d 0xcb 0x86
  ]

/-- The C library function `strncmp` on two strings, each given by the characters before its
end; the character past the end of a string reads as `NUL`. -/
def strncmp : List Char → List Char → Nat → Int
  | _, _, 0 => 0
  | s1, s2, n + 1 =>
    let c1 := s1.headD (Char.ofNat 0)
    let c2 := s2.headD (Char.ofNat 0)
    if c1 ≠ c2 then (c1.toNat : Int) - (c2.toNat : Int)
    else if c1 = Char.ofNat 0 then 0
    else strncmp s1.tail s2.tail n

/-- The function `color_for_country_cmp`. -/
def color_for_country_cmp (key : String) (color : country_color) : Int :=
  strncmp key.data color.cc.data 2

/-- The loop of the C library function `bsearch` on the interval `[l, u)` of `base`, with the
comparison against the key given as `compar`.  Every iteration uses one unit of fuel. -/
def bsearch.loop {α : Type} (compar : α → Int) (base : List α) : Nat → Nat → Nat → Option α
  | 0, _, _ => none
  | fuel + 1, l, u =>
    if l < u then
      let idx := (l + u) / 2
      match base[idx]? with
      | none => none
      | some p =>
        let comparison := compar p
        if comparison < 0 then bsearch.loop compar base fuel l idx
        else if comparison > 0 then bsearch.loop compar base fuel (idx + 1) u
        else some p
    else none

/-- The C library function `bsearch`, by its usual halving loop on `[0, nmemb)`; the interval
shrinks in every iteration, so `nmemb + 1` units of fuel suffice. -/
def bsearch {α : Type} (compar : α → Int) (base : List α) : Option α :=
  bsearch.loop compar base (base.length + 1) 0 base.length

/-- The function `color_for_country`; `none` is the `NULL` code. -/
def color_for_country (cc : Option String) : country_color :=
  match cc with
  | none => ocean_color
  | some key =>
    match bsearch (color_for_country_cmp key) colors with
    | some found => found
    | none => ocean_color

/-- The rank of a code in the order of its first two characters. -/
def codeRank (s : List Char) : Nat :=
  (s.headD (Char.ofNat 0)).toNat * 2 ^ 21 + (s.tail.headD (Char.ofNat 0)).toNat

/-- The list of numbers is strictly increasing from each entry to the next. -/
def increasing : List Nat → Bool
  | [] => true
  | [_] => true
  | a :: b :: rest => decide (a < b) && increasing (b :: rest)

/-! ## The renderer -/

/-- The function `zl_deg_pixels`. -/
def zl_deg_pixels (table : zl_table) : Int := table.deg_pixels

/-- The environment of a run of the renderer: the results of the calls into the C library
and into libpng, which are not code of the repository. -/
structure Env where
  /-- Whether `fopen(path, "wb")` opens the file at the path. -/
  can_open : String → Bool
  /-- Whether the calls into libpng before the first row succeed:
  `png_create_write_struct`, `png_create_info_struct`, `png_init_io`, `png_set_IHDR` and
  `png_write_info`. -/
  png_header : Bool
  /-- Whether `malloc` returns a buffer for the row. -/
  malloc : Bool
  /-- Whether `png_write_row` succeeds on the row `y`. -/
  png_write_row : Nat → Bool
  /-- Whether `png_write_end` succeeds. -/
  png_write_end : Bool

/-- The call `fopen(file_name, "wb")`: the stream, named by its path, or `none` for `NULL`.
A null file name cannot be opened. -/
def fopen (env : Env) (file_name : Option String) : Option String :=
  match file_name with
  | none => none
  | some path => if env.can_open path then some path else none

/-- How a call of `write_png_file` ends: it returns, it calls `abort_`, which prints its
message and calls `abort`, or its behaviour is undefined. -/
inductive Ending where
  | returns
  | aborts
  | undefined (f : Fault)
  deriving DecidableEq, Repr

/-- What a call of `write_png_file` does: how it ends, the file it has opened, and the rows
of pixels it has passed to `png_write_row`. -/
structure PngRun where
  ending : Ending
  opened : Option String
  rows : List (List country_color)
  deriving DecidableEq, Repr

/-- The inner loop of `write_png_file` over the pixels `x` of the row `y`: the colours stored
in the row buffer.  A store through the null pointer of a failed `malloc` is undefined. -/
def write_png_file.row (fuel : Nat) (table : zl_table) (buffer : Bool) (y : Int) :
    List Nat → Outcome (List country_color)
  | [] => .ret []
  | x :: xs =>
    match zoneLokupPixel fuel table x y with
    | .fault f => .fault f
    | .ret country =>
      if buffer then
        match write_png_file.row fuel table buffer y xs with
        | .fault f => .fault f
        | .ret row => .ret (color_for_country country :: row)
      else .fault .outOfBounds

/-- The outer loop of `write_png_file` over the rows `y`: how it ends and the rows written. -/
def write_png_file.loop (env : Env) (fuel : Nat) (table : zl_table) (width : Int) :
    List Nat → Ending × List (List country_color)
  | [] => (.returns, [])
  | y :: ys =>
    match write_png_file.row fuel table env.malloc y (List.range width.toNat) with
    | .fault f => (.undefined f, [])
    | .ret row =>
      if env.png_write_row y then
        let rest := write_png_file.loop env fuel table width ys
        (rest.1, row :: rest.2)
      else (.aborts, [])

/-- The function `write_png_file`.  Every failure of `fopen` or of libpng calls `abort_`. -/
def write_png_file (env : Env) (fuel : Nat) (table : zl_table) (file_name : Option String) :
    PngRun :=
  match mulInt32 360 (zl_deg_pixels table), mulInt32 180 (zl_deg_pixels table) with
  | some width, some height =>
    match fopen env file_name with
    | none => { ending := .aborts, opened := none, rows := [] }
    | some fp =>
      if env.png_header then
        match mulInt32 width 3 with
        | none => { ending := .undefined .outOfRange, opened := some fp, rows := [] }
        | some _ =>
          let body := write_png_file.loop env fuel table width (List.range height.toNat)
          match body.1 with
          | .returns =>
            if env.png_write_end then { ending := .returns, opened := some fp, rows := body.2 }
            else { ending := .aborts, opened := some fp, rows := body.2 }
          | ending => { ending := ending, opened := some fp, rows := body.2 }
      else { ending := .aborts, opened := some fp, rows := [] }
  | _, _ => { ending := .undefined .outOfRange, opened := none, rows := [] }

/-- How a run of the program ends: `main` returns an exit code, the process is ended by
`abort`, or the behaviour of the run is undefined. -/
inductive Exit where
  | returned (code : Int)
  | aborted
  | undefined (f : Fault)
  deriving DecidableEq, Repr

/-- What a run of `main` does: how it ends, whether it printed the usage line, the file it
has opened and the rows of pixels it has written. -/
structure MainRun where
  exit : Exit
  usage : Bool
  opened : Option String
  rows : List (List country_color)
  deriving DecidableEq, Repr

/-- The function `main` of `zonelooker_output.c`, run on the table that `zl_get_table`
returns.  `argv` holds the arguments, the program name first; the entry after the last
argument is `NULL`, so `argv[argc]` is `none`. -/
def main (env : Env) (fuel : Nat) (table : zl_table) (argc : Int) (argv : List String) :
    MainRun :=
  if argc = 1 then
    let run := write_png_file env fuel table argv[1]?
    { exit :=
        match run.ending with
        | .returns => .returned 0
        | .aborts => .aborted
        | .undefined f => .undefined f
      usage := false, opened := run.opened, rows := run.rows }
  else
    { exit := .returned 1, usage := true, opened := none, rows := [] }

/-! ## Walkers of the specification -/

/-- The loop body of `zoneLokupPixel` run over the given levels in the given order: a level
that yields a code ends the walk, a miss or a `NULL` result moves on to the next level. -/
def walkLevels (fuel : Nat) (table : zl_table) (x y : Int) : List Nat → Outcome Zone
  | [] => .ret none
  | level :: rest =>
    match zoomLevelLookupTile fuel table level x y (pixelKey level x y) with
    | .ret (some zone) => .ret (some zone)
    | .ret none => walkLevels fuel table x y rest
    | .fault f => .fault f

/-- The walker of section 4.4 of the specification over the given levels in the given order:
the first level whose index has the key decides, and its answer is final even when it is
`NULL`. -/
def walkLevelsFirstHit (fuel : Nat) (table : zl_table) (x y : Int) : List Nat → Outcome Zone
  | [] => .ret none
  | level :: rest =>
    if h : level < 6 then
      match searchTileKey (table.zoom_levels ⟨level, h⟩) (pixelKey level x y) with
      | .ret none => walkLevelsFirstHit fuel table x y rest
      | .ret (some tile) => leafLookupZone table x y (pixelKey level x y) fuel tile.idx
      | .fault f => .fault f
    else .fault .outOfBounds

/-- The levels in the order fine to coarse. -/
def fineToCoarse : List Nat := [0, 1, 2, 3, 4, 5]

/-! ## Example tables -/

/-- A uniform leaf with the given code. -/
def uniformLeaf (code : String) : zl_leaf :=
  { type := 'S', name := some code, pixmap := [], idx := fun _ => 0, bits := 0 }

/-- A pixmap leaf with the given 128 bytes. -/
def pixmapLeaf (bytes : List Nat) : zl_leaf :=
  { type := 'P', name := none, pixmap := bytes, idx := fun _ => 0, bits := 0 }

/-- A bitmap leaf with the given indices and mask. -/
def bitmapLeaf (idx0 idx1 bits : Nat) : zl_leaf :=
  { type := '2', name := none, pixmap := [], idx := fun s => if s = 0 then idx0 else idx1,
    bits := bits }

/-- A table in which the pixel `(0, 0)` is covered twice: by a level 5 tile whose leaf is a
pixmap of ocean cells, and by a level 0 tile whose leaf is the uniform leaf `DE`. -/
def overlapTable : zl_table :=
  { deg_pixels := 12
    zoom_levels := fun l =>
      if l = 5 then ⟨[⟨TILEKEY 5 0 0, 1⟩]⟩ else if l = 0 then ⟨[⟨TILEKEY 0 0 0, 0⟩]⟩ else ⟨[]⟩
    leaves := [uniformLeaf "DE", pixmapLeaf (List.replicate 128 255)] }

/-- A table with one level 0 tile, which covers the pixels `(8..15, 0..7)`; its leaf is a
bitmap that chooses between the uniform leaves `DE` and `FR`. -/
def borderTable : zl_table :=
  { deg_pixels := 12
    zoom_levels := fun l => if l = 0 then ⟨[⟨TILEKEY 0 1 0, 2⟩]⟩ else ⟨[]⟩
    leaves := [uniformLeaf "DE", uniformLeaf "FR", bitmapLeaf 0 1 0xFF00] }

/-- A table without tiles whose resolution, 12000000 pixels per degree, exceeds what the
`int` pixel coordinates can hold: `180 * 12000000 > 2 ^ 31 - 1`. -/
def fineTable : zl_table :=
  { deg_pixels := 12000000, zoom_levels := fun _ => ⟨[]⟩, leaves := [] }

/-- A table without tiles and leaves, with the given number of pixels per degree. -/
def plainTable (deg_pixels : Int) : zl_table :=
  { deg_pixels := deg_pixels, zoom_levels := fun _ => ⟨[]⟩, leaves := [] }

/-- A table of two pixmap leaves: the cell `(0, 0)` of leaf 0 names leaf 1, and every cell of
leaf 1 is the ocean sentinel. -/
def chainTable : zl_table :=
  { deg_pixels := 12
    zoom_levels := fun _ => ⟨[]⟩
    leaves := [pixmapLeaf ([0, 1] ++ List.replicate 126 255),
      pixmapLeaf (List.replicate 128 255)] }

/-- A malformed table: its only leaf is a bitmap whose two indices name the leaf itself. -/
def selfLoopTable : zl_table :=
  { deg_pixels := 12
    zoom_levels := fun l => if l = 0 then ⟨[⟨TILEKEY 0 0 0, 0⟩]⟩ else ⟨[]⟩
    leaves := [bitmapLeaf 0 0 0] }

/-- A malformed table: the leaf of its level 0 tile has the unknown tag `'X'`. -/
def badTagTable : zl_table :=
  { deg_pixels := 12
    zoom_levels := fun l => if l = 0 then ⟨[⟨TILEKEY 0 0 0, 0⟩]⟩ else ⟨[]⟩
    leaves := [{ type := 'X', name := none, pixmap := [], idx := fun _ => 0, bits := 0 }] }

/-- An environment in which every file can be opened and every call succeeds. -/
def goodEnv : Env :=
  { can_open := fun _ => true
    png_header := true
    malloc := true
    png_write_row := fun _ => true
    png_write_end := true }

/-! ## The binary search -/

theorem StrictlySorted.pairwise {zl : zl_zoom_level} (hs : StrictlySorted zl) :
    zl.tiles.Pairwise (fun a b => a.key < b.key) := hs

theorem StrictlySorted.lt_of_lt {zl : zl_zoom_level} (hs : StrictlySorted zl) {m n : Nat}
    (hm : m < zl.tiles.length) (hn : n < zl.tiles.length) (hmn : m < n) :
    zl.tiles[m].key < zl.tiles[n].key :=
  List.pairwise_iff_getElem.mp hs.pairwise m n hm hn hmn

theorem StrictlySorted.le_of_le {zl : zl_zoom_level} (hs : StrictlySorted zl) {m n : Nat}
    (hm : m < zl.tiles.length) (hn : n < zl.tiles.length) (hmn : m ≤ n) :
    zl.tiles[m].key ≤ zl.tiles[n].key := by
  rcases Nat.eq_or_lt_of_le hmn with h | h
  · subst h; exact Nat.le_refl _
  · exact Nat.le_of_lt (hs.lt_of_lt hm hn h)

/-- In a strictly sorted level, two entries with the same key are the same entry. -/
theorem StrictlySorted.eq_of_key_eq {zl : zl_zoom_level} (hs : StrictlySorted zl)
    {t u : zl_tile} (ht : t ∈ zl.tiles) (hu : u ∈ zl.tiles) (h : t.key = u.key) : t = u := by
  obtain ⟨m, hm, rfl⟩ := List.getElem_of_mem ht
  obtain ⟨n, hn, rfl⟩ := List.getElem_of_mem hu
  rcases Nat.lt_trichotomy m n with hlt | heq | hgt
  · have := hs.lt_of_lt hm hn hlt; omega
  · subst heq; rfl
  · have := hs.lt_of_lt hn hm hgt; omega

/-- The loop invariant of the binary search: when every entry before `i` is below the key
and every entry from `j` on is above it, the loop on `[i, j)` returns an entry with the key
if there is one and `NULL` otherwise, provided the fuel exceeds the width of the interval. -/
theorem searchTileKey_loop_fuel (zl : zl_zoom_level) (key : Nat) (hs : StrictlySorted zl) :
    ∀ (fuel i j : Nat), j ≤ zl.tiles.length → j - i < fuel →
      (∀ n (h : n < zl.tiles.length), n < i → zl.tiles[n].key < key) →
      (∀ n (h : n < zl.tiles.length), j ≤ n → key < zl.tiles[n].key) →
      (∃ t ∈ zl.tiles, t.key = key ∧ searchTileKey.loop zl key fuel i j = .ret (some t)) ∨
      ((∀ t ∈ zl.tiles, t.key ≠ key) ∧ searchTileKey.loop zl key fuel i j = .ret none) := by
  intro fuel
  induction fuel with
  | zero => intro i j _ h; omega
  | succ fuel ih =>
    intro i j hj hf hlo hhi
    have hh : (i + j) >>> 1 = (i + j) / 2 := by simp [Nat.shiftRight_eq_div_pow]
    unfold searchTileKey.loop
    by_cases hij : i < j
    · have hlt : (i + j) / 2 < zl.tiles.length := by omega
      simp only [hij, if_true, hh, List.getElem?_eq_getElem hlt]
      by_cases heq : zl.tiles[(i + j) / 2].key = key
      · exact Or.inl ⟨_, List.getElem_mem _, heq, by simp [heq]⟩
      · by_cases hgt : zl.tiles[(i + j) / 2].key > key
        · simp only [heq, hgt, if_false, if_true]
          refine ih i ((i + j) / 2) (by omega) (by omega) hlo ?_
          intro n h hn
          exact Nat.lt_of_lt_of_le hgt (hs.le_of_le hlt h hn)
        · simp only [heq, hgt, if_false]
          refine ih ((i + j) / 2 + 1) j hj (by omega) ?_ hhi
          intro n h hn
          have := hs.le_of_le h hlt (by omega)
          omega
    · simp only [hij, if_false]
      refine Or.inr ⟨?_, trivial⟩
      intro t ht
      obtain ⟨n, hn, rfl⟩ := List.getElem_of_mem ht
      by_cases hni : n < i
      · have := hlo n hn hni; omega
      · have := hhi n hn (by omega); omega

/-- On a strictly sorted level `searchTileKey` returns the entry with the key, or `NULL` when
there is none. -/
theorem searchTileKey_eq_find (zl : zl_zoom_level) (key : Nat) (hs : StrictlySorted zl) :
    searchTileKey zl key = .ret (zl.tiles.find? (fun t => t.key = key)) := by
  have h := searchTileKey_loop_fuel zl key hs (zl.count + 1) 0 zl.count (Nat.le_refl _)
    (by simp [zl_zoom_level.count]) (fun n _ hn => absurd hn (Nat.not_lt_zero n))
    (fun n h hn => absurd hn (by simp [zl_zoom_level.count]; omega))
  rcases h with ⟨t, ht, hk, hr⟩ | ⟨hno, hr⟩
  · unfold searchTileKey
    rw [hr]
    cases hf : zl.tiles.find? (fun t => t.key = key) with
    | none =>
      have := List.find?_eq_none.mp hf t ht
      simp [hk] at this
    | some u =>
      have hu := List.mem_of_find?_eq_some hf
      have hku := List.find?_some hf
      simp only [decide_eq_true_eq] at hku
      rw [hs.eq_of_key_eq ht hu (hk.trans hku.symm)]
  · unfold searchTileKey
    rw [hr]
    have : zl.tiles.find? (fun t => t.key = key) = none := by
      rw [List.find?_eq_none]
      intro t ht
      simpa using hno t ht
    rw [this]

/-- On a strictly sorted level the search returns the entry that has the key. -/
theorem searchTileKey_of_mem (zl : zl_zoom_level) (k : Nat) (hs : StrictlySorted zl)
    (t : zl_tile) (ht : t ∈ zl.tiles) (hk : t.key = k) :
    searchTileKey zl k = .ret (some t) := by
  rw [searchTileKey_eq_find zl k hs]
  cases hf : zl.tiles.find? (fun t => t.key = k) with
  | none =>
    have := List.find?_eq_none.mp hf t ht
    simp [hk] at this
  | some u =>
    have hu := List.mem_of_find?_eq_some hf
    have hku := List.find?_some hf
    simp only [decide_eq_true_eq] at hku
    rw [hs.eq_of_key_eq ht hu (hk.trans hku.symm)]

/-- On a strictly sorted level the search returns `NULL` when no entry has the key. -/
theorem searchTileKey_of_absent (zl : zl_zoom_level) (k : Nat) (hs : StrictlySorted zl)
    (hno : ∀ t ∈ zl.tiles, t.key ≠ k) : searchTileKey zl k = .ret none := by
  rw [searchTileKey_eq_find zl k hs]
  have : zl.tiles.find? (fun t => t.key = k) = none := by
    rw [List.find?_eq_none]
    intro t ht
    simpa using hno t ht
  rw [this]

/-! ## The pyramid walker -/

/-- The binary search never faults: the probe index stays inside the array and the fuel
suffices, whether or not the level is sorted. -/
theorem searchTileKey_loop_ret (zl : zl_zoom_level) (key : Nat) :
    ∀ (fuel i j : Nat), j ≤ zl.tiles.length → j - i < fuel →
      ∃ r, searchTileKey.loop zl key fuel i j = .ret r := by
  intro fuel
  induction fuel with
  | zero => intro i j _ h; omega
  | succ fuel ih =>
    intro i j hj hf
    have hh : (i + j) >>> 1 = (i + j) / 2 := by simp [Nat.shiftRight_eq_div_pow]
    unfold searchTileKey.loop
    by_cases hij : i < j
    · have hlt : (i + j) / 2 < zl.tiles.length := by omega
      simp only [hij, if_true, hh, List.getElem?_eq_getElem hlt]
      by_cases heq : zl.tiles[(i + j) / 2].key = key
      · exact ⟨some zl.tiles[(i + j) / 2], by simp [heq]⟩
      · by_cases hgt : zl.tiles[(i + j) / 2].key > key
        · simp only [heq, hgt, if_false, if_true]
          exact ih i ((i + j) / 2) (by omega) (by omega)
        · simp only [heq, hgt, if_false]
          exact ih ((i + j) / 2 + 1) j hj (by omega)
    · exact ⟨none, by simp [hij]⟩

theorem searchTileKey_ne_fault (zl : zl_zoom_level) (key : Nat) :
    ∃ r, searchTileKey zl key = .ret r :=
  searchTileKey_loop_ret zl key (zl.count + 1) 0 zl.count (Nat.le_refl _)
    (by simp [zl_zoom_level.count])

/-- The result of `zoomLevelLookupTile` when the search finds an entry. -/
theorem zoomLevelLookupTile_found (fuel : Nat) (table : zl_table) (l : Fin 6) (x y : Int)
    (tk : Nat) (t : zl_tile) (h : searchTileKey (table.zoom_levels l) tk = .ret (some t)) :
    zoomLevelLookupTile fuel table l x y tk = leafLookupZone table x y tk fuel t.idx := by
  unfold zoomLevelLookupTile
  simp only [l.isLt, dite_true, Fin.eta, h]

/-- The result of `zoomLevelLookupTile` when the search finds nothing. -/
theorem zoomLevelLookupTile_none (fuel : Nat) (table : zl_table) (l : Fin 6) (x y : Int)
    (tk : Nat) (h : searchTileKey (table.zoom_levels l) tk = .ret none) :
    zoomLevelLookupTile fuel table l x y tk = .ret none := by
  unfold zoomLevelLookupTile
  simp only [l.isLt, dite_true, Fin.eta, h]

/-- The loop of `zoneLokupPixel` passes over the levels at which the tile lookup is `NULL`. -/
theorem zoneLokupPixel_loop_skip (fuel : Nat) (table : zl_table) (x y : Int) (m : Nat) :
    ∀ n, m ≤ n →
      (∀ l, m ≤ l → l < n → zoomLevelLookupTile fuel table l x y (pixelKey l x y) = .ret none) →
      zoneLokupPixel.loop fuel table x y n = zoneLokupPixel.loop fuel table x y m := by
  intro n
  induction n with
  | zero => intro hm _; have : m = 0 := by omega
            subst this; rfl
  | succ n ih =>
    intro hm hnone
    rcases Nat.eq_or_lt_of_le hm with h | h
    · rw [h]
    · have hn := hnone n (by omega) (by omega)
      rw [zoneLokupPixel.loop, hn]
      exact ih (by omega) (fun l h1 h2 => hnone l h1 (by omega))

/-! ## Machine arithmetic: lemmas -/

theorem maskBits_lt (v : Int) (k : Nat) : maskBits v k < 2 ^ k := by
  unfold maskBits
  have hpos : (0 : Int) < 2 ^ k := by positivity
  have h1 := Int.emod_nonneg v (ne_of_gt hpos)
  have h2 := Int.emod_lt_of_pos v hpos
  have : ((v % 2 ^ k).toNat : Int) < ((2 ^ k : Nat) : Int) := by
    rw [Int.toNat_of_nonneg h1]; push_cast; exact h2
  exact_mod_cast this

theorem low3_lt (v : Int) : low3 v < 8 := maskBits_lt v 3

theorem maskBits_natCast (n k : Nat) : maskBits (n : Int) k = n % 2 ^ k := by
  unfold maskBits
  have : ((n : Int) % 2 ^ k) = ((n % 2 ^ k : Nat) : Int) := by push_cast; rfl
  rw [this, Int.toNat_ofNat]

/-- The bitwise and of a C `int` with the mask `2 ^ k - 1` is the Euclidean remainder modulo
`2 ^ k`, for negative values too: this is what `maskBits` computes. -/
theorem land_mask_eq_maskBits (v : Int) (k : Nat) :
    Int.land v ((2 ^ k - 1 : Nat) : Int) = (maskBits v k : Int) := by
  cases v with
  | ofNat n =>
    show ((n &&& (2 ^ k - 1) : Nat) : Int) = _
    rw [Nat.and_pow_two_sub_one_eq_mod]
    have := maskBits_natCast n k
    simp only [Int.ofNat_eq_coe, this]
  | negSucc n =>
    show ((Nat.ldiff (2 ^ k - 1) n : Nat) : Int) = _
    have hpos : 0 < 2 ^ k := Nat.two_pow_pos k
    have hlt : n % 2 ^ k < 2 ^ k := Nat.mod_lt _ hpos
    have h1 : Nat.ldiff (2 ^ k - 1) n = 2 ^ k - (n % 2 ^ k + 1) := by
      apply Nat.eq_of_testBit_eq
      intro i
      rw [Nat.testBit_ldiff, Nat.testBit_two_pow_sub_one,
        Nat.testBit_two_pow_sub_succ hlt, Nat.testBit_mod_two_pow]
      by_cases hi : i < k <;> simp [hi]
    have h2 : maskBits (Int.negSucc n) k = 2 ^ k - (n % 2 ^ k + 1) := by
      unfold maskBits
      have : Int.negSucc n % (2 ^ k : Int) = ((2 ^ k - (n % 2 ^ k + 1) : Nat) : Int) := by
        have hk : ((2 : Int) ^ k) = ((2 ^ k : Nat) : Int) := by push_cast; rfl
        rw [hk, Int.emod_negSucc, Int.natAbs_ofNat, Int.subNatNat_eq_coe]
        omega
      rw [this, Int.toNat_ofNat]
    rw [h1, h2]

/-- The test `bits & (1ULL << n)` of `leafLookupBitmap` reads bit `n` of `bits`. -/
theorem and_shift_ne_zero_iff (bits n : Nat) (hn : n < 64) :
    bits &&& ((1 <<< n) % 2 ^ 64) ≠ 0 ↔ bits.testBit n = true := by
  have h1 : (1 <<< n) % 2 ^ 64 = 2 ^ n := by
    rw [Nat.one_shiftLeft]
    exact Nat.mod_eq_of_lt (Nat.pow_lt_pow_right (by decide) hn)
  rw [h1]
  constructor
  · intro h
    by_contra hb
    apply h
    apply Nat.eq_of_testBit_eq
    intro i
    rw [Nat.testBit_and, Nat.testBit_two_pow, Nat.zero_testBit]
    by_cases hi : n = i
    · subst hi; simp [hb]
    · simp [hi]
  · intro hb h
    have : (bits &&& 2 ^ n).testBit n = true := by
      rw [Nat.testBit_and, Nat.testBit_two_pow_self, hb]; rfl
    rw [h, Nat.zero_testBit] at this
    exact Bool.noConfusion this

theorem bitmap_sel_eq (leaf : zl_leaf) (x y : Int) :
    leafLookupBitmap.sel leaf x y
      = if leaf.bits.testBit (8 * low3 y + low3 x) then 1 else 0 := by
  have hx := low3_lt x
  have hy := low3_lt y
  unfold leafLookupBitmap.sel
  by_cases hb : leaf.bits.testBit (8 * low3 y + low3 x) = true
  · have := (and_shift_ne_zero_iff leaf.bits _ (by omega)).mpr hb
    simp only [this, hb, if_true, ne_eq, not_false_eq_true]
  · have := mt (and_shift_ne_zero_iff leaf.bits _ (by omega)).mp hb
    rw [if_neg this, if_neg hb]

/-- On a sorted table, a level with an entry for the key resolves the leaf of that entry. -/
theorem zoomLevelLookupTile_of_mem (fuel : Nat) (table : zl_table) (hs : SortedTable table)
    (l : Fin 6) (x y : Int) (tk : Nat) (t : zl_tile) (ht : t ∈ (table.zoom_levels l).tiles)
    (hk : t.key = tk) :
    zoomLevelLookupTile fuel table l x y tk = leafLookupZone table x y tk fuel t.idx :=
  zoomLevelLookupTile_found fuel table l x y tk t (searchTileKey_of_mem _ tk (hs l) t ht hk)

/-- On a sorted table, a level without an entry for the key yields `NULL`. -/
theorem zoomLevelLookupTile_of_absent (fuel : Nat) (table : zl_table) (hs : SortedTable table)
    (l : Fin 6) (x y : Int) (tk : Nat) (hno : ¬ HasKey (table.zoom_levels l) tk) :
    zoomLevelLookupTile fuel table l x y tk = .ret none :=
  zoomLevelLookupTile_none fuel table l x y tk
    (searchTileKey_of_absent _ tk (hs l) (fun t ht hk => hno ⟨t, ht, hk⟩))

/-- The loop of `zoneLokupPixel` is the walk over the levels `n - 1, ..., 0`. -/
theorem zoneLokupPixel_loop_eq_walk (fuel : Nat) (table : zl_table) (x y : Int) (n : Nat) :
    zoneLokupPixel.loop fuel table x y n = walkLevels fuel table x y (List.range n).reverse := by
  induction n with
  | zero => rfl
  | succ n ih =>
    rw [List.range_succ, List.reverse_append, List.reverse_singleton, List.singleton_append,
      zoneLokupPixel.loop, walkLevels, ih]

/-- A walk over levels that all yield `NULL` yields `NULL`. -/
theorem walkLevels_all_none (fuel : Nat) (table : zl_table) (x y : Int) (ls : List Nat)
    (h : ∀ l ∈ ls, zoomLevelLookupTile fuel table l x y (pixelKey l x y) = .ret none) :
    walkLevels fuel table x y ls = .ret none := by
  induction ls with
  | nil => rfl
  | cons l rest ih =>
    rw [walkLevels, h l (List.mem_cons_self _ _)]
    exact ih (fun l' hl' => h l' (List.mem_cons_of_mem _ hl'))

/-- A walk in which only the level `L` can yield something other than `NULL` yields what
level `L` yields, whatever the order of the levels. -/
theorem walkLevels_single (fuel : Nat) (table : zl_table) (x y : Int) (L : Nat)
    (ls : List Nat) (hL : L ∈ ls)
    (h : ∀ l ∈ ls, l ≠ L → zoomLevelLookupTile fuel table l x y (pixelKey l x y) = .ret none) :
    walkLevels fuel table x y ls = zoomLevelLookupTile fuel table L x y (pixelKey L x y) := by
  induction ls with
  | nil => cases hL
  | cons l rest ih =>
    have hrest : ∀ l' ∈ rest, l' ≠ L →
        zoomLevelLookupTile fuel table l' x y (pixelKey l' x y) = .ret none :=
      fun l' hl' => h l' (List.mem_cons_of_mem _ hl')
    by_cases hl : l = L
    · subst hl
      rw [walkLevels]
      cases hr : zoomLevelLookupTile fuel table l x y (pixelKey l x y) with
      | fault f => rfl
      | ret v =>
        cases v with
        | some z => rfl
        | none =>
          simp only []
          by_cases hin : l ∈ rest
          · rw [ih hin hrest, hr]
          · exact walkLevels_all_none fuel table x y rest
              (fun l' hl' => hrest l' hl' (fun he => hin (he ▸ hl')))
    · rw [walkLevels, h l (List.mem_cons_self _ _) hl]
      rcases List.mem_cons.mp hL with he | hin
      · exact absurd he.symm hl
      · exact ih hin hrest

/-- A first-hit walk over levels that all miss the key yields `NULL`. -/
theorem walkLevelsFirstHit_all_miss (fuel : Nat) (table : zl_table) (x y : Int)
    (ls : List Nat) (hlt : ∀ l ∈ ls, l < 6)
    (h : ∀ l : Fin 6, l.val ∈ ls →
      searchTileKey (table.zoom_levels l) (pixelKey l x y) = .ret none) :
    walkLevelsFirstHit fuel table x y ls = .ret none := by
  induction ls with
  | nil => rfl
  | cons l rest ih =>
    have hl := hlt l (List.mem_cons_self _ _)
    rw [walkLevelsFirstHit, dif_pos hl, h ⟨l, hl⟩ (List.mem_cons_self _ _)]
    exact ih (fun l' hl' => hlt l' (List.mem_cons_of_mem _ hl'))
      (fun l' hl' => h l' (List.mem_cons_of_mem _ hl'))

/-- A first-hit walk in which only the level `L` has the key resolves the entry of `L`. -/
theorem walkLevelsFirstHit_single (fuel : Nat) (table : zl_table) (x y : Int) (L : Fin 6)
    (t : zl_tile) (ls : List Nat) (hlt : ∀ l ∈ ls, l < 6) (hL : L.val ∈ ls)
    (hhit : searchTileKey (table.zoom_levels L) (pixelKey L x y) = .ret (some t))
    (h : ∀ l : Fin 6, l.val ∈ ls → l ≠ L →
      searchTileKey (table.zoom_levels l) (pixelKey l x y) = .ret none) :
    walkLevelsFirstHit fuel table x y ls
      = leafLookupZone table x y (pixelKey L x y) fuel t.idx := by
  induction ls with
  | nil => cases hL
  | cons l rest ih =>
    have hl := hlt l (List.mem_cons_self _ _)
    by_cases he : l = L.val
    · have hFin : (⟨l, hl⟩ : Fin 6) = L := Fin.ext he
      rw [walkLevelsFirstHit, dif_pos hl, hFin, he, hhit]
    · have hne : (⟨l, hl⟩ : Fin 6) ≠ L := fun hc => he (congrArg Fin.val hc)
      rw [walkLevelsFirstHit, dif_pos hl, h ⟨l, hl⟩ (List.mem_cons_self _ _) hne]
      rcases List.mem_cons.mp hL with hc | hin
      · exact absurd hc.symm he
      · exact ih (fun l' hl' => hlt l' (List.mem_cons_of_mem _ hl')) hin
          (fun l' hl' => h l' (List.mem_cons_of_mem _ hl'))

/-- The result of `zoneLokupPixel`, of the fine-to-coarse walk and of the fine-to-coarse
first-hit walk when `L` is the only level that has the key of the pixel. -/
theorem walkers_of_single_match (fuel : Nat) (table : zl_table) (x y : Int)
    (hs : SortedTable table) (L : Fin 6) (t : zl_tile)
    (ht : t ∈ (table.zoom_levels L).tiles) (hk : t.key = pixelKey L x y)
    (hother : ∀ l : Fin 6, l ≠ L → ¬ Matches table x y l) :
    zoneLokupPixel fuel table x y = leafLookupZone table x y (pixelKey L x y) fuel t.idx ∧
    walkLevels fuel table x y fineToCoarse
      = leafLookupZone table x y (pixelKey L x y) fuel t.idx ∧
    walkLevelsFirstHit fuel table x y fineToCoarse
      = leafLookupZone table x y (pixelKey L x y) fuel t.idx := by
  have hLv := zoomLevelLookupTile_of_mem fuel table hs L x y _ t ht hk
  have hnone : ∀ (ls : List Nat), (∀ l ∈ ls, l < 6) → ∀ l ∈ ls, l ≠ L.val →
      zoomLevelLookupTile fuel table l x y (pixelKey l x y) = .ret none := by
    intro ls hlt l hl hne
    have h6 := hlt l hl
    exact zoomLevelLookupTile_of_absent fuel table hs ⟨l, h6⟩ x y _
      (hother ⟨l, h6⟩ (fun hc => hne (congrArg Fin.val hc)))
  have hmem : ∀ (ls : List Nat), (∀ n, n < 6 → n ∈ ls) → L.val ∈ ls :=
    fun ls h => h L.val L.isLt
  refine ⟨?_, ?_, ?_⟩
  · unfold zoneLokupPixel
    rw [zoneLokupPixel_loop_eq_walk,
      walkLevels_single fuel table x y L.val _ (hmem _ (by decide))
        (hnone _ (by decide)), hLv]
  · rw [walkLevels_single fuel table x y L.val _ (hmem _ (by decide))
        (hnone _ (by decide)), hLv]
  · exact walkLevelsFirstHit_single fuel table x y L t fineToCoarse (by decide)
      (hmem _ (by decide)) (searchTileKey_of_mem _ _ (hs L) t ht hk)
      (fun l _ hne => searchTileKey_of_absent _ _ (hs l)
        (fun u hu hku => hother l hne ⟨u, hu, hku⟩))

/-- The result of `zoneLokupPixel`, of the fine-to-coarse walk and of the fine-to-coarse
first-hit walk when no level has the key of the pixel. -/
theorem walkers_of_no_match (fuel : Nat) (table : zl_table) (x y : Int)
    (hs : SortedTable table) (hno : ∀ l : Fin 6, ¬ Matches table x y l) :
    zoneLokupPixel fuel table x y = .ret none ∧
    walkLevels fuel table x y fineToCoarse = .ret none ∧
    walkLevelsFirstHit fuel table x y fineToCoarse = .ret none := by
  have hnone : ∀ (ls : List Nat), (∀ l ∈ ls, l < 6) → ∀ l ∈ ls,
      zoomLevelLookupTile fuel table l x y (pixelKey l x y) = .ret none := by
    intro ls hlt l hl
    exact zoomLevelLookupTile_of_absent fuel table hs ⟨l, hlt l hl⟩ x y _ (hno ⟨l, hlt l hl⟩)
  refine ⟨?_, ?_, ?_⟩
  · unfold zoneLokupPixel
    rw [zoneLokupPixel_loop_eq_walk]
    exact walkLevels_all_none fuel table x y _ (hnone _ (by decide))
  · exact walkLevels_all_none fuel table x y _ (hnone _ (by decide))
  · exact walkLevelsFirstHit_all_miss fuel table x y fineToCoarse (by decide)
      (fun l _ => searchTileKey_of_absent _ _ (hs l) (fun u hu hku => hno l ⟨u, hu, hku⟩))

/-! ## Floating point rounding -/

/-- An integer is its own rounding. -/
theorem roundHalfEven_intCast (n : Int) : roundHalfEven (n : ℚ) = n := by
  unfold roundHalfEven
  simp

/-- Rounding to an integer does not cross an integer below the value. -/
theorem roundHalfEven_ge (t : ℚ) (n : Int) (h : (n : ℚ) ≤ t) : n ≤ roundHalfEven t := by
  have hf : n ≤ ⌊t⌋ := Int.le_floor.mpr h
  unfold roundHalfEven
  simp only []
  split_ifs <;> omega

/-- Rounding to an integer does not cross an integer above the value. -/
theorem roundHalfEven_le (t : ℚ) (n : Int) (h : t ≤ (n : ℚ)) : roundHalfEven t ≤ n := by
  have h1 : (⌊t⌋ : ℚ) ≤ t := Int.floor_le t
  have h2 : t < ⌊t⌋ + 1 := Int.lt_floor_add_one t
  unfold roundHalfEven
  simp only []
  by_cases hr : t - ⌊t⌋ < 1 / 2
  · rw [if_pos hr]
    exact Int.cast_le.mp (le_trans h1 h)
  · have hlt : (⌊t⌋ : ℚ) < n := by linarith
    have : ⌊t⌋ < n := by exact_mod_cast hlt
    rw [if_neg hr]
    split_ifs <;> omega

/-- Rounding to an integer moves the value by at most one half. -/
theorem roundHalfEven_sub_le (t : ℚ) : |(roundHalfEven t : ℚ) - t| ≤ 1 / 2 := by
  have h1 : (⌊t⌋ : ℚ) ≤ t := Int.floor_le t
  have h2 : t < ⌊t⌋ + 1 := Int.lt_floor_add_one t
  unfold roundHalfEven
  simp only []
  rw [abs_le]
  split_ifs with ha hb hc <;> push_cast <;> constructor <;> linarith

/-- A value half way between two integers rounds to the even one. -/
theorem roundHalfEven_tie (n : Int) :
    roundHalfEven ((n : ℚ) + 1 / 2) = if n % 2 = 0 then n else n + 1 := by
  have hfl : ⌊(n : ℚ) + 1 / 2⌋ = n := by
    rw [Int.floor_eq_iff]
    constructor <;> linarith
  unfold roundHalfEven
  simp only [hfl]
  rw [if_neg (by linarith), if_neg (by linarith)]

/-- The binade of a positive value determines its logarithm. -/
theorem log_of_binade (r : ℚ) (L : Int) (h1 : (2 : ℚ) ^ L ≤ r) (h2 : r < (2 : ℚ) ^ (L + 1)) :
    Int.log 2 r = L := by
  have hr : 0 < r := lt_of_lt_of_le (zpow_pos (by norm_num) L) h1
  have a : L ≤ Int.log 2 r := by
    have := (Int.zpow_le_iff_le_log (b := 2) (by norm_num) (x := L) hr).mp (by simpa using h1)
    exact this
  have b : Int.log 2 r < L + 1 := by
    have := (Int.lt_zpow_iff_log_lt (b := 2) (by norm_num) (x := L + 1) hr).mp (by simpa using h2)
    exact this
  omega

/-- The rounding of a value in the binade `[2 ^ L, 2 ^ (L + 1))`. -/
theorem flround_of_binade (p : Nat) (q : ℚ) (L : Int) (h1 : (2 : ℚ) ^ L ≤ |q|)
    (h2 : |q| < (2 : ℚ) ^ (L + 1)) :
    flround p q = roundHalfEven (q / 2 ^ (L - (p - 1))) * 2 ^ (L - (p - 1)) := by
  have hq : q ≠ 0 := by
    intro h
    rw [h, abs_zero] at h1
    exact absurd h1 (not_le.mpr (zpow_pos (by norm_num) L))
  unfold flround
  rw [if_neg hq]
  simp only [log_of_binade |q| L h1 h2]

/-- The binade of a nonzero value. -/
theorem binade_log (q : ℚ) (hq : q ≠ 0) :
    (2 : ℚ) ^ (Int.log 2 |q|) ≤ |q| ∧ |q| < (2 : ℚ) ^ (Int.log 2 |q| + 1) := by
  have hpos : 0 < |q| := abs_pos.mpr hq
  constructor
  · have := Int.zpow_log_le_self (b := 2) (by norm_num) hpos
    simpa using this
  · have := Int.lt_zpow_succ_log_self (b := 2) (by norm_num) |q|
    simpa using this

/-- A value `m * 2 ^ k` whose significand `m` has at most `p` bits is its own rounding. -/
theorem flround_repr (p : Nat) (m k : Int) (hm : |m| < 2 ^ p) :
    flround p ((m : ℚ) * 2 ^ k) = (m : ℚ) * 2 ^ k := by
  by_cases hm0 : m = 0
  · simp [hm0, flround]
  have h2 : (0 : ℚ) < 2 := by norm_num
  have hq : (m : ℚ) * 2 ^ k ≠ 0 :=
    mul_ne_zero (by exact_mod_cast hm0) (zpow_ne_zero _ (by norm_num))
  obtain ⟨hb1, hb2⟩ := binade_log _ hq
  rw [flround_of_binade p _ _ hb1 hb2]
  generalize Int.log 2 |(m : ℚ) * 2 ^ k| = L at hb1 hb2
  have habs : |(m : ℚ) * 2 ^ k| = |(m : ℚ)| * 2 ^ k := by
    rw [abs_mul, abs_of_pos (zpow_pos h2 k)]
  have hmq : |(m : ℚ)| < 2 ^ (p : Int) := by
    have : ((|m| : Int) : ℚ) < ((2 ^ p : Int) : ℚ) := by exact_mod_cast hm
    rw [zpow_natCast]
    simpa using this
  have hlt : (2 : ℚ) ^ L < 2 ^ ((p : Int) + k) := by
    calc (2 : ℚ) ^ L ≤ |(m : ℚ)| * 2 ^ k := by rw [← habs]; exact hb1
      _ < 2 ^ (p : Int) * 2 ^ k := mul_lt_mul_of_pos_right hmq (zpow_pos h2 k)
      _ = 2 ^ ((p : Int) + k) := by rw [zpow_add₀ (by norm_num)]
  have hL : L < (p : Int) + k := (zpow_lt_zpow_iff_right₀ (by norm_num)).mp hlt
  obtain ⟨d, hd⟩ : ∃ d : Nat, k = (L - ((p : Int) - 1)) + d :=
    ⟨(k - (L - ((p : Int) - 1))).toNat, by omega⟩
  have hdiv : (m : ℚ) * 2 ^ k / 2 ^ (L - ((p : Int) - 1)) = ((m * 2 ^ d : Int) : ℚ) := by
    rw [hd, zpow_add₀ (by norm_num), zpow_natCast]
    have : (2 : ℚ) ^ (L - ((p : Int) - 1)) ≠ 0 := zpow_ne_zero _ (by norm_num)
    field_simp
    ring
  rw [hdiv, roundHalfEven_intCast]
  have hk : (2 : ℚ) ^ k = 2 ^ (L - ((p : Int) - 1)) * 2 ^ d := by
    conv_lhs => rw [hd]
    rw [zpow_add₀ (by norm_num), zpow_natCast]
  rw [hk]
  push_cast
  ring

/-- An integer of at most `p` bits is its own rounding. -/
theorem flround_intCast (p : Nat) (n : Int) (hn : |n| < 2 ^ p) : flround p (n : ℚ) = n := by
  have := flround_repr p n 0 hn
  simpa using this

/-- The rounding of a value is a significand of at most `p` bits, or `2 ^ p`, at the exponent
of the value. -/
theorem flround_form (p : Nat) (q : ℚ) :
    ∃ m : Int, |m| ≤ 2 ^ p ∧ flround p q = (m : ℚ) * 2 ^ (Int.log 2 |q| - (p - 1)) := by
  by_cases hq : q = 0
  · exact ⟨0, by positivity, by simp [hq, flround]⟩
  obtain ⟨hb1, hb2⟩ := binade_log q hq
  refine ⟨roundHalfEven (q / 2 ^ (Int.log 2 |q| - (p - 1))), ?_,
    flround_of_binade p q _ hb1 hb2⟩
  generalize Int.log 2 |q| = L at hb1 hb2
  have h2 : (0 : ℚ) < 2 := by norm_num
  have hepos : (0 : ℚ) < 2 ^ (L - ((p : Int) - 1)) := zpow_pos h2 _
  have hsplit : (2 : ℚ) ^ (L + 1) = 2 ^ (p : Int) * 2 ^ (L - ((p : Int) - 1)) := by
    rw [← zpow_add₀ (by norm_num)]
    congr 1
    omega
  have habs : |q / 2 ^ (L - ((p : Int) - 1))| < 2 ^ (p : Int) := by
    rw [abs_div, abs_of_pos hepos, div_lt_iff₀ hepos, ← hsplit]
    exact hb2
  rw [zpow_natCast] at habs
  have hc : ((2 ^ p : Int) : ℚ) = 2 ^ p := by push_cast; rfl
  rw [abs_le]
  obtain ⟨ha, hb⟩ := abs_lt.mp habs
  constructor
  · have := roundHalfEven_ge (q / 2 ^ (L - ((p : Int) - 1))) (-(2 ^ p)) (by push_cast; linarith)
    exact this
  · exact roundHalfEven_le _ (2 ^ p) (by rw [hc]; linarith)

/-- The product of a rounded value and an integer is exact in a wider format that has room
for the bits of both. -/
theorem flround_mul_intCast (p p2 : Nat) (q : ℚ) (D : Int) (hD : 2 ^ p * |D| < 2 ^ p2) :
    flround p2 (flround p q * D) = flround p q * D := by
  obtain ⟨m, hm, hf⟩ := flround_form p q
  rw [hf]
  have : (m : ℚ) * 2 ^ (Int.log 2 |q| - ((p : Int) - 1)) * (D : ℚ)
      = ((m * D : Int) : ℚ) * 2 ^ (Int.log 2 |q| - ((p : Int) - 1)) := by
    push_cast; ring
  rw [this]
  apply flround_repr
  rw [abs_mul]
  calc |m| * |D| ≤ 2 ^ p * |D| := mul_le_mul_of_nonneg_right hm (abs_nonneg D)
    _ < 2 ^ p2 := hD

/-- The rounding of a value in the binade `[2 ^ L, 2 ^ (L + 1))` that is half way between two
neighbouring numbers of the format. -/
theorem flround_tie (p : Nat) (q : ℚ) (L n : Int) (h1 : (2 : ℚ) ^ L ≤ |q|)
    (h2 : |q| < (2 : ℚ) ^ (L + 1)) (ht : q / 2 ^ (L - (p - 1)) = (n : ℚ) + 1 / 2) :
    flround p q = ((if n % 2 = 0 then n else n + 1 : Int) : ℚ) * 2 ^ (L - (p - 1)) := by
  rw [flround_of_binade p q L h1 h2, ht, roundHalfEven_tie]

/-- Rounding does not cross a number of the format above the value. -/
theorem flround_le_of_binade (p : Nat) (q : ℚ) (L g : Int) (h1 : (2 : ℚ) ^ L ≤ |q|)
    (h2 : |q| < (2 : ℚ) ^ (L + 1)) (h : q ≤ (g : ℚ) * 2 ^ (L - (p - 1))) :
    flround p q ≤ (g : ℚ) * 2 ^ (L - (p - 1)) := by
  have hepos : (0 : ℚ) < 2 ^ (L - ((p : Int) - 1)) := zpow_pos (by norm_num) _
  rw [flround_of_binade p q L h1 h2]
  have : roundHalfEven (q / 2 ^ (L - ((p : Int) - 1))) ≤ g :=
    roundHalfEven_le _ g ((div_le_iff₀ hepos).mpr h)
  exact mul_le_mul_of_nonneg_right (by exact_mod_cast this) (le_of_lt hepos)

/-- Rounding does not cross a number of the format below the value. -/
theorem flround_ge_of_binade (p : Nat) (q : ℚ) (L g : Int) (h1 : (2 : ℚ) ^ L ≤ |q|)
    (h2 : |q| < (2 : ℚ) ^ (L + 1)) (h : (g : ℚ) * 2 ^ (L - (p - 1)) ≤ q) :
    (g : ℚ) * 2 ^ (L - (p - 1)) ≤ flround p q := by
  have hepos : (0 : ℚ) < 2 ^ (L - ((p : Int) - 1)) := zpow_pos (by norm_num) _
  rw [flround_of_binade p q L h1 h2]
  have : g ≤ roundHalfEven (q / 2 ^ (L - ((p : Int) - 1))) :=
    roundHalfEven_ge _ g ((le_div_iff₀ hepos).mpr h)
  exact mul_le_mul_of_nonneg_right (by exact_mod_cast this) (le_of_lt hepos)

/-- The rounding error is at most half a unit of the last place. -/
theorem flround_sub_le (p : Nat) (q : ℚ) (L : Int) (h1 : (2 : ℚ) ^ L ≤ |q|)
    (h2 : |q| < (2 : ℚ) ^ (L + 1)) :
    |flround p q - q| ≤ 2 ^ (L - (p - 1)) / 2 := by
  have hepos : (0 : ℚ) < 2 ^ (L - ((p : Int) - 1)) := zpow_pos (by norm_num) _
  rw [flround_of_binade p q L h1 h2]
  have h := roundHalfEven_sub_le (q / 2 ^ (L - ((p : Int) - 1)))
  have e : (roundHalfEven (q / 2 ^ (L - ((p : Int) - 1))) : ℚ) * 2 ^ (L - ((p : Int) - 1)) - q
      = ((roundHalfEven (q / 2 ^ (L - ((p : Int) - 1))) : ℚ) - q / 2 ^ (L - ((p : Int) - 1)))
        * 2 ^ (L - ((p : Int) - 1)) := by
    field_simp
  rw [e, abs_mul, abs_of_pos hepos]
  calc _ ≤ 1 / 2 * 2 ^ (L - ((p : Int) - 1)) := mul_le_mul_of_nonneg_right h (le_of_lt hepos)
    _ = 2 ^ (L - ((p : Int) - 1)) / 2 := by ring

/-- A number of the format in the binade `[2 ^ L, 2 ^ (L + 1))` is a multiple of the unit of
the last place of the binade. -/
theorem flround_fixed_form (p : Nat) (q : ℚ) (L : Int) (h1 : (2 : ℚ) ^ L ≤ |q|)
    (h2 : |q| < (2 : ℚ) ^ (L + 1)) (hq : flround p q = q) :
    ∃ m : Int, q = (m : ℚ) * 2 ^ (L - (p - 1)) :=
  ⟨roundHalfEven (q / 2 ^ (L - (p - 1))), by
    conv_lhs => rw [← hq]
    exact flround_of_binade p q L h1 h2⟩

/-! ## The coordinate mapper -/

/-- Truncation toward zero is the floor of a non-negative value and the ceiling of a
negative one. -/
theorem tdiv_num_den (q : ℚ) :
    Int.tdiv q.num q.den = if 0 ≤ q then ⌊q⌋ else ⌈q⌉ := by
  by_cases hq : 0 ≤ q
  · rw [if_pos hq, Rat.floor_def]
    exact Int.tdiv_eq_ediv (Rat.num_nonneg.mpr hq) (Int.ofNat_nonneg _)
  · rw [if_neg hq]
    have hneg : 0 ≤ -q := by linarith [not_le.mp hq]
    have h1 : ⌈q⌉ = -⌊-q⌋ := by rw [Int.floor_neg, neg_neg]
    have h2 : ⌊-q⌋ = (-q.num) / (q.den : Int) := by
      rw [Rat.floor_def, Rat.neg_num, Rat.neg_den]
    have h3 : (-q.num).tdiv (q.den : Int) = (-q.num) / (q.den : Int) :=
      Int.tdiv_eq_ediv (by have := Rat.num_nonneg.mpr hneg; rwa [Rat.neg_num] at this)
        (Int.ofNat_nonneg _)
    rw [h1, h2, ← h3, Int.neg_tdiv, neg_neg]

/-- The conversion to `int` of a value whose truncation is representable. -/
theorem toInt32_of_fits (q : ℚ) (hlo : -(2 ^ 31) - 1 < q) (hhi : q < 2 ^ 31) :
    toInt32 q = some (if 0 ≤ q then ⌊q⌋ else ⌈q⌉) := by
  unfold toInt32
  simp only [tdiv_num_den]
  have hb : -2 ^ 31 ≤ (if 0 ≤ q then ⌊q⌋ else ⌈q⌉) ∧ (if 0 ≤ q then ⌊q⌋ else ⌈q⌉) < 2 ^ 31 := by
    by_cases hq : 0 ≤ q
    · rw [if_pos hq]
      constructor
      · have : (0 : Int) ≤ ⌊q⌋ := Int.floor_nonneg.mpr hq
        omega
      · have : ((⌊q⌋ : Int) : ℚ) < ((2 ^ 31 : Int) : ℚ) := by
          push_cast; exact lt_of_le_of_lt (Int.floor_le q) hhi
        exact_mod_cast this
    · rw [if_neg hq]
      constructor
      · have h : ((-(2 ^ 31) - 1 : Int) : ℚ) < ((⌈q⌉ : Int) : ℚ) := by
          have := lt_of_lt_of_le hlo (Int.le_ceil q)
          push_cast; linarith
        have : (-(2 ^ 31) - 1 : Int) < ⌈q⌉ := by exact_mod_cast h
        omega
      · have : ⌈q⌉ ≤ 0 := Int.ceil_le.mpr (by push_cast; linarith [not_le.mp hq])
        omega
  rw [if_pos hb]

/-- The conversion to `int` of an integral value in the range of `int`. -/
theorem toInt32_intCast (n : Int) (hlo : -2 ^ 31 ≤ n) (hhi : n < 2 ^ 31) :
    toInt32 (n : ℚ) = some n := by
  unfold toInt32
  simp only [Rat.intCast_num, Rat.intCast_den, Nat.cast_one, Int.tdiv_one]
  rw [if_pos ⟨hlo, hhi⟩]

/-- One coordinate of `zl_pixel`: the truncated value `t` of `q`, clamped as in lines 44-48,
is the floor of `q` clamped to `[0, N - 1]`. -/
theorem clamp_trunc_eq (q : ℚ) (N : Int) (hN : 1 ≤ N) (hhi : q < 2 ^ 31) (t : Int)
    (ht : t = if 0 ≤ q then ⌊q⌋ else ⌈q⌉) :
    (if t < 0 then some 0
      else if (t : ℚ) ≥ (N : ℚ) then toInt32 ((N : ℚ) - 1) else some t)
      = some (max 0 (min (N - 1) ⌊q⌋)) := by
  by_cases hq : 0 ≤ q
  · rw [if_pos hq] at ht
    have h0 : (0 : Int) ≤ ⌊q⌋ := Int.floor_nonneg.mpr hq
    have hlt : ⌊q⌋ < 2 ^ 31 := by
      have : ((⌊q⌋ : Int) : ℚ) < ((2 ^ 31 : Int) : ℚ) := by
        push_cast; exact lt_of_le_of_lt (Int.floor_le q) hhi
      exact_mod_cast this
    subst ht
    rw [if_neg (by omega)]
    by_cases hge : ((⌊q⌋ : Int) : ℚ) ≥ (N : ℚ)
    · have hge' : N ≤ ⌊q⌋ := by exact_mod_cast hge
      rw [if_pos hge]
      have : ((N : ℚ) - 1) = ((N - 1 : Int) : ℚ) := by push_cast; rfl
      rw [this, toInt32_intCast (N - 1) (by omega) (by omega)]
      congr 1
      omega
    · have hge' : ¬ N ≤ ⌊q⌋ := fun h => hge (by exact_mod_cast h)
      rw [if_neg hge]
      congr 1
      omega
  · rw [if_neg hq] at ht
    have hq' : q < 0 := not_le.mp hq
    have hc : ⌈q⌉ ≤ 0 := Int.ceil_le.mpr (by push_cast; linarith)
    have hf : ⌊q⌋ < 0 := Int.floor_lt.mpr (by push_cast; linarith)
    subst ht
    by_cases hneg : ⌈q⌉ < 0
    · rw [if_pos hneg]
      congr 1
      omega
    · have hz : ⌈q⌉ = 0 := by omega
      rw [if_neg hneg, hz]
      have : ¬ (((0 : Int) : ℚ) ≥ (N : ℚ)) := by
        intro h
        have : N ≤ 0 := by exact_mod_cast h
        omega
      rw [if_neg this]
      congr 1
      omega

/-- The products `360*degPixels` and `180*degPixels` and the values one below them are exact
in double precision when `deg_pixels` is an `int`. -/
theorem doubleMul_grid (c D : Int) (hc : |c| ≤ 360) (hD : 1 ≤ D) (hI : D < 2 ^ 31) :
    doubleMul (c : ℚ) (D : ℚ) = ((c * D : Int) : ℚ) ∧
    doubleSub ((c * D : Int) : ℚ) 1 = ((c * D : Int) : ℚ) - 1 := by
  have hb : |c * D| < 2 ^ 52 := by
    rw [abs_mul, abs_of_pos (by omega : 0 < D)]
    calc |c| * D ≤ 360 * D := mul_le_mul_of_nonneg_right hc (by omega)
      _ < 2 ^ 52 := by omega
  constructor
  · unfold doubleMul roundDouble
    rw [← Int.cast_mul]
    exact flround_intCast 53 (c * D) (by omega)
  · unfold doubleSub roundDouble
    have e : ((c * D : Int) : ℚ) - 1 = ((c * D - 1 : Int) : ℚ) := by push_cast; rfl
    rw [e]
    exact flround_intCast 53 (c * D - 1) (by
      have := abs_lt.mp hb
      rw [abs_lt]
      constructor <;> omega)

/-- The pixel of `zl_pixel` in closed form, when both scaled values are representable. -/
theorem zl_pixel_eq (table : zl_table) (lat lon : ℚ) (hD : 1 ≤ table.deg_pixels)
    (hI : table.deg_pixels < 2 ^ 31)
    (hx : -(2 ^ 31) - 1 < doubleMul (floatAdd lon 180) table.deg_pixels ∧
      doubleMul (floatAdd lon 180) table.deg_pixels < 2 ^ 31)
    (hy : -(2 ^ 31) - 1 < doubleMul (floatSub 90 lat) table.deg_pixels ∧
      doubleMul (floatSub 90 lat) table.deg_pixels < 2 ^ 31) :
    zl_pixel table lat lon
      = some (max 0 (min (360 * table.deg_pixels - 1)
            ⌊doubleMul (floatAdd lon 180) table.deg_pixels⌋),
          max 0 (min (180 * table.deg_pixels - 1)
            ⌊doubleMul (floatSub 90 lat) table.deg_pixels⌋)) := by
  have hcx := clamp_trunc_eq (doubleMul (floatAdd lon 180) table.deg_pixels)
    (360 * table.deg_pixels) (by omega) hx.2 _ rfl
  have hcy := clamp_trunc_eq (doubleMul (floatSub 90 lat) table.deg_pixels)
    (180 * table.deg_pixels) (by omega) hy.2 _ rfl
  have g360 := doubleMul_grid 360 table.deg_pixels (by norm_num) hD hI
  have g180 := doubleMul_grid 180 table.deg_pixels (by norm_num) hD hI
  have c360 : ((360 : Int) : ℚ) = 360 := by norm_num
  have c180 : ((180 : Int) : ℚ) = 180 := by norm_num
  rw [c360] at g360
  rw [c180] at g180
  unfold zl_pixel
  simp only [toInt32_of_fits _ hx.1 hx.2, toInt32_of_fits _ hy.1 hy.2, Option.bind_eq_bind,
    Option.some_bind, g360.1, g360.2, g180.1, g180.2, hcx, hcy, Option.pure_def]

/-- A scaled value in `[0, 1)` is clamped to the pixel 0. -/
theorem clamp_floor_low (N : Int) (hN : 1 ≤ N) (q : ℚ) (h0 : 0 ≤ q) (h1 : q < 1) :
    max 0 (min (N - 1) ⌊q⌋) = 0 := by
  have hf : ⌊q⌋ = 0 := by
    rw [Int.floor_eq_iff]
    constructor
    · simpa using h0
    · simpa using h1
  rw [hf]
  omega

/-- A scaled value of at least `N - 1` is clamped to the pixel `N - 1`. -/
theorem clamp_floor_high (N : Int) (hN : 1 ≤ N) (q : ℚ) (h : (N : ℚ) - 1 ≤ q) :
    max 0 (min (N - 1) ⌊q⌋) = N - 1 := by
  have hf : N - 1 ≤ ⌊q⌋ := by
    rw [Int.le_floor]
    push_cast
    exact h
  omega

/-- The function `zl_lookup` passes the pixel of `zl_pixel` to `zoneLokupPixel`. -/
theorem zl_lookup_of_pixel (fuel : Nat) (table : zl_table) (lat lon : ℚ) (x y : Int)
    (h : zl_pixel table lat lon = some (x, y)) :
    zl_lookup fuel table lat lon = zoneLokupPixel fuel table x y := by
  unfold zl_lookup
  rw [h]

/-- The pixel of `zl_pixel` when both scaled values are non-negative and their truncations
lie inside the grid: no clamping takes place. -/
theorem zl_pixel_inside (table : zl_table) (lat lon : ℚ) (hD : 1 ≤ table.deg_pixels)
    (hI : table.deg_pixels < 2 ^ 31) (sx sy : ℚ) (x y : Int)
    (hsx : doubleMul (floatAdd lon 180) table.deg_pixels = sx)
    (hsy : doubleMul (floatSub 90 lat) table.deg_pixels = sy)
    (hx0 : 0 ≤ x) (hx1 : x < 360 * table.deg_pixels) (hx2 : x < 2 ^ 31)
    (hx3 : (x : ℚ) ≤ sx) (hx4 : sx < x + 1)
    (hy0 : 0 ≤ y) (hy1 : y < 180 * table.deg_pixels) (hy2 : y < 2 ^ 31)
    (hy3 : (y : ℚ) ≤ sy) (hy4 : sy < y + 1) :
    zl_pixel table lat lon = some (x, y) := by
  have bx : ((x : Int) : ℚ) + 1 ≤ 2 ^ 31 := by
    have : ((x + 1 : Int) : ℚ) ≤ ((2 ^ 31 : Int) : ℚ) := by exact_mod_cast (by omega : x + 1 ≤ 2 ^ 31)
    push_cast at this
    exact this
  have by1 : ((y : Int) : ℚ) + 1 ≤ 2 ^ 31 := by
    have : ((y + 1 : Int) : ℚ) ≤ ((2 ^ 31 : Int) : ℚ) := by exact_mod_cast (by omega : y + 1 ≤ 2 ^ 31)
    push_cast at this
    exact this
  have cx : (0 : ℚ) ≤ (x : ℚ) := by exact_mod_cast hx0
  have cy : (0 : ℚ) ≤ (y : ℚ) := by exact_mod_cast hy0
  have fx : ⌊sx⌋ = x := by
    rw [Int.floor_eq_iff]; exact ⟨hx3, hx4⟩
  have fy : ⌊sy⌋ = y := by
    rw [Int.floor_eq_iff]; exact ⟨hy3, hy4⟩
  rw [zl_pixel_eq table lat lon hD hI (by rw [hsx]; constructor <;> linarith)
    (by rw [hsy]; constructor <;> linarith), hsx, hsy, fx, fy]
  congr 2
  · omega
  · omega

/-- The pixel of `zl_pixel` is undefined when the scaled latitude does not fit in `int`. -/
theorem zl_pixel_none_of_lat (table : zl_table) (lat lon : ℚ) (n : Int)
    (hs : doubleMul (floatSub 90 lat) table.deg_pixels = n) (hn : 2 ^ 31 ≤ n) :
    zl_pixel table lat lon = none := by
  have h : toInt32 (doubleMul (floatSub 90 lat) table.deg_pixels) = none := by
    rw [hs]
    unfold toInt32
    simp only [Rat.intCast_num, Rat.intCast_den, Nat.cast_one, Int.tdiv_one]
    rw [if_neg (by omega)]
  unfold zl_pixel
  simp only [h, Option.bind_eq_bind]
  cases toInt32 (doubleMul (floatAdd lon 180) ↑table.deg_pixels) <;> rfl

/-- The pixel of `zl_pixel` is undefined when the scaled longitude does not fit in `int`. -/
theorem zl_pixel_none_of_lon (table : zl_table) (lat lon : ℚ) (n : Int)
    (hs : doubleMul (floatAdd lon 180) table.deg_pixels = n) (hn : 2 ^ 31 ≤ n) :
    zl_pixel table lat lon = none := by
  have h : toInt32 (doubleMul (floatAdd lon 180) table.deg_pixels) = none := by
    rw [hs]
    unfold toInt32
    simp only [Rat.intCast_num, Rat.intCast_den, Nat.cast_one, Int.tdiv_one]
    rw [if_neg (by omega)]
  unfold zl_pixel
  simp only [h, Option.bind_eq_bind]
  rfl

/-- A non-negative multiple of `2 ^ (-j)` below 1, with `j ≤ 21`, is a `float`, and its
product with an `int` is exact in double precision. -/
theorem small_multiple_exact (v : ℚ) (j : Nat) (hj : j ≤ 21) (k : Int)
    (hv : v = (k : ℚ) * 2 ^ (-(j : Int))) (h0 : 0 ≤ v) (h1 : v < 1) (D : Int) (hD : 1 ≤ D)
    (hI : D < 2 ^ 31) :
    roundFloat v = v ∧ doubleMul v D = v * D := by
  have hpos : (0 : ℚ) < 2 ^ (-(j : Int)) := zpow_pos (by norm_num) _
  have hinv : (2 : ℚ) ^ (-(j : Int)) * 2 ^ j = 1 := by
    rw [zpow_neg, zpow_natCast]
    exact inv_mul_cancel₀ (pow_ne_zero _ (by norm_num))
  have hk0 : 0 ≤ k := by
    have : (0 : ℚ) ≤ (k : ℚ) := by
      rw [hv] at h0
      exact nonneg_of_mul_nonneg_left h0 hpos
    exact_mod_cast this
  have hk1 : k < 2 ^ j := by
    have : (k : ℚ) < ((2 ^ j : Int) : ℚ) := by
      push_cast
      rw [hv] at h1
      calc (k : ℚ) = (k : ℚ) * 2 ^ (-(j : Int)) * 2 ^ j := by rw [mul_assoc, hinv, mul_one]
        _ < 1 * 2 ^ j := mul_lt_mul_of_pos_right h1 (by positivity)
        _ = 2 ^ j := one_mul _
    exact_mod_cast this
  have hj2 : (2 : Int) ^ j ≤ 2 ^ 21 := pow_le_pow_right₀ (by norm_num) hj
  have hk2 : k < 2 ^ 21 := lt_of_lt_of_le hk1 hj2
  constructor
  · unfold roundFloat
    rw [hv]
    exact flround_repr 24 k _ (by rw [abs_of_nonneg hk0]; omega)
  · unfold doubleMul roundDouble
    have e : v * (D : ℚ) = ((k * D : Int) : ℚ) * 2 ^ (-(j : Int)) := by
      rw [hv]; push_cast; ring
    rw [e]
    apply flround_repr
    rw [abs_of_nonneg (mul_nonneg hk0 (by omega))]
    calc k * D < 2 ^ 21 * 2 ^ 31 := by
          apply mul_lt_mul'' hk2 hI hk0 (by omega)
      _ < 2 ^ 53 := by norm_num

/-- An integer of at most 24 bits is a `float`. -/
theorem roundFloat_intCast (n : Int) (hn : |n| < 2 ^ 24) : roundFloat (n : ℚ) = n :=
  flround_intCast 24 n hn

/-- The product of a `float` and an `int` below `2 ^ 29` is exact in double precision. -/
theorem doubleMul_roundFloat (v : ℚ) (D : Int) (hD : 1 ≤ D) (hI : D < 2 ^ 29) :
    doubleMul (roundFloat v) D = roundFloat v * D := by
  unfold doubleMul roundDouble roundFloat
  exact flround_mul_intCast 24 53 v D (by rw [abs_of_pos (by omega : 0 < D)]; omega)

/-- The rounding to `float` of a value `v` of `[c - 1, c]`, where `c - 1 = g1 * 2 ^ (L - 23)`
and `c = g * 2 ^ (L - 23)` are numbers of the format in the binade `[2 ^ L, 2 ^ (L + 1))`:
it stays in `[c - 1, c]` and is within `2 ^ (L - 23) / 2` of `v`. -/
theorem high_border_round (c : ℚ) (L g1 g : Int) (hg1 : c - 1 = (g1 : ℚ) * 2 ^ (L - 23))
    (hg : c = (g : ℚ) * 2 ^ (L - 23)) (hc1 : (2 : ℚ) ^ L ≤ c - 1) (hc2 : c < (2 : ℚ) ^ (L + 1))
    (v : ℚ) (hv1 : c - 1 ≤ v) (hv2 : v ≤ c) :
    c - 1 ≤ roundFloat v ∧ roundFloat v ≤ c ∧ |roundFloat v - v| ≤ 2 ^ (L - 23) / 2 := by
  have hpos : 0 < v := lt_of_lt_of_le (zpow_pos (by norm_num) L) (le_trans hc1 hv1)
  have b1 : (2 : ℚ) ^ L ≤ |v| := by rw [abs_of_pos hpos]; linarith
  have b2 : |v| < (2 : ℚ) ^ (L + 1) := by rw [abs_of_pos hpos]; linarith
  have e23 : L - (((24 : Nat) : Int) - 1) = L - 23 := by norm_num
  have h1 := flround_ge_of_binade 24 v L g1 b1 b2 (by rw [e23, ← hg1]; exact hv1)
  have h2 := flround_le_of_binade 24 v L g b1 b2 (by rw [e23, ← hg]; exact hv2)
  have h3 := flround_sub_le 24 v L b1 b2
  rw [e23] at h1 h2 h3
  rw [← hg1] at h1
  rw [← hg] at h2
  exact ⟨h1, h2, h3⟩

/-- One coordinate at the high border: a `float` value `s` of `[c - 1, c]` is scaled exactly,
its scaled value is representable, and it is mapped to the last pixel `c * D - 1` exactly
when `c - 1 / D ≤ s`. -/
theorem high_border_clamp (c D : Int) (hc : 4 ≤ c) (hD : 1 ≤ D) (hgrid : c * D < 2 ^ 31)
    (s : ℚ) (hs1 : (c : ℚ) - 1 ≤ s) (hs2 : s ≤ c) :
    (-(2 ^ 31) - 1 < s * D ∧ s * D < 2 ^ 31) ∧
    ((c : ℚ) - 1 / D ≤ s → max 0 (min (c * D - 1) ⌊s * D⌋) = c * D - 1) ∧
    (s < (c : ℚ) - 1 / D → max 0 (min (c * D - 1) ⌊s * D⌋) < c * D - 1) := by
  have hDq : (1 : ℚ) ≤ (D : ℚ) := by exact_mod_cast hD
  have hDpos : (0 : ℚ) < (D : ℚ) := by linarith
  have hcq : (4 : ℚ) ≤ (c : ℚ) := by exact_mod_cast hc
  have hgq : (c : ℚ) * D < 2 ^ 31 := by
    have : ((c * D : Int) : ℚ) < ((2 ^ 31 : Int) : ℚ) := by exact_mod_cast hgrid
    push_cast at this
    exact this
  have hlo : ((c : ℚ) - 1) * D ≤ s * D := mul_le_mul_of_nonneg_right hs1 (le_of_lt hDpos)
  have hhi : s * D ≤ (c : ℚ) * D := mul_le_mul_of_nonneg_right hs2 (le_of_lt hDpos)
  have hnn : 0 ≤ s * D := le_trans (mul_nonneg (by linarith) (le_of_lt hDpos)) hlo
  have hone : (1 : ℚ) / D * D = 1 := by field_simp
  have hcD : 1 ≤ c * D := by nlinarith
  refine ⟨⟨by linarith, by linarith⟩, ?_, ?_⟩
  · intro h
    apply clamp_floor_high (c * D) hcD
    have := mul_le_mul_of_nonneg_right h (le_of_lt hDpos)
    rw [sub_mul, hone] at this
    push_cast
    exact this
  · intro h
    have hlt : s * D < (c : ℚ) * D - 1 := by
      have := mul_lt_mul_of_pos_right h hDpos
      rw [sub_mul, hone] at this
      exact this
    have hf : ⌊s * D⌋ < c * D - 1 := by
      rw [Int.floor_lt]
      push_cast
      exact hlt
    have hf0 : 0 ≤ ⌊s * D⌋ := Int.floor_nonneg.mpr hnn
    omega

/-- The rounding of zero. -/
theorem flround_zero (p : Nat) : flround p 0 = 0 := by
  unfold flround
  rw [if_pos rfl]

/-- The latitude at the low border: a `float` latitude `90 - e` with `0 ≤ e < 1 / D` is
mapped to the pixel row 0. -/
theorem zl_pixel_north (table : zl_table) (hD : 1 ≤ table.deg_pixels)
    (hI : table.deg_pixels < 2 ^ 31) (lon : ℚ)
    (hfx : -(2 ^ 31) - 1 < doubleMul (floatAdd lon 180) table.deg_pixels ∧
      doubleMul (floatAdd lon 180) table.deg_pixels < 2 ^ 31)
    (e : ℚ) (he : 0 ≤ e) (hlt : e < 1 / table.deg_pixels) (hfl : IsFloat (90 - e)) :
    zl_pixel table (90 - e) lon
      = some (max 0 (min (360 * table.deg_pixels - 1)
          ⌊doubleMul (floatAdd lon 180) table.deg_pixels⌋), 0) := by
  have hDq : (1 : ℚ) ≤ (table.deg_pixels : ℚ) := by exact_mod_cast hD
  have hDpos : (0 : ℚ) < (table.deg_pixels : ℚ) := by linarith
  have h1 : e * table.deg_pixels < 1 := (lt_div_iff₀ hDpos).mp hlt
  have he1 : e < 1 := by
    have : e * 1 ≤ e * table.deg_pixels := mul_le_mul_of_nonneg_left hDq he
    linarith
  have b1 : (2 : ℚ) ^ (6 : Int) ≤ |90 - e| := by
    rw [abs_of_pos (by linarith)]
    norm_num
    linarith
  have b2 : |90 - e| < (2 : ℚ) ^ ((6 : Int) + 1) := by
    rw [abs_of_pos (by linarith)]
    norm_num
    linarith
  obtain ⟨m, hm⟩ := flround_fixed_form 24 (90 - e) 6 b1 b2 hfl
  have hv : e = ((90 * 2 ^ 17 - m : Int) : ℚ) * 2 ^ (-((17 : Nat) : Int)) := by
    norm_num at hm ⊢
    linarith
  obtain ⟨r1, r2⟩ := small_multiple_exact e 17 (by norm_num) _ hv he he1 table.deg_pixels hD hI
  have hs : floatSub 90 (90 - e) = e := by
    unfold floatSub
    rw [show (90 : ℚ) - (90 - e) = e by ring]
    exact r1
  have hsy : doubleMul (floatSub 90 (90 - e)) table.deg_pixels = e * table.deg_pixels := by
    rw [hs, r2]
  have h0 : 0 ≤ e * table.deg_pixels := mul_nonneg he (le_of_lt hDpos)
  rw [zl_pixel_eq table (90 - e) lon hD hI hfx (by rw [hsy]; constructor <;> linarith), hsy,
    clamp_floor_low (180 * table.deg_pixels) (by omega) _ h0 h1]

/-- The longitude at the low border: a `float` longitude `-180 + e` with `0 ≤ e < 1 / D` is
mapped to the pixel column 0. -/
theorem zl_pixel_west (table : zl_table) (hD : 1 ≤ table.deg_pixels)
    (hI : table.deg_pixels < 2 ^ 31) (lat : ℚ)
    (hfy : -(2 ^ 31) - 1 < doubleMul (floatSub 90 lat) table.deg_pixels ∧
      doubleMul (floatSub 90 lat) table.deg_pixels < 2 ^ 31)
    (e : ℚ) (he : 0 ≤ e) (hlt : e < 1 / table.deg_pixels) (hfl : IsFloat (-180 + e)) :
    zl_pixel table lat (-180 + e)
      = some (0, max 0 (min (180 * table.deg_pixels - 1)
          ⌊doubleMul (floatSub 90 lat) table.deg_pixels⌋)) := by
  have hDq : (1 : ℚ) ≤ (table.deg_pixels : ℚ) := by exact_mod_cast hD
  have hDpos : (0 : ℚ) < (table.deg_pixels : ℚ) := by linarith
  have h1 : e * table.deg_pixels < 1 := (lt_div_iff₀ hDpos).mp hlt
  have he1 : e < 1 := by
    have : e * 1 ≤ e * table.deg_pixels := mul_le_mul_of_nonneg_left hDq he
    linarith
  have b1 : (2 : ℚ) ^ (7 : Int) ≤ |-180 + e| := by
    rw [abs_of_neg (by linarith)]
    norm_num
    linarith
  have b2 : |-180 + e| < (2 : ℚ) ^ ((7 : Int) + 1) := by
    rw [abs_of_neg (by linarith)]
    norm_num
    linarith
  obtain ⟨m, hm⟩ := flround_fixed_form 24 (-180 + e) 7 b1 b2 hfl
  have hv : e = ((180 * 2 ^ 16 + m : Int) : ℚ) * 2 ^ (-((16 : Nat) : Int)) := by
    norm_num at hm ⊢
    linarith
  obtain ⟨r1, r2⟩ := small_multiple_exact e 16 (by norm_num) _ hv he he1 table.deg_pixels hD hI
  have hs : floatAdd (-180 + e) 180 = e := by
    unfold floatAdd
    rw [show (-180 : ℚ) + e + 180 = e by ring]
    exact r1
  have hsx : doubleMul (floatAdd (-180 + e) 180) table.deg_pixels = e * table.deg_pixels := by
    rw [hs, r2]
  have h0 : 0 ≤ e * table.deg_pixels := mul_nonneg he (le_of_lt hDpos)
  rw [zl_pixel_eq table lat (-180 + e) hD hI (by rw [hsx]; constructor <;> linarith) hfy, hsx,
    clamp_floor_low (360 * table.deg_pixels) (by omega) _ h0 h1]

/-- The latitude at the high border, on a grid whose rows are representable as `int`: with
`s` the single precision value of `90 - lat` at the latitude `lat = -90 + e`, `0 ≤ e ≤ 1`,
the pixel row is the last one, `180 * D - 1`, when `180 - 1 / D ≤ s` and an earlier one
otherwise; `s` is `180` for `e = 0` and at least `180 - 1 / D` for `e + 2 ^ (-17) ≤ 1 / D`. -/
theorem zl_pixel_south (table : zl_table) (hD : 1 ≤ table.deg_pixels)
    (hgrid : 180 * table.deg_pixels < 2 ^ 31) (lon : ℚ)
    (hfx : -(2 ^ 31) - 1 < doubleMul (floatAdd lon 180) table.deg_pixels ∧
      doubleMul (floatAdd lon 180) table.deg_pixels < 2 ^ 31)
    (e : ℚ) (he : 0 ≤ e) (he1 : e ≤ 1) :
    ((180 : ℚ) - 1 / table.deg_pixels ≤ floatSub 90 (-90 + e) →
      zl_pixel table (-90 + e) lon
        = some (max 0 (min (360 * table.deg_pixels - 1)
            ⌊doubleMul (floatAdd lon 180) table.deg_pixels⌋), 180 * table.deg_pixels - 1)) ∧
    (floatSub 90 (-90 + e) < (180 : ℚ) - 1 / table.deg_pixels →
      ∃ y, y < 180 * table.deg_pixels - 1 ∧
        zl_pixel table (-90 + e) lon
          = some (max 0 (min (360 * table.deg_pixels - 1)
              ⌊doubleMul (floatAdd lon 180) table.deg_pixels⌋), y)) ∧
    (e + 1 / 2 ^ 17 ≤ 1 / table.deg_pixels →
      (180 : ℚ) - 1 / table.deg_pixels ≤ floatSub 90 (-90 + e)) ∧
    (e = 0 → floatSub 90 (-90 + e) = 180) := by
  have hI : table.deg_pixels < 2 ^ 31 := by omega
  have h29 : table.deg_pixels < 2 ^ 29 := by omega
  have hs : floatSub 90 (-90 + e) = roundFloat (180 - e) := by
    unfold floatSub
    rw [show (90 : ℚ) - (-90 + e) = 180 - e by ring]
  obtain ⟨s1, s2, s3⟩ := high_border_round 180 7 (179 * 2 ^ 16) (180 * 2 ^ 16)
    (by norm_num) (by norm_num) (by norm_num) (by norm_num) (180 - e) (by linarith)
    (by linarith)
  have hsy : doubleMul (floatSub 90 (-90 + e)) table.deg_pixels
      = roundFloat (180 - e) * table.deg_pixels := by
    rw [hs, doubleMul_roundFloat (180 - e) table.deg_pixels hD h29]
  obtain ⟨c1, c2, c3⟩ := high_border_clamp 180 table.deg_pixels (by norm_num) hD hgrid
    (roundFloat (180 - e)) (by push_cast; linarith) (by push_cast; linarith)
  have hpix := zl_pixel_eq table (-90 + e) lon hD hI hfx (by rw [hsy]; exact c1)
  rw [hsy] at hpix
  rw [hs]
  push_cast at c2 c3
  refine ⟨?_, ?_, ?_, ?_⟩
  · intro h
    rw [hpix, c2 h]
  · intro h
    exact ⟨_, c3 h, hpix⟩
  · intro h
    have := (abs_le.mp s3).1
    norm_num at this h ⊢
    linarith
  · intro h
    rw [h]
    have := roundFloat_intCast 180 (by norm_num)
    norm_num at this ⊢
    exact this

/-- The longitude at the high border, on a grid whose columns are representable as `int`:
with `s` the single precision value of `lon + 180` at the longitude `lon = 180 - e`,
`0 ≤ e ≤ 1`, the pixel column is the last one, `360 * D - 1`, when `360 - 1 / D ≤ s` and an
earlier one otherwise; `s` is `360` for `e = 0` and at least `360 - 1 / D` for
`e + 2 ^ (-16) ≤ 1 / D`. -/
theorem zl_pixel_east (table : zl_table) (hD : 1 ≤ table.deg_pixels)
    (hgrid : 360 * table.deg_pixels < 2 ^ 31) (lat : ℚ)
    (hfy : -(2 ^ 31) - 1 < doubleMul (floatSub 90 lat) table.deg_pixels ∧
      doubleMul (floatSub 90 lat) table.deg_pixels < 2 ^ 31)
    (e : ℚ) (he : 0 ≤ e) (he1 : e ≤ 1) :
    ((360 : ℚ) - 1 / table.deg_pixels ≤ floatAdd (180 - e) 180 →
      zl_pixel table lat (180 - e)
        = some (360 * table.deg_pixels - 1, max 0 (min (180 * table.deg_pixels - 1)
            ⌊doubleMul (floatSub 90 lat) table.deg_pixels⌋))) ∧
    (floatAdd (180 - e) 180 < (360 : ℚ) - 1 / table.deg_pixels →
      ∃ x, x < 360 * table.deg_pixels - 1 ∧
        zl_pixel table lat (180 - e)
          = some (x, max 0 (min (180 * table.deg_pixels - 1)
              ⌊doubleMul (floatSub 90 lat) table.deg_pixels⌋))) ∧
    (e + 1 / 2 ^ 16 ≤ 1 / table.deg_pixels →
      (360 : ℚ) - 1 / table.deg_pixels ≤ floatAdd (180 - e) 180) ∧
    (e = 0 → floatAdd (180 - e) 180 = 360) := by
  have hI : table.deg_pixels < 2 ^ 31 := by omega
  have h29 : table.deg_pixels < 2 ^ 29 := by omega
  have hs : floatAdd (180 - e) 180 = roundFloat (360 - e) := by
    unfold floatAdd
    rw [show (180 : ℚ) - e + 180 = 360 - e by ring]
  obtain ⟨s1, s2, s3⟩ := high_border_round 360 8 (359 * 2 ^ 15) (360 * 2 ^ 15)
    (by norm_num) (by norm_num) (by norm_num) (by norm_num) (360 - e) (by linarith)
    (by linarith)
  have hsx : doubleMul (floatAdd (180 - e) 180) table.deg_pixels
      = roundFloat (360 - e) * table.deg_pixels := by
    rw [hs, doubleMul_roundFloat (360 - e) table.deg_pixels hD h29]
  obtain ⟨c1, c2, c3⟩ := high_border_clamp 360 table.deg_pixels (by norm_num) hD hgrid
    (roundFloat (360 - e)) (by push_cast; linarith) (by push_cast; linarith)
  have hpix := zl_pixel_eq table lat (180 - e) hD hI (by rw [hsx]; exact c1) hfy
  rw [hsx] at hpix
  rw [hs]
  push_cast at c2 c3
  refine ⟨?_, ?_, ?_, ?_⟩
  · intro h
    rw [hpix, c2 h]
  · intro h
    exact ⟨_, c3 h, hpix⟩
  · intro h
    have := (abs_le.mp s3).1
    norm_num at this h ⊢
    linarith
  · intro h
    rw [h]
    have := roundFloat_intCast 360 (by norm_num)
    norm_num at this ⊢
    exact this

/-- The rounding error of a value below `2 ^ (M + 1)` in magnitude is at most half a unit of
the last place of the binade of `2 ^ M`. -/
theorem flround_sub_le_of_lt (p : Nat) (q : ℚ) (M : Int) (h : |q| < (2 : ℚ) ^ (M + 1)) :
    |flround p q - q| ≤ 2 ^ (M - (p - 1)) / 2 := by
  by_cases hq : q = 0
  · rw [hq, flround_zero, sub_zero, abs_zero]
    positivity
  obtain ⟨b1, b2⟩ := binade_log q hq
  have hL : Int.log 2 |q| ≤ M := by
    have : (2 : ℚ) ^ Int.log 2 |q| < 2 ^ (M + 1) := lt_of_le_of_lt b1 h
    have := (zpow_lt_zpow_iff_right₀ (by norm_num : (1 : ℚ) < 2)).mp this
    omega
  have hmono : (2 : ℚ) ^ (Int.log 2 |q| - ((p : Int) - 1)) ≤ 2 ^ (M - ((p : Int) - 1)) :=
    zpow_le_zpow_right₀ (by norm_num) (by omega)
  have := flround_sub_le p q _ b1 b2
  linarith

/-- Two values at most 1 apart have floors at most 1 apart. -/
theorem floor_sub_le_one (a b : ℚ) (h : |a - b| ≤ 1) : |⌊a⌋ - ⌊b⌋| ≤ 1 := by
  obtain ⟨h1, h2⟩ := abs_le.mp h
  have a1 := Int.floor_le a
  have a2 := Int.lt_floor_add_one a
  have b1 := Int.floor_le b
  have b2 := Int.lt_floor_add_one b
  have u : ⌊a⌋ < ⌊b⌋ + 2 := by
    have : (⌊a⌋ : ℚ) < ((⌊b⌋ + 2 : Int) : ℚ) := by push_cast; linarith
    exact_mod_cast this
  have l : ⌊b⌋ < ⌊a⌋ + 2 := by
    have : (⌊b⌋ : ℚ) < ((⌊a⌋ + 2 : Int) : ℚ) := by push_cast; linarith
    exact_mod_cast this
  rw [abs_le]
  constructor <;> omega

/-- Clamping to `[0, N]` does not move two values apart. -/
theorem clamp_sub_le_one (N a b : Int) (h : |a - b| ≤ 1) :
    |max 0 (min N a) - max 0 (min N b)| ≤ 1 := by
  obtain ⟨h1, h2⟩ := abs_le.mp h
  rw [abs_le]
  constructor <;> omega

/-- One coordinate of the pixel against the exact formula: when the rounding error of the
single precision value, scaled by `D`, is at most 1, the pixel is at most one pixel off. -/
theorem pixel_near (N D : Int) (hD : 1 ≤ D) (h29 : D < 2 ^ 29) (v : ℚ) (M : Int)
    (hv : |v| < (2 : ℚ) ^ (M + 1)) (hDM : (D : ℚ) * (2 ^ (M - 23) / 2) ≤ 1) :
    |max 0 (min N ⌊doubleMul (roundFloat v) D⌋) - max 0 (min N ⌊v * D⌋)| ≤ 1 := by
  have hDpos : (0 : ℚ) < (D : ℚ) := by exact_mod_cast (by omega : 0 < D)
  apply clamp_sub_le_one
  apply floor_sub_le_one
  rw [doubleMul_roundFloat v D hD h29, ← sub_mul, abs_mul, abs_of_pos hDpos]
  have e23 : M - (((24 : Nat) : Int) - 1) = M - 23 := by norm_num
  have := flround_sub_le_of_lt 24 v M hv
  rw [e23] at this
  unfold roundFloat
  calc |flround 24 v - v| * (D : ℚ) ≤ 2 ^ (M - 23) / 2 * (D : ℚ) :=
        mul_le_mul_of_nonneg_right this (le_of_lt hDpos)
    _ = (D : ℚ) * (2 ^ (M - 23) / 2) := mul_comm _ _
    _ ≤ 1 := hDM

/-! ## The tile key -/

/-- The three bit fields of `TILEKEY` do not overlap, so the bitwise or is a sum, and the
sum is below `2 ^ 31`, so the conversion to `uint32_t` does not change it. -/
theorem TILEKEY_eq_sum (size x y : Int) :
    TILEKEY size x y = maskBits size 3 * 2 ^ 28 + maskBits y 14 * 2 ^ 14 + maskBits x 14 := by
  have hs := maskBits_lt size 3
  have hx := maskBits_lt x 14
  have hy := maskBits_lt y 14
  unfold TILEKEY
  generalize maskBits size 3 = a at *
  generalize maskBits x 14 = c at *
  generalize maskBits y 14 = b at *
  have h1 : a <<< 28 ||| b <<< 14 = 2 ^ 28 * a + b * 2 ^ 14 := by
    rw [Nat.shiftLeft_eq, Nat.shiftLeft_eq, Nat.mul_comm a]
    exact (Nat.mul_add_lt_is_or (by omega) a).symm
  have h2 : (2 ^ 28 * a + b * 2 ^ 14) ||| c = 2 ^ 14 * (2 ^ 14 * a + b) + c := by
    have : 2 ^ 28 * a + b * 2 ^ 14 = 2 ^ 14 * (2 ^ 14 * a + b) := by ring
    rw [this]
    exact (Nat.mul_add_lt_is_or hx _).symm
  rw [h1, h2]
  omega

theorem maskBits_emod (v : Int) (k : Nat) : maskBits (v % 2 ^ k) k = maskBits v k := by
  unfold maskBits
  rw [Int.emod_emod_of_dvd v (dvd_refl _)]

theorem maskBits_of_lt (n k : Nat) (h : n < 2 ^ k) : maskBits (n : Int) k = n := by
  rw [maskBits_natCast, Nat.mod_eq_of_lt h]

/-- The tile coordinate of a pixel coordinate in `[0, 2^17)`, at a shift of at least 3, lies
in `[0, 2^14)`. -/
theorem shiftRight_range (v : Int) (s : Nat) (h0 : 0 ≤ v) (h1 : v < 2 ^ 17) (hs : 3 ≤ s) :
    0 ≤ v >>> s ∧ v >>> s < 2 ^ 14 := by
  rw [Int.shiftRight_eq_div_pow]
  have hpos : (0 : Int) < ((2 ^ s : Nat) : Int) := by positivity
  have h8 : (8 : Int) ≤ ((2 ^ s : Nat) : Int) := by
    have : 2 ^ 3 ≤ 2 ^ s := Nat.pow_le_pow_right (by decide) hs
    have h : ((2 ^ 3 : Nat) : Int) ≤ ((2 ^ s : Nat) : Int) := by exact_mod_cast this
    simpa using h
  constructor
  · exact Int.ediv_nonneg h0 (le_of_lt hpos)
  · apply Int.ediv_lt_of_lt_mul hpos
    nlinarith

/-- The key of a pixel as a sum of its three fields. -/
theorem pixelKey_eq_sum (L : Nat) (hL : L < 8) (x y : Int) :
    pixelKey L x y = L * 2 ^ 28 + maskBits ((y >>> (3 + L)) % 2 ^ 16) 14 * 2 ^ 14
      + maskBits ((x >>> (3 + L)) % 2 ^ 16) 14 := by
  unfold pixelKey
  have hs : (3 + L) % 2 ^ 8 = 3 + L := Nat.mod_eq_of_lt (by omega)
  simp only [hs]
  rw [TILEKEY_eq_sum, maskBits_of_lt L 3 hL]

/-- The tile coordinate field of the key, for a pixel coordinate in `[0, 2^17)`. -/
theorem maskBits_tile (v : Int) (s : Nat) (h0 : 0 ≤ v) (h1 : v < 2 ^ 17) (hs : 3 ≤ s) :
    (maskBits ((v >>> s) % 2 ^ 16) 14 : Int) = v >>> s := by
  have h := shiftRight_range v s h0 h1 hs
  unfold maskBits
  have e1 : (v >>> s) % 2 ^ 16 = v >>> s := Int.emod_eq_of_lt h.1 (by omega)
  have e2 : (v >>> s) % 2 ^ 14 = v >>> s := Int.emod_eq_of_lt h.1 h.2
  rw [e1, e2, Int.toNat_of_nonneg h.1]

/-! ## The leaf resolver -/

/-- A code returned by the leaf resolver is the code of a Uniform leaf of the table. -/
theorem leafLookupZone_some (table : zl_table) (x y : Int) (tk : Nat) (z : String) :
    ∀ (fuel i : Nat), leafLookupZone table x y tk fuel i = .ret (some z) →
      IsUniformCode table z := by
  intro fuel
  induction fuel with
  | zero => intro i h; simp [leafLookupZone] at h
  | succ fuel ih =>
    intro i h
    rw [leafLookupZone] at h
    cases hl : table.leaves[i]? with
    | none => rw [hl] at h; simp at h
    | some leaf =>
      rw [hl] at h
      simp only [] at h
      have hmem : leaf ∈ table.leaves := List.getElem?_mem hl
      by_cases hS : leaf.type = 'S'
      · rw [if_pos hS, leafLookupStatic] at h
        exact ⟨leaf, hmem, hS, by simpa using h⟩
      · rw [if_neg hS] at h
        by_cases h2 : leaf.type = '2'
        · rw [if_pos h2, leafLookupBitmap] at h
          exact ih _ h
        · rw [if_neg h2] at h
          by_cases hP : leaf.type = 'P'
          · rw [if_pos hP, leafLookupPixmap] at h
            split at h
            · simp only [] at h
              split at h
              · simp at h
              · exact ih _ h
            · simp at h
          · rw [if_neg hP] at h
            simp at h

/-- A code returned by `zoomLevelLookupTile` is the code of a Uniform leaf of the table. -/
theorem zoomLevelLookupTile_some (fuel : Nat) (table : zl_table) (level : Nat) (x y : Int)
    (tk : Nat) (z : String) (h : zoomLevelLookupTile fuel table level x y tk = .ret (some z)) :
    IsUniformCode table z := by
  unfold zoomLevelLookupTile at h
  split at h
  · split at h
    · simp at h
    · exact leafLookupZone_some table x y tk z _ _ h
    · simp at h
  · simp at h

/-- A code returned by the loop of `zoneLokupPixel` is the code of a Uniform leaf. -/
theorem zoneLokupPixel_loop_some (fuel : Nat) (table : zl_table) (x y : Int) (z : String) :
    ∀ n, zoneLokupPixel.loop fuel table x y n = .ret (some z) → IsUniformCode table z := by
  intro n
  induction n with
  | zero => intro h; simp [zoneLokupPixel.loop] at h
  | succ n ih =>
    intro h
    rw [zoneLokupPixel.loop] at h
    split at h
    · rename_i zone hz
      have : zone = z := by simpa using h
      exact zoomLevelLookupTile_some fuel table n x y _ z (this ▸ hz)
    · exact ih h
    · simp at h

/-! ## The bitmap leaf -/

/-- The set bits among the positions `0 .. w - 1` are counted by `popcount w`. -/
theorem countP_testBit_range (w : Nat) :
    ∀ n : Nat, (List.range w).countP (fun i => n.testBit i) = popcount w n := by
  induction w with
  | zero => intro n; rfl
  | succ w ih =>
    intro n
    rw [List.range_succ_eq_map, List.countP_cons, List.countP_map, popcount]
    have h1 : ((fun i => n.testBit i) ∘ Nat.succ) = (fun i => (n / 2).testBit i) := by
      funext i
      simp [Function.comp, Nat.testBit_succ]
    rw [h1, ih (n / 2)]
    have h2 : (if n.testBit 0 = true then 1 else 0) = n % 2 := by
      rw [Nat.testBit_zero]
      rcases Nat.mod_two_eq_zero_or_one n with h | h <;> simp [h]
    rw [h2]
    omega

theorem low3_natCast (c : Nat) (h : c < 8) : low3 (c : Int) = c :=
  maskBits_of_lt c 3 h

theorem mem_cells (c : Nat × Nat) : c ∈ cells ↔ c.1 < 8 ∧ c.2 < 8 := by
  unfold cells
  simp only [List.mem_flatMap, List.mem_range, List.mem_map]
  constructor
  · rintro ⟨y, hy, x, hx, rfl⟩
    exact ⟨hx, hy⟩
  · rintro ⟨hx, hy⟩
    exact ⟨c.2, hy, c.1, hx, rfl⟩

/-- The bit positions of the cells, read row by row, are `0, 1, ..., 63`. -/
theorem cells_positions : cells.map (fun c => 8 * c.2 + c.1) = List.range 64 := by
  decide

/-- The selector of a cell reads the bit `8 * y + x` of the mask. -/
theorem sel_cell (leaf : zl_leaf) (c : Nat × Nat) (hc : c ∈ cells) :
    leafLookupBitmap.sel leaf c.1 c.2 = if leaf.bits.testBit (8 * c.2 + c.1) then 1 else 0 := by
  have h := (mem_cells c).mp hc
  rw [bitmap_sel_eq, low3_natCast c.1 h.1, low3_natCast c.2 h.2]

/-! ## The chain of leaves: lemmas -/

/-- One call of `leafLookupZone`: with a nested call on `j` it returns what that call
returns; without one, its result does not depend on the budget and is not `outOfFuel`. -/
theorem leafLookupZone_succ (table : zl_table) (x y : Int) (tk fuel i : Nat) :
    (∀ j, leafNext table x y i = some j →
      leafLookupZone table x y tk (fuel + 1) i = leafLookupZone table x y tk fuel j) ∧
    (leafNext table x y i = none →
      leafLookupZone table x y tk (fuel + 1) i = leafLookupZone table x y tk 1 i ∧
      leafLookupZone table x y tk 1 i ≠ .fault .outOfFuel) := by
  rw [leafLookupZone, leafLookupZone, leafNext]
  cases hl : table.leaves[i]? with
  | none => simp
  | some leaf =>
    simp only []
    by_cases hS : leaf.type = 'S'
    · simp [hS, leafLookupStatic]
    · by_cases h2 : leaf.type = '2'
      · rw [if_neg hS, if_pos h2, if_neg hS, if_pos h2, if_neg hS, if_pos h2]
        simp [leafLookupBitmap]
      · by_cases hP : leaf.type = 'P'
        · rw [if_neg hS, if_neg h2, if_pos hP, if_neg hS, if_neg h2, if_pos hP,
            if_neg hS, if_neg h2, if_pos hP]
          simp only [leafLookupPixmap]
          cases leaf.pixmap[2 * (low3 y * 8 + low3 x)]? with
          | none => simp
          | some hi =>
            cases leaf.pixmap[2 * (low3 y * 8 + low3 x) + 1]? with
            | none => simp
            | some lo =>
              simp only []
              generalize (((hi % 256) <<< 8) + lo % 256) % 2 ^ 16 = v
              by_cases ho : v = OCEAN_INDEX
              · simp [ho]
              · simp [ho]
        · simp [hS, h2, hP]

theorem leafSeq_add (table : zl_table) (x y : Int) (m : Nat) :
    ∀ (k i : Nat), leafSeq table x y (k + m) i
      = (leafSeq table x y k i).bind (leafSeq table x y m) := by
  intro k
  induction k with
  | zero => intro i; simp [leafSeq]
  | succ k ih =>
    intro i
    rw [Nat.add_right_comm, leafSeq, leafSeq]
    cases leafNext table x y i with
    | none => rfl
    | some j => simp only [Option.some_bind]; exact ih j

theorem leafSeq_succ_end (table : zl_table) (x y : Int) (k i : Nat) :
    leafSeq table x y (k + 1) i = (leafSeq table x y k i).bind (leafNext table x y) := by
  rw [leafSeq_add]
  congr 1
  funext j
  simp [leafSeq]

/-- Once the chain has ended it stays ended. -/
theorem leafSeq_none_mono (table : zl_table) (x y : Int) (i k : Nat)
    (h : leafSeq table x y k i = none) : ∀ m, k ≤ m → leafSeq table x y m i = none := by
  intro m hm
  obtain ⟨d, rfl⟩ := Nat.exists_eq_add_of_le hm
  rw [leafSeq_add, h]
  rfl

/-- The budget `fuel` is exhausted exactly when the chain has a `fuel`-th nested call. -/
theorem leafLookupZone_outOfFuel_iff (table : zl_table) (x y : Int) (tk : Nat) :
    ∀ (fuel i : Nat), leafLookupZone table x y tk fuel i = .fault .outOfFuel ↔
      leafSeq table x y fuel i ≠ none := by
  intro fuel
  induction fuel with
  | zero => intro i; simp [leafLookupZone, leafSeq]
  | succ fuel ih =>
    intro i
    have hs := leafLookupZone_succ table x y tk fuel i
    rw [leafSeq]
    cases hn : leafNext table x y i with
    | none =>
      have := hs.2 hn
      rw [this.1]
      simp [this.2]
    | some j =>
      rw [hs.1 j hn, Option.some_bind]
      exact ih j

/-- A result other than `outOfFuel` is the result for every larger budget. -/
theorem leafLookupZone_mono (table : zl_table) (x y : Int) (tk : Nat) :
    ∀ (fuel i : Nat), leafLookupZone table x y tk fuel i ≠ .fault .outOfFuel →
      ∀ m, fuel ≤ m → leafLookupZone table x y tk m i = leafLookupZone table x y tk fuel i := by
  intro fuel
  induction fuel with
  | zero => intro i h; simp [leafLookupZone] at h
  | succ fuel ih =>
    intro i h m hm
    obtain ⟨m', rfl⟩ : ∃ m', m = m' + 1 := ⟨m - 1, by omega⟩
    have hs := leafLookupZone_succ table x y tk fuel i
    have hm' := leafLookupZone_succ table x y tk m' i
    cases hn : leafNext table x y i with
    | none => rw [(hs.2 hn).1, (hm'.2 hn).1]
    | some j =>
      rw [hs.1 j hn] at h ⊢
      rw [hm'.1 j hn]
      exact ih j h m' (by omega)

/-- The value that `leafLookupPixmap` reads is the cell of the pixel, on a full pixmap. -/
theorem leafNext_pixmap (table : zl_table) (x y : Int) (i : Nat) (leaf : zl_leaf)
    (hleaf : table.leaves[i]? = some leaf) (hP : leaf.type = 'P')
    (hlen : leaf.pixmap.length = 128) :
    leafNext table x y i
      = if pixmapCell leaf x y = 0xFFFF then none else some (pixmapCell leaf x y) := by
  have hxl := low3_lt x
  have hyl := low3_lt y
  have hS : leaf.type ≠ 'S' := by rw [hP]; decide
  have h2 : leaf.type ≠ '2' := by rw [hP]; decide
  have hj1 : 2 * (low3 y * 8 + low3 x) < leaf.pixmap.length := by omega
  have hj2 : 2 * (low3 y * 8 + low3 x) + 1 < leaf.pixmap.length := by omega
  have hj : 2 * (8 * low3 y + low3 x) = 2 * (low3 y * 8 + low3 x) := by omega
  have hcell : pixmapCell leaf x y
      = (((leaf.pixmap[2 * (low3 y * 8 + low3 x)] % 256) <<< 8)
          + leaf.pixmap[2 * (low3 y * 8 + low3 x) + 1] % 256) % 2 ^ 16 := by
    unfold pixmapCell
    simp only [hj, List.getD_eq_getElem?_getD, List.getElem?_eq_getElem hj1,
      List.getElem?_eq_getElem hj2, Option.getD_some, Nat.shiftLeft_eq]
    have h1 : leaf.pixmap[2 * (low3 y * 8 + low3 x)] % 256 < 256 := Nat.mod_lt _ (by decide)
    have h3 : leaf.pixmap[2 * (low3 y * 8 + low3 x) + 1] % 256 < 256 :=
      Nat.mod_lt _ (by decide)
    omega
  rw [leafNext, hleaf]
  simp only []
  rw [if_neg hS, if_neg h2, if_pos hP]
  simp only [List.getElem?_eq_getElem hj1, List.getElem?_eq_getElem hj2, ← hcell, OCEAN_INDEX]

/-- The index that a Bitmap leaf passes on. -/
theorem leafNext_bitmap (table : zl_table) (x y : Int) (i : Nat) (leaf : zl_leaf)
    (hleaf : table.leaves[i]? = some leaf) (h2 : leaf.type = '2') :
    leafNext table x y i = some (leaf.idx (leafLookupBitmap.sel leaf x y)) := by
  have hS : leaf.type ≠ 'S' := by rw [h2]; decide
  rw [leafNext, hleaf]
  simp only []
  rw [if_neg hS, if_pos h2]

/-- A Uniform leaf makes no nested call and returns its code. -/
theorem leafLookupZone_uniform (table : zl_table) (x y : Int) (tk fuel i : Nat)
    (leaf : zl_leaf) (hleaf : table.leaves[i]? = some leaf) (hS : leaf.type = 'S') :
    leafNext table x y i = none ∧
    leafLookupZone table x y tk (fuel + 1) i = .ret leaf.name := by
  constructor
  · rw [leafNext, hleaf]
    simp only []
    rw [if_pos hS]
  · rw [leafLookupZone, hleaf]
    simp only []
    rw [if_pos hS, leafLookupStatic]

/-- A leaf with an unknown tag makes no nested call and returns `NULL`. -/
theorem leafLookupZone_unknown_tag (table : zl_table) (x y : Int) (tk fuel i : Nat)
    (leaf : zl_leaf) (hleaf : table.leaves[i]? = some leaf) (hS : leaf.type ≠ 'S')
    (h2 : leaf.type ≠ '2') (hP : leaf.type ≠ 'P') :
    leafNext table x y i = none ∧
    leafLookupZone table x y tk (fuel + 1) i = .ret none := by
  constructor
  · rw [leafNext, hleaf]
    simp only []
    rw [if_neg hS, if_neg h2, if_neg hP]
  · rw [leafLookupZone, hleaf]
    simp only []
    rw [if_neg hS, if_neg h2, if_neg hP]

/-- A leaf index outside the table: the read of `leaves[i]` is out of bounds. -/
theorem leafLookupZone_out_of_range (table : zl_table) (x y : Int) (tk fuel i : Nat)
    (hi : table.leaves.length ≤ i) :
    leafNext table x y i = none ∧
    leafLookupZone table x y tk (fuel + 1) i = .fault .outOfBounds := by
  have hnone : table.leaves[i]? = none := List.getElem?_eq_none hi
  constructor
  · rw [leafNext, hnone]
  · rw [leafLookupZone, hnone]

/-- On a table whose leaves have known tags and whose Uniform leaves hold a code, a `NULL`
result comes from the sentinel cell of the Pixmap leaf that the chain visits last. -/
theorem leafLookupZone_null_chain (table : zl_table) (x y : Int) (tk : Nat)
    (hwf : TagsAndCodes table) :
    ∀ (fuel i : Nat), leafLookupZone table x y tk fuel i = .ret none →
      ∃ (k j : Nat) (leaf : zl_leaf), leafSeq table x y k i = some j ∧
        leafNext table x y j = none ∧ table.leaves[j]? = some leaf ∧ leaf.type = 'P' ∧
        pixmapCell leaf x y = 0xFFFF := by
  intro fuel
  induction fuel with
  | zero => intro i h; simp [leafLookupZone] at h
  | succ fuel ih =>
    intro i h
    have hs := leafLookupZone_succ table x y tk fuel i
    cases hn : leafNext table x y i with
    | some j =>
      rw [hs.1 j hn] at h
      obtain ⟨k, j', leaf, hk, hrest⟩ := ih j h
      refine ⟨k + 1, j', leaf, ?_, hrest⟩
      rw [leafSeq, hn, Option.some_bind, hk]
    | none =>
      cases hl : table.leaves[i]? with
      | none =>
        rw [leafLookupZone, hl] at h
        simp at h
      | some leaf =>
        have hmem : leaf ∈ table.leaves := List.getElem?_mem hl
        have htag := (hwf leaf hmem).1
        have hname := (hwf leaf hmem).2
        rcases htag with hS | h2 | hP
        · rw [(leafLookupZone_uniform table x y tk fuel i leaf hl hS).2] at h
          have : leaf.name = none := by simpa using h
          exact absurd this (hname hS)
        · rw [leafNext_bitmap table x y i leaf hl h2] at hn
          simp at hn
        · refine ⟨0, i, leaf, rfl, hn, hl, hP, ?_⟩
          have hS : leaf.type ≠ 'S' := by rw [hP]; decide
          have h2 : leaf.type ≠ '2' := by rw [hP]; decide
          rw [leafLookupZone, hl] at h
          simp only [] at h
          rw [if_neg hS, if_neg h2, if_pos hP, leafLookupPixmap] at h
          rw [leafNext, hl] at hn
          simp only [] at hn
          rw [if_neg hS, if_neg h2, if_pos hP] at hn
          have hj : 2 * (8 * low3 y + low3 x) = 2 * (low3 y * 8 + low3 x) := by omega
          unfold pixmapCell
          simp only [hj, List.getD_eq_getElem?_getD]
          cases h1 : leaf.pixmap[2 * (low3 y * 8 + low3 x)]? with
          | none => rw [h1] at h; simp at h
          | some hi =>
            cases h3 : leaf.pixmap[2 * (low3 y * 8 + low3 x) + 1]? with
            | none => rw [h1, h3] at h; simp at h
            | some lo =>
              rw [h1, h3] at hn
              simp only [] at hn
              have ho : (((hi % 256) <<< 8) + lo % 256) % 2 ^ 16 = OCEAN_INDEX := by
                by_contra hc
                rw [if_neg hc] at hn
                simp at hn
              simp only [Option.getD_some]
              rw [Nat.shiftLeft_eq, OCEAN_INDEX] at ho
              have b1 : hi % 256 < 256 := Nat.mod_lt _ (by decide)
              have b2 : lo % 256 < 256 := Nat.mod_lt _ (by decide)
              omega

/-- A leaf that passes its own index on never ends its chain. -/
theorem leafSeq_self_loop (table : zl_table) (x y : Int) (i : Nat)
    (h : leafNext table x y i = some i) : ∀ n, leafSeq table x y n i = some i := by
  intro n
  induction n with
  | zero => rfl
  | succ n ih => rw [leafSeq, h, Option.some_bind, ih]

/-- When the chain has ended within `n` calls, every budget of at least `n` calls gives one
and the same result, which is not `outOfFuel`. -/
theorem leafLookupZone_of_chain_end (table : zl_table) (x y : Int) (tk i n : Nat)
    (h : leafSeq table x y n i = none) :
    leafLookupZone table x y tk n i ≠ .fault .outOfFuel ∧
    ∀ fuel, n ≤ fuel →
      leafLookupZone table x y tk fuel i = leafLookupZone table x y tk n i := by
  have hne : leafLookupZone table x y tk n i ≠ .fault .outOfFuel := by
    intro hc
    exact (leafLookupZone_outOfFuel_iff table x y tk n i).mp hc h
  exact ⟨hne, leafLookupZone_mono table x y tk n i hne⟩

/-- When the chain never ends, no budget is enough. -/
theorem leafLookupZone_of_chain_endless (table : zl_table) (x y : Int) (tk i : Nat)
    (h : ∀ n, leafSeq table x y n i ≠ none) :
    ∀ fuel, leafLookupZone table x y tk fuel i = .fault .outOfFuel :=
  fun fuel => (leafLookupZone_outOfFuel_iff table x y tk fuel i).mpr (h fuel)

/-! ## The resolver and the low bits of the pixel -/

theorem low3_congr (v w : Int) (h : v % 8 = w % 8) : low3 v = low3 w := by
  unfold low3 maskBits
  have e : (2 : Int) ^ 3 = 8 := by norm_num
  rw [e, h]

/-- The leaf resolver sees the pixel only through `x & 7` and `y & 7`, and does not look
at the tile key. -/
theorem leafLookupZone_congr (table : zl_table) (x y x2 y2 : Int) (tk tk2 : Nat)
    (hx : low3 x = low3 x2) (hy : low3 y = low3 y2) :
    ∀ (fuel i : Nat),
      leafLookupZone table x y tk fuel i = leafLookupZone table x2 y2 tk2 fuel i := by
  intro fuel
  induction fuel with
  | zero => intro i; rfl
  | succ fuel ih =>
    intro i
    have hzone : leafLookupZone table x y tk fuel = leafLookupZone table x2 y2 tk2 fuel :=
      funext ih
    rw [leafLookupZone, leafLookupZone, hzone]
    simp only [leafLookupBitmap, leafLookupBitmap.sel, leafLookupPixmap, hx, hy]

theorem leafNext_congr (table : zl_table) (x y x2 y2 : Int)
    (hx : low3 x = low3 x2) (hy : low3 y = low3 y2) (i : Nat) :
    leafNext table x y i = leafNext table x2 y2 i := by
  rw [leafNext, leafNext]
  simp only [leafLookupBitmap.sel, hx, hy]

theorem leafSeq_congr (table : zl_table) (x y x2 y2 : Int)
    (hx : low3 x = low3 x2) (hy : low3 y = low3 y2) :
    ∀ (k i : Nat), leafSeq table x y k i = leafSeq table x2 y2 k i := by
  intro k
  induction k with
  | zero => intro i; rfl
  | succ k ih =>
    intro i
    rw [leafSeq, leafSeq, leafNext_congr table x y x2 y2 hx hy i]
    congr 1
    exact funext ih

/-! ## The colour table: lemmas -/

theorem Char_toNat_lt (c : Char) : c.toNat < 2 ^ 21 := by
  have h := c.valid
  simp only [UInt32.isValidChar, Nat.isValidChar] at h
  have e : c.toNat = c.val.toNat := rfl
  omega

theorem Char_toNat_inj {a b : Char} (h : a.toNat = b.toNat) : a = b := by
  rw [← Char.ofNat_toNat a, ← Char.ofNat_toNat b, h]

/-- The sign of `strncmp` on two codes of two characters is the order of their ranks. -/
theorem strncmp_two (a0 a1 b0 b1 : Char) (hb : b0 ≠ Char.ofNat 0) :
    (strncmp [a0, a1] [b0, b1] 2 < 0 ↔ codeRank [a0, a1] < codeRank [b0, b1]) ∧
    (0 < strncmp [a0, a1] [b0, b1] 2 ↔ codeRank [b0, b1] < codeRank [a0, a1]) := by
  have ha0 := Char_toNat_lt a0
  have ha1 := Char_toNat_lt a1
  have hb0 := Char_toNat_lt b0
  have hb1 := Char_toNat_lt b1
  simp only [codeRank, List.headD_cons, List.tail_cons]
  by_cases h0 : a0 = b0
  · subst h0
    by_cases h1 : a1 = b1
    · subst h1
      have : strncmp [a0, a1] [a0, a1] 2 = 0 := by
        simp only [strncmp, List.headD_cons, List.tail_cons, ne_eq, not_true_eq_false,
          if_false]
        split <;> [rfl; split <;> rfl]
      rw [this]
      omega
    · have hne : a1.toNat ≠ b1.toNat := fun h => h1 (Char_toNat_inj h)
      have : strncmp [a0, a1] [a0, b1] 2 = (a1.toNat : Int) - (b1.toNat : Int) := by
        simp only [strncmp, List.headD_cons, List.tail_cons, ne_eq, not_true_eq_false,
          if_false, hb, h1, not_false_eq_true, if_true]
      rw [this]
      omega
  · have hne : a0.toNat ≠ b0.toNat := fun h => h0 (Char_toNat_inj h)
    have : strncmp [a0, a1] [b0, b1] 2 = (a0.toNat : Int) - (b0.toNat : Int) := by
      simp only [strncmp, List.headD_cons, ne_eq, h0, not_false_eq_true, if_true]
    rw [this]
    omega

theorem increasing_chain : ∀ l : List Nat, increasing l = true → l.Chain' (· < ·)
  | [], _ => List.chain'_nil
  | [_], _ => List.chain'_singleton _
  | a :: b :: rest, h => by
    rw [increasing, Bool.and_eq_true, decide_eq_true_eq] at h
    exact List.chain'_cons.mpr ⟨h.1, increasing_chain (b :: rest) h.2⟩

theorem increasing_pairwise (l : List Nat) (h : increasing l = true) : l.Pairwise (· < ·) :=
  List.chain'_iff_pairwise.mp (increasing_chain l h)

/-- The loop invariant of `bsearch` on an array that is strictly increasing in a rank, for a
comparison whose sign is the order between the rank `K` of the key and the rank of the
element. -/
theorem bsearch_loop_spec {α : Type} (compar : α → Int) (base : List α) (rank : α → Nat)
    (K : Nat) (hs : base.Pairwise (fun a b => rank a < rank b))
    (hc : ∀ e ∈ base, (compar e < 0 ↔ K < rank e) ∧ (0 < compar e ↔ rank e < K)) :
    ∀ (fuel l u : Nat), u ≤ base.length → u - l < fuel →
      (∀ n (h : n < base.length), n < l → rank base[n] < K) →
      (∀ n (h : n < base.length), u ≤ n → K < rank base[n]) →
      (∃ e ∈ base, rank e = K ∧ bsearch.loop compar base fuel l u = some e) ∨
      ((∀ e ∈ base, rank e ≠ K) ∧ bsearch.loop compar base fuel l u = none) := by
  have hmono : ∀ {m n : Nat} (hm : m < base.length) (hn : n < base.length), m ≤ n →
      rank base[m] ≤ rank base[n] := by
    intro m n hm hn hmn
    rcases Nat.eq_or_lt_of_le hmn with h | h
    · subst h; exact Nat.le_refl _
    · exact Nat.le_of_lt (List.pairwise_iff_getElem.mp hs m n hm hn h)
  intro fuel
  induction fuel with
  | zero => intro l u _ h; omega
  | succ fuel ih =>
    intro l u hu hf hlo hhi
    unfold bsearch.loop
    by_cases hlu : l < u
    · have hlt : (l + u) / 2 < base.length := by omega
      have hmem : base[(l + u) / 2] ∈ base := List.getElem_mem _
      have hsign := hc _ hmem
      simp only [hlu, if_true, List.getElem?_eq_getElem hlt]
      by_cases hneg : compar base[(l + u) / 2] < 0
      · simp only [hneg, if_true]
        refine ih l ((l + u) / 2) (by omega) (by omega) hlo ?_
        intro n h hn
        exact Nat.lt_of_lt_of_le (hsign.1.mp hneg) (hmono hlt h hn)
      · by_cases hpos : 0 < compar base[(l + u) / 2]
        · simp only [hneg, if_false, gt_iff_lt, hpos, if_true]
          refine ih ((l + u) / 2 + 1) u hu (by omega) ?_ hhi
          intro n h hn
          exact Nat.lt_of_le_of_lt (hmono h hlt (by omega)) (hsign.2.mp hpos)
        · simp only [hneg, if_false, gt_iff_lt, hpos]
          refine Or.inl ⟨_, hmem, ?_, rfl⟩
          have h1 := mt hsign.1.mpr hneg
          have h2 := mt hsign.2.mpr hpos
          omega
    · simp only [hlu, if_false]
      refine Or.inr ⟨?_, trivial⟩
      intro e he
      obtain ⟨n, hn, rfl⟩ := List.getElem_of_mem he
      by_cases hnl : n < l
      · have := hlo n hn hnl; omega
      · have := hhi n hn (by omega); omega

/-- On such an array `bsearch` finds the element with the rank of the key, if there is one,
and returns `NULL` otherwise. -/
theorem bsearch_spec {α : Type} (compar : α → Int) (base : List α) (rank : α → Nat)
    (K : Nat) (hs : base.Pairwise (fun a b => rank a < rank b))
    (hc : ∀ e ∈ base, (compar e < 0 ↔ K < rank e) ∧ (0 < compar e ↔ rank e < K)) :
    (∀ e ∈ base, rank e = K → bsearch compar base = some e) ∧
    ((∀ e ∈ base, rank e ≠ K) → bsearch compar base = none) := by
  have h := bsearch_loop_spec compar base rank K hs hc (base.length + 1) 0 base.length
    (Nat.le_refl _) (by omega) (fun n _ hn => absurd hn (Nat.not_lt_zero n))
    (fun n h hn => absurd hn (by omega))
  constructor
  · intro e he hK
    rcases h with ⟨e', he', hK', hr⟩ | ⟨hno, _⟩
    · unfold bsearch
      rw [hr]
      obtain ⟨m, hm, rfl⟩ := List.getElem_of_mem he
      obtain ⟨n, hn, rfl⟩ := List.getElem_of_mem he'
      rcases Nat.lt_trichotomy m n with hlt | heq | hgt
      · have := List.pairwise_iff_getElem.mp hs m n hm hn hlt; omega
      · subst heq; rfl
      · have := List.pairwise_iff_getElem.mp hs n m hn hm hgt; omega
    · exact absurd hK (hno e he)
  · intro hno
    rcases h with ⟨e', he', hK', _⟩ | ⟨_, hr⟩
    · exact absurd hK' (hno e' he')
    · exact hr

/-- A country code is two characters, the first of which is not `NUL`. -/
theorem IsCountryCode.two_chars {s : String} (h : IsCountryCode s) :
    ∃ b0 b1 : Char, s.data = [b0, b1] ∧ b0 ≠ Char.ofNat 0 := by
  obtain ⟨hlen, hup⟩ := h
  have hl : s.data.length = 2 := hlen
  obtain ⟨b0, b1, hd⟩ := List.length_eq_two.mp hl
  refine ⟨b0, b1, hd, ?_⟩
  intro hz
  have := hup b0 (by rw [hd]; exact List.mem_cons_self _ _)
  rw [hz] at this
  exact absurd this (by decide)

theorem codeRank_two_inj {a0 a1 b0 b1 : Char}
    (h : codeRank [a0, a1] = codeRank [b0, b1]) : [a0, a1] = [b0, b1] := by
  have ha0 := Char_toNat_lt a0
  have ha1 := Char_toNat_lt a1
  have hb0 := Char_toNat_lt b0
  have hb1 := Char_toNat_lt b1
  simp only [codeRank, List.headD_cons, List.tail_cons] at h
  have h0 : a0 = b0 := Char_toNat_inj (by omega)
  have h1 : a1 = b1 := Char_toNat_inj (by omega)
  rw [h0, h1]

/-- Every code of the colour table is two ASCII uppercase letters. -/
theorem colors_codes : ∀ e ∈ colors, IsCountryCode e.cc := by
  set_option maxRecDepth 100000 in decide

/-- The colour table is strictly increasing in the rank of its codes. -/
theorem colors_sorted :
    colors.Pairwise (fun a b => codeRank a.cc.data < codeRank b.cc.data) := by
  have h : increasing (colors.map (fun e => codeRank e.cc.data)) = true := by
    set_option maxRecDepth 100000 in decide
  exact List.pairwise_map.mp (increasing_pairwise _ h)

/-- The sign of `color_for_country_cmp` at an entry of the table, for a key of two
characters. -/
theorem color_for_country_cmp_sign (key : String) (hkey : key.data.length = 2)
    (e : country_color) (he : e ∈ colors) :
    (color_for_country_cmp key e < 0 ↔ codeRank key.data < codeRank e.cc.data) ∧
    (0 < color_for_country_cmp key e ↔ codeRank e.cc.data < codeRank key.data) := by
  obtain ⟨a0, a1, ha⟩ := List.length_eq_two.mp hkey
  obtain ⟨b0, b1, hb, hb0⟩ := (colors_codes e he).two_chars
  unfold color_for_country_cmp
  rw [ha, hb]
  exact strncmp_two a0 a1 b0 b1 hb0

/-- The result of `color_for_country` on a non-null code, from the result of `bsearch`. -/
theorem color_for_country_of_bsearch (key : String) (r : Option country_color)
    (h : bsearch (color_for_country_cmp key) colors = r) :
    color_for_country (some key) = r.getD ocean_color := by
  subst h
  unfold color_for_country
  simp only []
  generalize bsearch (color_for_country_cmp key) colors = r
  cases r <;> rfl

/-! ## The walker and null answers -/

/-- A `NULL` result of the loop of `zoneLokupPixel` means that every level it ran yielded
`NULL`. -/
theorem zoneLokupPixel_loop_none (fuel : Nat) (table : zl_table) (x y : Int) :
    ∀ n, zoneLokupPixel.loop fuel table x y n = .ret none →
      ∀ l, l < n → zoomLevelLookupTile fuel table l x y (pixelKey l x y) = .ret none := by
  intro n
  induction n with
  | zero => intro _ l hl; omega
  | succ n ih =>
    intro h l hl
    rw [zoneLokupPixel.loop] at h
    cases hr : zoomLevelLookupTile fuel table n x y (pixelKey n x y) with
    | fault f => rw [hr] at h; simp at h
    | ret v =>
      cases v with
      | some z => rw [hr] at h; simp at h
      | none =>
        rw [hr] at h
        rcases Nat.eq_or_lt_of_le (Nat.le_of_lt_succ hl) with he | hlt
        · rw [he]; exact hr
        · exact ih h l hlt

/-- A code returned by the loop of `zoneLokupPixel` is the answer of the coarsest level that
did not yield `NULL`. -/
theorem zoneLokupPixel_loop_some_level (fuel : Nat) (table : zl_table) (x y : Int)
    (z : String) :
    ∀ n, zoneLokupPixel.loop fuel table x y n = .ret (some z) →
      ∃ L, L < n ∧ zoomLevelLookupTile fuel table L x y (pixelKey L x y) = .ret (some z) ∧
        ∀ l, L < l → l < n →
          zoomLevelLookupTile fuel table l x y (pixelKey l x y) = .ret none := by
  intro n
  induction n with
  | zero => intro h; simp [zoneLokupPixel.loop] at h
  | succ n ih =>
    intro h
    rw [zoneLokupPixel.loop] at h
    cases hr : zoomLevelLookupTile fuel table n x y (pixelKey n x y) with
    | fault f => rw [hr] at h; simp at h
    | ret v =>
      cases v with
      | some z' =>
        rw [hr] at h
        have hz : z' = z := by simpa using h
        subst hz
        exact ⟨n, Nat.lt_succ_self n, hr, fun l h1 h2 => by omega⟩
      | none =>
        rw [hr] at h
        obtain ⟨L, hL, hres, habove⟩ := ih h
        refine ⟨L, by omega, hres, ?_⟩
        intro l h1 h2
        rcases Nat.eq_or_lt_of_le (Nat.le_of_lt_succ h2) with he | hlt
        · rw [he]; exact hr
        · exact habove l h1 hlt

/-- When every level returns, the loop of `zoneLokupPixel` returns. -/
theorem zoneLokupPixel_loop_ret (fuel : Nat) (table : zl_table) (x y : Int) :
    ∀ n, (∀ l, l < n → ∃ r, zoomLevelLookupTile fuel table l x y (pixelKey l x y) = .ret r) →
      ∃ r, zoneLokupPixel.loop fuel table x y n = .ret r := by
  intro n
  induction n with
  | zero => intro _; exact ⟨none, rfl⟩
  | succ n ih =>
    intro h
    obtain ⟨r, hr⟩ := h n (Nat.lt_succ_self n)
    rw [zoneLokupPixel.loop, hr]
    cases r with
    | some z => exact ⟨some z, rfl⟩
    | none => exact ih (fun l hl => h l (by omega))

/-- On a sorted table a level yields `NULL` exactly when every entry with the key, if there
is one, resolves to `NULL`. -/
theorem zoomLevelLookupTile_none_iff (fuel : Nat) (table : zl_table) (hs : SortedTable table)
    (l : Fin 6) (x y : Int) (tk : Nat) :
    zoomLevelLookupTile fuel table l x y tk = .ret none ↔
      ∀ t ∈ (table.zoom_levels l).tiles, t.key = tk →
        leafLookupZone table x y tk fuel t.idx = .ret none := by
  constructor
  · intro h t ht hk
    rw [← zoomLevelLookupTile_of_mem fuel table hs l x y tk t ht hk]
    exact h
  · intro h
    by_cases hex : HasKey (table.zoom_levels l) tk
    · obtain ⟨t, ht, hk⟩ := hex
      rw [zoomLevelLookupTile_of_mem fuel table hs l x y tk t ht hk]
      exact h t ht hk
    · exact zoomLevelLookupTile_of_absent fuel table hs l x y tk hex

/-- On a sorted table a level yields a code exactly when its entry with the key resolves to
that code. -/
theorem zoomLevelLookupTile_some_iff (fuel : Nat) (table : zl_table) (hs : SortedTable table)
    (l : Fin 6) (x y : Int) (tk : Nat) (z : String) :
    zoomLevelLookupTile fuel table l x y tk = .ret (some z) ↔
      ∃ t ∈ (table.zoom_levels l).tiles, t.key = tk ∧
        leafLookupZone table x y tk fuel t.idx = .ret (some z) := by
  constructor
  · intro h
    by_cases hex : HasKey (table.zoom_levels l) tk
    · obtain ⟨t, ht, hk⟩ := hex
      refine ⟨t, ht, hk, ?_⟩
      rw [← zoomLevelLookupTile_of_mem fuel table hs l x y tk t ht hk]
      exact h
    · rw [zoomLevelLookupTile_of_absent fuel table hs l x y tk hex] at h
      simp at h
  · rintro ⟨t, ht, hk, h⟩
    rw [zoomLevelLookupTile_of_mem fuel table hs l x y tk t ht hk]
    exact h

/-! ## Termination of the leaf resolver -/

theorem pixmapCell_low3 (leaf : zl_leaf) (x y : Int) :
    pixmapCell leaf x y = pixmapCell leaf (low3 x : Int) (low3 y : Int) := by
  unfold pixmapCell
  rw [low3_natCast _ (low3_lt x), low3_natCast _ (low3_lt y)]

/-- On a table with valid leaf references every index passed on is an index of the table. -/
theorem leafNext_lt (table : zl_table) (hv : ValidLeafRefs table) (x y : Int) (j a : Nat)
    (h : leafNext table x y j = some a) : a < table.leaves.length := by
  rw [leafNext] at h
  cases hl : table.leaves[j]? with
  | none => rw [hl] at h; simp at h
  | some leaf =>
    rw [hl] at h
    simp only [] at h
    have hmem : leaf ∈ table.leaves := List.getElem?_mem hl
    by_cases hS : leaf.type = 'S'
    · rw [if_pos hS] at h; simp at h
    · rw [if_neg hS] at h
      by_cases h2 : leaf.type = '2'
      · rw [if_pos h2] at h
        have ha : leaf.idx (leafLookupBitmap.sel leaf x y) = a := by simpa using h
        rw [← ha]
        exact (hv leaf hmem).1 h2 _
      · rw [if_neg h2] at h
        by_cases hP : leaf.type = 'P'
        · rw [if_pos hP] at h
          have hj : 2 * (8 * low3 y + low3 x) = 2 * (low3 y * 8 + low3 x) := by omega
          have hcell := (hv leaf hmem).2 hP (low3 x, low3 y)
            ((mem_cells _).mpr ⟨low3_lt x, low3_lt y⟩)
          simp only [← pixmapCell_low3] at hcell
          unfold pixmapCell at hcell
          simp only [hj, List.getD_eq_getElem?_getD] at hcell
          cases h1 : leaf.pixmap[2 * (low3 y * 8 + low3 x)]? with
          | none => rw [h1] at h; simp at h
          | some hi =>
            cases h3 : leaf.pixmap[2 * (low3 y * 8 + low3 x) + 1]? with
            | none => rw [h1, h3] at h; simp at h
            | some lo =>
              rw [h1, h3] at h hcell
              simp only [Option.getD_some] at h hcell
              have b1 : hi % 256 < 256 := Nat.mod_lt _ (by decide)
              have b2 : lo % 256 < 256 := Nat.mod_lt _ (by decide)
              have e : (((hi % 256) <<< 8) + lo % 256) % 2 ^ 16
                  = 256 * (hi % 256) + lo % 256 := by
                rw [Nat.shiftLeft_eq]; omega
              rw [e, OCEAN_INDEX] at h
              by_cases ho : 256 * (hi % 256) + lo % 256 = 0xFFFF
              · rw [if_pos ho] at h; simp at h
              · rw [if_neg ho] at h
                have ha : 256 * (hi % 256) + lo % 256 = a := by simpa using h
                rw [← ha]
                exact hcell.resolve_left ho
        · rw [if_neg hP] at h; simp at h

/-- On a table with valid leaf references, started on an index of the table, every index of
the chain is an index of the table. -/
theorem leafSeq_lt (table : zl_table) (hv : ValidLeafRefs table) (x y : Int) :
    ∀ (k i a : Nat), i < table.leaves.length → leafSeq table x y k i = some a →
      a < table.leaves.length := by
  intro k
  induction k with
  | zero =>
    intro i a hi h
    have : i = a := by simpa [leafSeq] using h
    omega
  | succ k ih =>
    intro i a hi h
    rw [leafSeq] at h
    cases hn : leafNext table x y i with
    | none => rw [hn] at h; simp at h
    | some j =>
      rw [hn, Option.some_bind] at h
      exact ih j a (leafNext_lt table hv x y i j hn) h

/-- A chain that visits an index twice never ends. -/
theorem leafSeq_repeat_endless (table : zl_table) (x y : Int) (i k l a : Nat) (hkl : k < l)
    (hk : leafSeq table x y k i = some a) (hl : leafSeq table x y l i = some a) :
    ∀ n, leafSeq table x y n i ≠ none := by
  obtain ⟨d, rfl⟩ : ∃ d, l = k + d := ⟨l - k, by omega⟩
  have hd : 0 < d := by omega
  have hloop : leafSeq table x y d a = some a := by
    rw [leafSeq_add, hk, Option.some_bind] at hl
    exact hl
  have hall : ∀ m, leafSeq table x y (k + m * d) i = some a := by
    intro m
    induction m with
    | zero => simpa using hk
    | succ m ih =>
      have : k + (m + 1) * d = (k + m * d) + d := by ring
      rw [this, leafSeq_add, ih, Option.some_bind, hloop]
  intro n hn
  have hle : n ≤ k + n * d := by
    have : n ≤ n * d := Nat.le_mul_of_pos_right n hd
    omega
  have := leafSeq_none_mono table x y i n hn (k + n * d) hle
  rw [hall n] at this
  exact Option.noConfusion this

/-- On a table with `N` leaves and valid leaf references, a chain that has not ended after
`N` nested calls has visited an index twice. -/
theorem leafSeq_pigeonhole (table : zl_table) (hv : ValidLeafRefs table) (x y : Int)
    (i : Nat) (hi : i < table.leaves.length)
    (h : leafSeq table x y table.leaves.length i ≠ none) :
    ∃ k l a, k < l ∧ leafSeq table x y k i = some a ∧ leafSeq table x y l i = some a := by
  have hsome : ∀ k, k ≤ table.leaves.length → ∃ a, leafSeq table x y k i = some a := by
    intro k hk
    cases hs : leafSeq table x y k i with
    | none => exact absurd (leafSeq_none_mono table x y i k hs _ hk) h
    | some a => exact ⟨a, rfl⟩
  have hmaps : ∀ k ∈ Finset.range (table.leaves.length + 1),
      (leafSeq table x y k i).getD 0 ∈ Finset.range table.leaves.length := by
    intro k hk
    obtain ⟨a, ha⟩ := hsome k (by simpa [Nat.lt_succ_iff] using hk)
    rw [ha, Option.getD_some, Finset.mem_range]
    exact leafSeq_lt table hv x y k i a hi ha
  obtain ⟨k, hk, l, hl, hne, heq⟩ :=
    Finset.exists_ne_map_eq_of_card_lt_of_maps_to (by simp) hmaps
  obtain ⟨a, ha⟩ := hsome k (by simpa [Nat.lt_succ_iff] using hk)
  obtain ⟨b, hb⟩ := hsome l (by simpa [Nat.lt_succ_iff] using hl)
  rw [ha, hb, Option.getD_some, Option.getD_some] at heq
  subst heq
  rcases Nat.lt_or_gt_of_ne hne with hlt | hgt
  · exact ⟨k, l, a, hlt, ha, hb⟩
  · exact ⟨l, k, a, hgt, hb, ha⟩

/-! ## The renderer: lemmas -/

/-- The function `write_png_file` on the null file name: `fopen` fails and the call ends in
`abort_`, unless the size of the image overflows before. -/
theorem write_png_file_null (env : Env) (fuel : Nat) (table : zl_table) :
    write_png_file env fuel table none
      = (match mulInt32 360 (zl_deg_pixels table), mulInt32 180 (zl_deg_pixels table) with
        | some _, some _ => { ending := .aborts, opened := none, rows := [] }
        | _, _ => { ending := .undefined .outOfRange, opened := none, rows := [] }) := by
  unfold write_png_file
  cases mulInt32 360 (zl_deg_pixels table) <;> cases mulInt32 180 (zl_deg_pixels table) <;> rfl

/-- The height of the image does not overflow when the width does not. -/
theorem mulInt32_180_of_360 (D : Int) (h : mulInt32 360 D ≠ none) : mulInt32 180 D ≠ none := by
  unfold mulInt32 at h ⊢
  by_cases hc : -2 ^ 31 ≤ 360 * D ∧ 360 * D < 2 ^ 31
  · rw [if_pos (by omega)]
    simp
  · rw [if_neg hc] at h
    exact absurd rfl h

/-! ## Claims -/

/-- C1 (counterexample): in `overlapTable` the coarsest level with the key of the pixel
`(0, 0)` is level 5, the leaf of its entry resolves to `NULL`, and yet `zoneLokupPixel`
goes on to level 0 and returns `DE`: the `NULL` answer of the coarsest matching level is not
final. -/
theorem zoneLokupPixel_null_not_terminal :
    SortedTable overlapTable ∧
    (⟨pixelKey 5 0 0, 1⟩ : zl_tile) ∈ (overlapTable.zoom_levels 5).tiles ∧
    leafLookupZone overlapTable 0 0 (pixelKey 5 0 0) 2 1 = .ret none ∧
    zoneLokupPixel 2 overlapTable 0 0 = .ret (some "DE") ∧
    zoneLokupPixel 2 overlapTable 0 0 ≠ leafLookupZone overlapTable 0 0 (pixelKey 5 0 0) 2 1 := by
  set_option maxRecDepth 8000 in decide

/-- C1 (amended): let `L` be the coarsest level at which the tile index yields an entry `t`
for the key of the pixel (every coarser level yields none).  If the leaf of `t` resolves to
a code, `zoneLokupPixel` returns that code and no finer level decides.  If it resolves to
`NULL`, the answer is not final: `zoneLokupPixel` returns what its loop returns on the finer
levels `L - 1, ..., 0`.  A fault of the resolution is passed on. -/
theorem zoneLokupPixel_coarsest_hit (fuel : Nat) (table : zl_table) (x y : Int) (L : Fin 6)
    (t : zl_tile)
    (hhit : searchTileKey (table.zoom_levels L) (pixelKey L x y) = .ret (some t))
    (hmiss : ∀ l : Fin 6, L < l →
      searchTileKey (table.zoom_levels l) (pixelKey l x y) = .ret none) :
    (∀ z, leafLookupZone table x y (pixelKey L x y) fuel t.idx = .ret (some z) →
      zoneLokupPixel fuel table x y = .ret (some z)) ∧
    (leafLookupZone table x y (pixelKey L x y) fuel t.idx = .ret none →
      zoneLokupPixel fuel table x y = zoneLokupPixel.loop fuel table x y L) ∧
    (∀ f, leafLookupZone table x y (pixelKey L x y) fuel t.idx = .fault f →
      zoneLokupPixel fuel table x y = .fault f) := by
  have hskip : zoneLokupPixel fuel table x y = zoneLokupPixel.loop fuel table x y (L + 1) := by
    unfold zoneLokupPixel
    apply zoneLokupPixel_loop_skip fuel table x y (L + 1) 6 (by omega)
    intro l h1 h2
    exact zoomLevelLookupTile_none fuel table ⟨l, h2⟩ x y _ (hmiss ⟨l, h2⟩ (by
      simp only [Fin.lt_def]; omega))
  have hL := zoomLevelLookupTile_found fuel table L x y _ t hhit
  rw [hskip, zoneLokupPixel.loop]
  simp only [hL]
  refine ⟨?_, ?_, ?_⟩
  · intro z hz; rw [hz]
  · intro hz; rw [hz]
  · intro f hf; rw [hf]

/-- Witness for C1 (amended): `overlapTable` at the pixel `(0, 0)`, whose coarsest hit is
the level 5 entry. -/
theorem zoneLokupPixel_coarsest_hit_witness :
    searchTileKey (overlapTable.zoom_levels 5) (pixelKey (5 : Fin 6) 0 0)
      = .ret (some ⟨pixelKey 5 0 0, 1⟩) ∧
    (∀ l : Fin 6, 5 < l →
      searchTileKey (overlapTable.zoom_levels l) (pixelKey l 0 0) = .ret none) ∧
    (leafLookupZone overlapTable 0 0 (pixelKey (5 : Fin 6) 0 0) 2 1 = .ret none →
      zoneLokupPixel 2 overlapTable 0 0
        = zoneLokupPixel.loop 2 overlapTable 0 0 (5 : Fin 6)) :=
  ⟨by decide, by decide,
    (zoneLokupPixel_coarsest_hit 2 overlapTable 0 0 5 ⟨pixelKey 5 0 0, 1⟩
      (by decide) (by decide)).2.1⟩

/-- C2: on a zoom level whose keys are strictly increasing, `searchTileKey` returns (without
a fault, so it terminates) the entry whose key equals `k` when there is one, and `NULL` when
no entry has the key `k`. -/
theorem searchTileKey_correct (zl : zl_zoom_level) (k : Nat) (hs : StrictlySorted zl) :
    (∀ t ∈ zl.tiles, t.key = k → searchTileKey zl k = .ret (some t)) ∧
    ((∀ t ∈ zl.tiles, t.key ≠ k) → searchTileKey zl k = .ret none) :=
  ⟨fun t ht hk => searchTileKey_of_mem zl k hs t ht hk,
    fun hno => searchTileKey_of_absent zl k hs hno⟩

/-- Witness for C2: a level with the keys 1, 5, 9, searched for the key 5. -/
theorem searchTileKey_correct_witness :
    StrictlySorted ⟨[⟨1, 10⟩, ⟨5, 11⟩, ⟨9, 12⟩]⟩ ∧
    ((∀ t ∈ (zl_zoom_level.mk [⟨1, 10⟩, ⟨5, 11⟩, ⟨9, 12⟩]).tiles, t.key = 5 →
        searchTileKey ⟨[⟨1, 10⟩, ⟨5, 11⟩, ⟨9, 12⟩]⟩ 5 = .ret (some t)) ∧
      ((∀ t ∈ (zl_zoom_level.mk [⟨1, 10⟩, ⟨5, 11⟩, ⟨9, 12⟩]).tiles, t.key ≠ 5) →
        searchTileKey ⟨[⟨1, 10⟩, ⟨5, 11⟩, ⟨9, 12⟩]⟩ 5 = .ret none)) :=
  ⟨by decide, searchTileKey_correct ⟨[⟨1, 10⟩, ⟨5, 11⟩, ⟨9, 12⟩]⟩ 5 (by decide)⟩

/-- C3: the three cases of the leaf resolver, for a valid leaf index `i` with leaf
`leaves[i]`.  A Uniform leaf (`'S'`) returns its code.  A Bitmap leaf (`'2'`) resolves like
`idx[1]` when bit `8 * (y & 7) + (x & 7)` of `bits` is set and like `idx[0]` otherwise.  A
Pixmap leaf (`'P'`, 128 bytes) reads the big-endian value
`sub = 256 * pixmap[j] + pixmap[j + 1]` at `j = 2 * (8 * (y & 7) + (x & 7))`, bytes taken as
unsigned; it returns `NULL` when `sub = 0xFFFF` and otherwise resolves like `sub`.  The
recursive call runs with the remaining fuel. -/
theorem leafLookupZone_cases (table : zl_table) (x y : Int) (tk fuel i : Nat) (leaf : zl_leaf)
    (hleaf : table.leaves[i]? = some leaf) :
    (leaf.type = 'S' → leafLookupZone table x y tk (fuel + 1) i = .ret leaf.name) ∧
    (leaf.type = '2' →
      leafLookupZone table x y tk (fuel + 1) i
        = leafLookupZone table x y tk fuel
            (if leaf.bits.testBit (8 * (y % 8).toNat + (x % 8).toNat) then leaf.idx 1
              else leaf.idx 0)) ∧
    (leaf.type = 'P' → leaf.pixmap.length = 128 →
      ∀ j sub : Nat, j = 2 * (8 * (y % 8).toNat + (x % 8).toNat) →
        sub = 256 * (leaf.pixmap.getD j 0 % 256) + leaf.pixmap.getD (j + 1) 0 % 256 →
        (sub = 0xFFFF → leafLookupZone table x y tk (fuel + 1) i = .ret none) ∧
        (sub ≠ 0xFFFF →
          leafLookupZone table x y tk (fuel + 1) i = leafLookupZone table x y tk fuel sub)) := by
  have hx : (x % 8).toNat = low3 x := rfl
  have hy : (y % 8).toNat = low3 y := rfl
  have hxl := low3_lt x
  have hyl := low3_lt y
  rw [hx, hy]
  refine ⟨?_, ?_, ?_⟩
  · intro hS
    rw [leafLookupZone, hleaf]
    simp only [hS, if_true, leafLookupStatic]
  · intro h2
    have hS : leaf.type ≠ 'S' := by rw [h2]; decide
    rw [leafLookupZone, hleaf]
    simp only []
    rw [if_neg hS, if_pos h2]
    simp only [leafLookupBitmap, bitmap_sel_eq]
    by_cases hb : leaf.bits.testBit (8 * low3 y + low3 x) = true
    · simp only [hb, if_true]
    · simp only [hb, if_false]
      rfl
  · intro hP hlen j sub hj hsub
    have hS : leaf.type ≠ 'S' := by rw [hP]; decide
    have h2 : leaf.type ≠ '2' := by rw [hP]; decide
    have hj1 : j < leaf.pixmap.length := by omega
    have hj2 : j + 1 < leaf.pixmap.length := by omega
    have hj' : 2 * (low3 y * 8 + low3 x) = j := by omega
    have hhi : leaf.pixmap.getD j 0 = leaf.pixmap[j] := by
      simp [List.getD_eq_getElem?_getD, List.getElem?_eq_getElem hj1]
    have hlo : leaf.pixmap.getD (j + 1) 0 = leaf.pixmap[j + 1] := by
      simp [List.getD_eq_getElem?_getD, List.getElem?_eq_getElem hj2]
    have hidx : (((leaf.pixmap[j] % 256) <<< 8) + leaf.pixmap[j + 1] % 256) % 2 ^ 16 = sub := by
      rw [hsub, hhi, hlo, Nat.shiftLeft_eq]
      have h1 : leaf.pixmap[j] % 256 < 256 := Nat.mod_lt _ (by decide)
      have h3 : leaf.pixmap[j + 1] % 256 < 256 := Nat.mod_lt _ (by decide)
      omega
    rw [leafLookupZone, hleaf]
    simp only []
    rw [if_neg hS, if_neg h2, if_pos hP]
    simp only [leafLookupPixmap, hj',
      List.getElem?_eq_getElem hj1, List.getElem?_eq_getElem hj2, hidx, OCEAN_INDEX]
    constructor
    · intro h; simp only [h, if_true]
    · intro h; simp only [h, if_false]

/-- Witness for C3: the bitmap leaf 2 of `borderTable` at the pixel `(9, 1)`. -/
theorem leafLookupZone_cases_witness :
    borderTable.leaves[2]? = some (bitmapLeaf 0 1 0xFF00) ∧
    leafLookupZone borderTable 9 1 0 (1 + 1) 2
      = leafLookupZone borderTable 9 1 0 1
          (if (bitmapLeaf 0 1 0xFF00).bits.testBit (8 * ((1 : Int) % 8).toNat + ((9 : Int) % 8).toNat)
            then (bitmapLeaf 0 1 0xFF00).idx 1 else (bitmapLeaf 0 1 0xFF00).idx 0) :=
  ⟨rfl, (leafLookupZone_cases borderTable 9 1 0 1 2 (bitmapLeaf 0 1 0xFF00) rfl).2.1 rfl⟩

/-- C4: on a table with strictly sorted levels, at a pixel whose key is found in at most one
of the six levels, `zoneLokupPixel` returns exactly the leaf resolution of the single
matching entry (`NULL` included), it returns `NULL` when no level matches, and it agrees with
a walker that scans the levels fine to coarse (0 up to 5), whether that walker moves on
after a `NULL` answer (`walkLevels`) or takes the first hit as final
(`walkLevelsFirstHit`). -/
theorem zoneLokupPixel_single_match (fuel : Nat) (table : zl_table) (x y : Int)
    (hs : SortedTable table)
    (huniq : ∀ l l2 : Fin 6, Matches table x y l → Matches table x y l2 → l = l2) :
    (∀ (l : Fin 6) (t : zl_tile), t ∈ (table.zoom_levels l).tiles → t.key = pixelKey l x y →
      zoneLokupPixel fuel table x y = leafLookupZone table x y (pixelKey l x y) fuel t.idx) ∧
    ((∀ l : Fin 6, ¬ Matches table x y l) → zoneLokupPixel fuel table x y = .ret none) ∧
    zoneLokupPixel fuel table x y = walkLevels fuel table x y fineToCoarse ∧
    zoneLokupPixel fuel table x y = walkLevelsFirstHit fuel table x y fineToCoarse := by
  have hsingle : ∀ (l : Fin 6) (t : zl_tile), t ∈ (table.zoom_levels l).tiles →
      t.key = pixelKey l x y → ∀ l2 : Fin 6, l2 ≠ l → ¬ Matches table x y l2 :=
    fun l t ht hk l2 hne hm => hne (huniq l2 l hm ⟨t, ht, hk⟩)
  refine ⟨?_, ?_, ?_, ?_⟩
  · intro l t ht hk
    exact (walkers_of_single_match fuel table x y hs l t ht hk (hsingle l t ht hk)).1
  · intro hno
    exact (walkers_of_no_match fuel table x y hs hno).1
  · by_cases hex : ∃ l : Fin 6, Matches table x y l
    · obtain ⟨l, t, ht, hk⟩ := hex
      have h := walkers_of_single_match fuel table x y hs l t ht hk (hsingle l t ht hk)
      rw [h.1, h.2.1]
    · have h := walkers_of_no_match fuel table x y hs (fun l hm => hex ⟨l, hm⟩)
      rw [h.1, h.2.1]
  · by_cases hex : ∃ l : Fin 6, Matches table x y l
    · obtain ⟨l, t, ht, hk⟩ := hex
      have h := walkers_of_single_match fuel table x y hs l t ht hk (hsingle l t ht hk)
      rw [h.1, h.2.2]
    · have h := walkers_of_no_match fuel table x y hs (fun l hm => hex ⟨l, hm⟩)
      rw [h.1, h.2.2]

/-- Witness for C4: `borderTable` at the pixel `(9, 1)`, which only its level 0 tile
covers. -/
theorem zoneLokupPixel_single_match_witness :
    SortedTable borderTable ∧
    (∀ l l2 : Fin 6, Matches borderTable 9 1 l → Matches borderTable 9 1 l2 → l = l2) ∧
    Matches borderTable 9 1 0 ∧
    zoneLokupPixel 2 borderTable 9 1 = walkLevels 2 borderTable 9 1 fineToCoarse :=
  ⟨by decide, by decide, by decide,
    (zoneLokupPixel_single_match 2 borderTable 9 1 (by decide) (by decide)).2.2.1⟩

/-- C5 (counterexample): `borderTable` has 12 pixels per degree; the latitude
`-5898239 / 262144` (about -22.5) and the longitude 0 are `float` values whose exactly scaled
values `(lon + 180) * 12 = 2160` and `(90 - lat) * 12 = 1349.99995...` fit in an `int`, so
the pixel row of the claim is `⌊(90 - lat) * 12⌋ = 1349`.  The code evaluates `90 - lat` in
single precision, where `112.49999618...` is half way between two `float` values and rounds
to `112.5`, and passes the row `1350`. -/
theorem zl_lookup_pixel_rounds :
    IsFloat (-5898239 / 262144) ∧ IsFloat 0 ∧ 1 ≤ borderTable.deg_pixels ∧
    (-(2 ^ 31) - 1 < ((0 : ℚ) + 180) * borderTable.deg_pixels ∧
      ((0 : ℚ) + 180) * borderTable.deg_pixels < 2 ^ 31) ∧
    (-(2 ^ 31) - 1 < (90 - (-5898239 / 262144 : ℚ)) * borderTable.deg_pixels ∧
      (90 - (-5898239 / 262144 : ℚ)) * borderTable.deg_pixels < 2 ^ 31) ∧
    max 0 (min (180 * borderTable.deg_pixels - 1)
      ⌊(90 - (-5898239 / 262144 : ℚ)) * borderTable.deg_pixels⌋) = 1349 ∧
    floatSub 90 (-5898239 / 262144) = 225 / 2 ∧
    zl_pixel borderTable (-5898239 / 262144) 0 = some (2160, 1350) ∧
    (∀ fuel, zl_lookup fuel borderTable (-5898239 / 262144) 0
      = zoneLokupPixel fuel borderTable 2160 1350) := by
  have hD : borderTable.deg_pixels = 12 := rfl
  have hsub : floatSub 90 (-5898239 / 262144) = 225 / 2 := by
    unfold floatSub roundFloat
    rw [flround_tie 24 _ 6 14745599 (by norm_num [abs_of_pos]) (by norm_num [abs_of_pos])
      (by norm_num)]
    norm_num
  have hadd : floatAdd 0 180 = 180 := by
    unfold floatAdd
    have := roundFloat_intCast 180 (by norm_num)
    norm_num at this ⊢
    exact this
  have hsx : doubleMul (floatAdd 0 180) borderTable.deg_pixels = 2160 := by
    rw [hadd, hD]
    have := (doubleMul_grid 180 12 (by norm_num) (by norm_num) (by norm_num)).1
    norm_num at this ⊢
    exact this
  have hsy : doubleMul (floatSub 90 (-5898239 / 262144)) borderTable.deg_pixels = 1350 := by
    rw [hsub, hD]
    unfold doubleMul roundDouble
    have := flround_intCast 53 1350 (by norm_num)
    norm_num at this ⊢
    exact this
  have hpix : zl_pixel borderTable (-5898239 / 262144) 0 = some (2160, 1350) :=
    zl_pixel_inside borderTable _ _ (by decide) (by decide) 2160 1350 2160 1350 hsx hsy
      (by norm_num) (by decide) (by norm_num) (by norm_num) (by norm_num)
      (by norm_num) (by decide) (by norm_num) (by norm_num) (by norm_num)
  have hfloor : ⌊(90 - (-5898239 / 262144 : ℚ)) * borderTable.deg_pixels⌋ = 1349 := by
    rw [Int.floor_eq_iff, hD]
    constructor <;> norm_num
  refine ⟨?_, ?_, by decide, ?_, ?_, ?_, hsub, hpix, ?_⟩
  · unfold IsFloat roundFloat
    have := flround_repr 24 (-5898239) (-18) (by norm_num)
    norm_num at this ⊢
    exact this
  · unfold IsFloat roundFloat flround
    simp
  · rw [hD]; constructor <;> norm_num
  · rw [hD]; constructor <;> norm_num
  · rw [hfloor, hD]
    decide
  · exact fun fuel => zl_lookup_of_pixel fuel _ _ _ _ _ hpix

/-- C5 (amended): for a table with `D ≥ 1` pixels per degree (`D` an `int`) and a latitude and
longitude whose scaled values, as the code computes them, are representable as `int`, the
pixel that `zl_lookup` passes to `zoneLokupPixel` is `x = ⌊sx⌋` clamped to `[0, 360 * D - 1]`
and `y = ⌊sy⌋` clamped to `[0, 180 * D - 1]`, where `sx` is the double precision product of
`D` and the single precision sum `lon + 180`, and `sy` the double precision product of `D`
and the single precision difference `90 - lat`; in particular `0 ≤ x < 360 * D` and
`0 ≤ y < 180 * D`.  For `D < 2 ^ 29` the products are exact, and `x` (`y`) is the value
`⌊(lon + 180) * D⌋` (`⌊(90 - lat) * D⌋`), clamped, whenever the sum `lon + 180` (the
difference `90 - lat`) is a `float` and so is not rounded.  In general the rounding moves the
pixel by at most one: for `-180 ≤ lon ≤ 180` and `D ≤ 2 ^ 16` the column `x` is within 1 of
the clamped `⌊(lon + 180) * D⌋`, and for `-90 ≤ lat ≤ 90` and `D ≤ 2 ^ 17` the row `y` is
within 1 of the clamped `⌊(90 - lat) * D⌋`. -/
theorem zl_lookup_pixel (table : zl_table) (lat lon : ℚ) (hD : 1 ≤ table.deg_pixels)
    (hI : table.deg_pixels < 2 ^ 31)
    (hx : -(2 ^ 31) - 1 < doubleMul (floatAdd lon 180) table.deg_pixels ∧
      doubleMul (floatAdd lon 180) table.deg_pixels < 2 ^ 31)
    (hy : -(2 ^ 31) - 1 < doubleMul (floatSub 90 lat) table.deg_pixels ∧
      doubleMul (floatSub 90 lat) table.deg_pixels < 2 ^ 31) :
    ∃ x y : Int,
      x = max 0 (min (360 * table.deg_pixels - 1)
        ⌊doubleMul (floatAdd lon 180) table.deg_pixels⌋) ∧
      y = max 0 (min (180 * table.deg_pixels - 1)
        ⌊doubleMul (floatSub 90 lat) table.deg_pixels⌋) ∧
      zl_pixel table lat lon = some (x, y) ∧
      (∀ fuel, zl_lookup fuel table lat lon = zoneLokupPixel fuel table x y) ∧
      0 ≤ x ∧ x < 360 * table.deg_pixels ∧ 0 ≤ y ∧ y < 180 * table.deg_pixels ∧
      (table.deg_pixels < 2 ^ 29 →
        doubleMul (floatAdd lon 180) table.deg_pixels = floatAdd lon 180 * table.deg_pixels ∧
        doubleMul (floatSub 90 lat) table.deg_pixels = floatSub 90 lat * table.deg_pixels ∧
        (IsFloat (lon + 180) →
          x = max 0 (min (360 * table.deg_pixels - 1) ⌊(lon + 180) * table.deg_pixels⌋)) ∧
        (IsFloat (90 - lat) →
          y = max 0 (min (180 * table.deg_pixels - 1) ⌊(90 - lat) * table.deg_pixels⌋))) ∧
      (table.deg_pixels ≤ 2 ^ 16 → -180 ≤ lon → lon ≤ 180 →
        |x - max 0 (min (360 * table.deg_pixels - 1) ⌊(lon + 180) * table.deg_pixels⌋)| ≤ 1) ∧
      (table.deg_pixels ≤ 2 ^ 17 → -90 ≤ lat → lat ≤ 90 →
        |y - max 0 (min (180 * table.deg_pixels - 1) ⌊(90 - lat) * table.deg_pixels⌋)| ≤ 1) := by
  refine ⟨_, _, rfl, rfl, zl_pixel_eq table lat lon hD hI hx hy, ?_, ?_, ?_, ?_, ?_, ?_, ?_, ?_⟩
  · exact fun fuel => zl_lookup_of_pixel fuel _ _ _ _ _ (zl_pixel_eq table lat lon hD hI hx hy)
  · exact le_max_left _ _
  · have := min_le_left (360 * table.deg_pixels - 1)
      ⌊doubleMul (floatAdd lon 180) table.deg_pixels⌋
    rcases max_cases 0 (min (360 * table.deg_pixels - 1)
      ⌊doubleMul (floatAdd lon 180) table.deg_pixels⌋) with ⟨h, _⟩ | ⟨h, _⟩ <;> omega
  · exact le_max_left _ _
  · have := min_le_left (180 * table.deg_pixels - 1)
      ⌊doubleMul (floatSub 90 lat) table.deg_pixels⌋
    rcases max_cases 0 (min (180 * table.deg_pixels - 1)
      ⌊doubleMul (floatSub 90 lat) table.deg_pixels⌋) with ⟨h, _⟩ | ⟨h, _⟩ <;> omega
  · intro h29
    have ex := doubleMul_roundFloat (lon + 180) table.deg_pixels hD h29
    have ey := doubleMul_roundFloat (90 - lat) table.deg_pixels hD h29
    refine ⟨ex, ey, ?_, ?_⟩
    · intro hf
      unfold IsFloat at hf
      unfold floatAdd
      rw [ex, hf]
    · intro hf
      unfold IsFloat at hf
      unfold floatSub
      rw [ey, hf]
  · intro h16 h1 h2
    have hDq : (table.deg_pixels : ℚ) ≤ 2 ^ 16 := by exact_mod_cast h16
    exact pixel_near (360 * table.deg_pixels - 1) table.deg_pixels hD (by omega) (lon + 180) 8
      (by rw [abs_lt]; constructor <;> norm_num <;> linarith) (by norm_num; linarith)
  · intro h17 h1 h2
    have hDq : (table.deg_pixels : ℚ) ≤ 2 ^ 17 := by exact_mod_cast h17
    exact pixel_near (180 * table.deg_pixels - 1) table.deg_pixels hD (by omega) (90 - lat) 7
      (by rw [abs_lt]; constructor <;> norm_num <;> linarith) (by norm_num; linarith)

/-- Witness for C5 (amended): `borderTable` (12 pixels per degree) at the latitude 52.5 and
the longitude 13.40625, which are `float` values. -/
theorem zl_lookup_pixel_witness :
    (1 ≤ borderTable.deg_pixels ∧ borderTable.deg_pixels < 2 ^ 31 ∧
      (-(2 ^ 31) - 1 < doubleMul (floatAdd (429 / 32) 180) borderTable.deg_pixels ∧
        doubleMul (floatAdd (429 / 32) 180) borderTable.deg_pixels < 2 ^ 31) ∧
      (-(2 ^ 31) - 1 < doubleMul (floatSub 90 (105 / 2)) borderTable.deg_pixels ∧
        doubleMul (floatSub 90 (105 / 2)) borderTable.deg_pixels < 2 ^ 31)) ∧
    ∃ x y : Int,
      x = max 0 (min (360 * borderTable.deg_pixels - 1)
        ⌊doubleMul (floatAdd (429 / 32) 180) borderTable.deg_pixels⌋) ∧
      y = max 0 (min (180 * borderTable.deg_pixels - 1)
        ⌊doubleMul (floatSub 90 (105 / 2)) borderTable.deg_pixels⌋) ∧
      zl_pixel borderTable (105 / 2) (429 / 32) = some (x, y) ∧
      (∀ fuel, zl_lookup fuel borderTable (105 / 2) (429 / 32)
        = zoneLokupPixel fuel borderTable x y) ∧
      0 ≤ x ∧ x < 360 * borderTable.deg_pixels ∧ 0 ≤ y ∧ y < 180 * borderTable.deg_pixels :=
  have hsx : doubleMul (floatAdd (429 / 32) 180) borderTable.deg_pixels = 18567 / 8 := by
    have hD : borderTable.deg_pixels = 12 := rfl
    have h1 : floatAdd (429 / 32) 180 = 6189 / 32 := by
      unfold floatAdd roundFloat
      have := flround_repr 24 6189 (-5) (by norm_num)
      norm_num at this ⊢
      exact this
    rw [h1, hD]
    unfold doubleMul roundDouble
    have := flround_repr 53 18567 (-3) (by norm_num)
    norm_num at this ⊢
    exact this
  have hsy : doubleMul (floatSub 90 (105 / 2)) borderTable.deg_pixels = 450 := by
    have hD : borderTable.deg_pixels = 12 := rfl
    have h1 : floatSub 90 (105 / 2) = 75 / 2 := by
      unfold floatSub roundFloat
      have := flround_repr 24 75 (-1) (by norm_num)
      norm_num at this ⊢
      exact this
    rw [h1, hD]
    unfold doubleMul roundDouble
    have := flround_intCast 53 450 (by norm_num)
    norm_num at this ⊢
    exact this
  have fx : -(2 ^ 31) - 1 < doubleMul (floatAdd (429 / 32) 180) borderTable.deg_pixels ∧
      doubleMul (floatAdd (429 / 32) 180) borderTable.deg_pixels < 2 ^ 31 := by
    rw [hsx]; constructor <;> norm_num
  have fy : -(2 ^ 31) - 1 < doubleMul (floatSub 90 (105 / 2)) borderTable.deg_pixels ∧
      doubleMul (floatSub 90 (105 / 2)) borderTable.deg_pixels < 2 ^ 31 := by
    rw [hsy]; constructor <;> norm_num
  ⟨⟨by decide, by decide, fx, fy⟩,
    (zl_lookup_pixel borderTable (105 / 2) (429 / 32) (by decide) (by decide) fx fy).imp
      fun _ h => h.imp fun _ h =>
        ⟨h.1, h.2.1, h.2.2.1, h.2.2.2.1, h.2.2.2.2.1, h.2.2.2.2.2.1, h.2.2.2.2.2.2.1,
          h.2.2.2.2.2.2.2.1⟩⟩

/-- C6 (counterexample): two ways in which a border is not mapped to the last pixel.
At 12000000 pixels per degree (`fineTable`) the scaled values `180 * D` of the latitude -90
and `360 * D` of the longitude 180 exceed the largest `int`, the conversion is undefined and
no pixel is produced.  At 5 pixels per degree the `float` longitude
`180 - 13107 / 65536`, with `0 < 13107 / 65536 ≤ 1 / 5`, is mapped to `x = 1798` and not to
`360 * 5 - 1 = 1799`, and at 9 pixels per degree the `float` latitude
`-90 + 14563 / 131072`, with `0 < 14563 / 131072 ≤ 1 / 9`, is mapped to `y = 1618` and not to
`180 * 9 - 1 = 1619`: the sums `lon + 180` and `90 - lat` are rounded to single precision,
downward here, before they are scaled. -/
theorem zl_pixel_border_failures :
    (1 ≤ fineTable.deg_pixels ∧ (2 : Int) ^ 31 - 1 < 180 * fineTable.deg_pixels - 1 ∧
      zl_pixel fineTable (-90) (-180) = none ∧ zl_pixel fineTable 90 180 = none) ∧
    (IsFloat (180 - 13107 / 65536) ∧ (0 : ℚ) < 13107 / 65536 ∧
      (13107 / 65536 : ℚ) ≤ 1 / (plainTable 5).deg_pixels ∧
      floatAdd (180 - 13107 / 65536) 180 = 5894963 / 16384 ∧
      zl_pixel (plainTable 5) 0 (180 - 13107 / 65536) = some (1798, 450) ∧
      360 * (plainTable 5).deg_pixels - 1 = 1799) ∧
    (IsFloat (-90 + 14563 / 131072) ∧ (0 : ℚ) < 14563 / 131072 ∧
      (14563 / 131072 : ℚ) ≤ 1 / (plainTable 9).deg_pixels ∧
      floatSub 90 (-90 + 14563 / 131072) = 5894599 / 32768 ∧
      zl_pixel (plainTable 9) (-90 + 14563 / 131072) 0 = some (1620, 1618) ∧
      180 * (plainTable 9).deg_pixels - 1 = 1619) := by
  have r180 : roundFloat 180 = 180 := by
    have := roundFloat_intCast 180 (by norm_num)
    norm_num at this ⊢
    exact this
  have r360 : roundFloat 360 = 360 := by
    have := roundFloat_intCast 360 (by norm_num)
    norm_num at this ⊢
    exact this
  have r90 : roundFloat 90 = 90 := by
    have := roundFloat_intCast 90 (by norm_num)
    norm_num at this ⊢
    exact this
  have hfine : fineTable.deg_pixels = 12000000 := rfl
  have h5 : (plainTable 5).deg_pixels = 5 := rfl
  have h9 : (plainTable 9).deg_pixels = 9 := rfl
  refine ⟨⟨by decide, by decide, ?_, ?_⟩, ⟨?_, by norm_num, ?_, ?_, ?_, by decide⟩,
    ⟨?_, by norm_num, ?_, ?_, ?_, by decide⟩⟩
  · apply zl_pixel_none_of_lat fineTable (-90) (-180) 2160000000 _ (by norm_num)
    unfold floatSub
    rw [show (90 : ℚ) - -90 = 180 by norm_num, r180, hfine]
    have := (doubleMul_grid 180 12000000 (by norm_num) (by norm_num) (by norm_num)).1
    norm_num at this ⊢
    exact this
  · apply zl_pixel_none_of_lon fineTable 90 180 4320000000 _ (by norm_num)
    unfold floatAdd
    rw [show (180 : ℚ) + 180 = 360 by norm_num, r360, hfine]
    have := (doubleMul_grid 360 12000000 (by norm_num) (by norm_num) (by norm_num)).1
    norm_num at this ⊢
    exact this
  · unfold IsFloat roundFloat
    have := flround_repr 24 11783373 (-16) (by norm_num)
    norm_num at this ⊢
    exact this
  · rw [h5]; norm_num
  · unfold floatAdd roundFloat
    rw [flround_tie 24 _ 8 11789926 (by norm_num [abs_of_pos]) (by norm_num [abs_of_pos])
      (by norm_num)]
    norm_num
  · have hsx : doubleMul (floatAdd (180 - 13107 / 65536) 180) (plainTable 5).deg_pixels
        = 29474815 / 16384 := by
      have h1 : floatAdd (180 - 13107 / 65536) 180 = 5894963 / 16384 := by
        unfold floatAdd roundFloat
        rw [flround_tie 24 _ 8 11789926 (by norm_num [abs_of_pos]) (by norm_num [abs_of_pos])
          (by norm_num)]
        norm_num
      rw [h1, h5]
      unfold doubleMul roundDouble
      have := flround_repr 53 29474815 (-14) (by norm_num)
      norm_num at this ⊢
      exact this
    have hsy : doubleMul (floatSub 90 0) (plainTable 5).deg_pixels = 450 := by
      unfold floatSub
      rw [show (90 : ℚ) - 0 = 90 by norm_num, r90, h5]
      have := (doubleMul_grid 90 5 (by norm_num) (by norm_num) (by norm_num)).1
      norm_num at this ⊢
      exact this
    exact zl_pixel_inside (plainTable 5) _ _ (by decide) (by decide) _ _ 1798 450 hsx hsy
      (by norm_num) (by decide) (by norm_num) (by norm_num) (by norm_num)
      (by norm_num) (by decide) (by norm_num) (by norm_num) (by norm_num)
  · unfold IsFloat roundFloat
    have := flround_repr 24 (-11781917) (-17) (by norm_num)
    norm_num at this ⊢
    exact this
  · rw [h9]; norm_num
  · unfold floatSub roundFloat
    rw [flround_tie 24 _ 7 11789198 (by norm_num [abs_of_pos]) (by norm_num [abs_of_pos])
      (by norm_num)]
    norm_num
  · have hsy : doubleMul (floatSub 90 (-90 + 14563 / 131072)) (plainTable 9).deg_pixels
        = 53051391 / 32768 := by
      have h1 : floatSub 90 (-90 + 14563 / 131072) = 5894599 / 32768 := by
        unfold floatSub roundFloat
        rw [flround_tie 24 _ 7 11789198 (by norm_num [abs_of_pos]) (by norm_num [abs_of_pos])
          (by norm_num)]
        norm_num
      rw [h1, h9]
      unfold doubleMul roundDouble
      have := flround_repr 53 53051391 (-15) (by norm_num)
      norm_num at this ⊢
      exact this
    have hsx : doubleMul (floatAdd 0 180) (plainTable 9).deg_pixels = 1620 := by
      unfold floatAdd
      rw [show (0 : ℚ) + 180 = 180 by norm_num, r180, h9]
      have := (doubleMul_grid 180 9 (by norm_num) (by norm_num) (by norm_num)).1
      norm_num at this ⊢
      exact this
    exact zl_pixel_inside (plainTable 9) _ _ (by decide) (by decide) _ _ 1620 1618 hsx hsy
      (by norm_num) (by decide) (by norm_num) (by norm_num) (by norm_num)
      (by norm_num) (by decide) (by norm_num) (by norm_num) (by norm_num)

/-- C6 (amended): border clamping, for `D ≥ 1` pixels per degree (`D` an `int`), `e ≥ 0`, and
inputs whose other coordinate has a representable scaled value.  Every `float` latitude
`90 - e` with `e < 1 / D` (so 90 itself) is mapped to `y = 0`, and every `float` longitude
`-180 + e` with `e < 1 / D` (so -180 itself) to `x = 0`, whatever `D` is.  On a grid whose
rows are representable as `int`, `180 * D < 2 ^ 31`, the latitude -90 is mapped to
`y = 180 * D - 1`, and a latitude `-90 + e` with `e ≤ 1 / D` is mapped to `y = 180 * D - 1`
if the single precision value of `90 - lat` is at least `180 - 1 / D`, which holds for
`e + 2 ^ (-17) ≤ 1 / D`, and to an earlier row otherwise.  On a grid whose columns are
representable, `360 * D < 2 ^ 31`, the longitude 180 is mapped to `x = 360 * D - 1`, and a
longitude `180 - e` with `e ≤ 1 / D` is mapped to `x = 360 * D - 1` if the single precision
value of `lon + 180` is at least `360 - 1 / D`, which holds for `e + 2 ^ (-16) ≤ 1 / D`, and
to an earlier column otherwise.  Without the bound on the grid the latitude -90 (the
longitude 180) has no pixel: the conversion to `int` is undefined. -/
theorem zl_pixel_borders (table : zl_table) (hD : 1 ≤ table.deg_pixels)
    (hI : table.deg_pixels < 2 ^ 31) (e : ℚ) (he : 0 ≤ e) :
    (∀ lon : ℚ, -(2 ^ 31) - 1 < doubleMul (floatAdd lon 180) table.deg_pixels →
      doubleMul (floatAdd lon 180) table.deg_pixels < 2 ^ 31 →
      IsFloat (90 - e) → e < 1 / table.deg_pixels →
      ∃ x, zl_pixel table (90 - e) lon = some (x, 0) ∧ zl_pixel table 90 lon = some (x, 0)) ∧
    (∀ lat : ℚ, -(2 ^ 31) - 1 < doubleMul (floatSub 90 lat) table.deg_pixels →
      doubleMul (floatSub 90 lat) table.deg_pixels < 2 ^ 31 →
      IsFloat (-180 + e) → e < 1 / table.deg_pixels →
      ∃ y, zl_pixel table lat (-180 + e) = some (0, y) ∧
        zl_pixel table lat (-180) = some (0, y)) ∧
    (∀ lon : ℚ, -(2 ^ 31) - 1 < doubleMul (floatAdd lon 180) table.deg_pixels →
      doubleMul (floatAdd lon 180) table.deg_pixels < 2 ^ 31 →
      180 * table.deg_pixels < 2 ^ 31 → e ≤ 1 / table.deg_pixels →
      ∃ x, zl_pixel table (-90) lon = some (x, 180 * table.deg_pixels - 1) ∧
        ((180 : ℚ) - 1 / table.deg_pixels ≤ floatSub 90 (-90 + e) →
          zl_pixel table (-90 + e) lon = some (x, 180 * table.deg_pixels - 1)) ∧
        (floatSub 90 (-90 + e) < (180 : ℚ) - 1 / table.deg_pixels →
          ∃ y, y < 180 * table.deg_pixels - 1 ∧ zl_pixel table (-90 + e) lon = some (x, y)) ∧
        (e + 1 / 2 ^ 17 ≤ 1 / table.deg_pixels →
          (180 : ℚ) - 1 / table.deg_pixels ≤ floatSub 90 (-90 + e))) ∧
    (∀ lat : ℚ, -(2 ^ 31) - 1 < doubleMul (floatSub 90 lat) table.deg_pixels →
      doubleMul (floatSub 90 lat) table.deg_pixels < 2 ^ 31 →
      360 * table.deg_pixels < 2 ^ 31 → e ≤ 1 / table.deg_pixels →
      ∃ y, zl_pixel table lat 180 = some (360 * table.deg_pixels - 1, y) ∧
        ((360 : ℚ) - 1 / table.deg_pixels ≤ floatAdd (180 - e) 180 →
          zl_pixel table lat (180 - e) = some (360 * table.deg_pixels - 1, y)) ∧
        (floatAdd (180 - e) 180 < (360 : ℚ) - 1 / table.deg_pixels →
          ∃ x, x < 360 * table.deg_pixels - 1 ∧ zl_pixel table lat (180 - e) = some (x, y)) ∧
        (e + 1 / 2 ^ 16 ≤ 1 / table.deg_pixels →
          (360 : ℚ) - 1 / table.deg_pixels ≤ floatAdd (180 - e) 180)) ∧
    (∀ lon : ℚ, 2 ^ 31 ≤ 180 * table.deg_pixels → zl_pixel table (-90) lon = none) ∧
    (∀ lat : ℚ, 2 ^ 31 ≤ 360 * table.deg_pixels → zl_pixel table lat 180 = none) := by
  have hDq : (1 : ℚ) ≤ (table.deg_pixels : ℚ) := by exact_mod_cast hD
  have hDpos : (0 : ℚ) < (table.deg_pixels : ℚ) := by linarith
  have hinv : (1 : ℚ) / table.deg_pixels ≤ 1 := by
    rw [div_le_iff₀ hDpos]
    linarith
  have hinv0 : (0 : ℚ) < 1 / table.deg_pixels := by positivity
  have r0 : IsFloat (90 - 0) := by
    unfold IsFloat
    have := roundFloat_intCast 90 (by norm_num)
    norm_num at this ⊢
    exact this
  have r0w : IsFloat (-180 + 0) := by
    unfold IsFloat
    have := roundFloat_intCast (-180) (by norm_num)
    norm_num at this ⊢
    exact this
  have r180 : roundFloat 180 = 180 := by
    have := roundFloat_intCast 180 (by norm_num)
    norm_num at this ⊢
    exact this
  have r360 : roundFloat 360 = 360 := by
    have := roundFloat_intCast 360 (by norm_num)
    norm_num at this ⊢
    exact this
  refine ⟨?_, ?_, ?_, ?_, ?_, ?_⟩
  · intro lon hx1 hx2 hfl hlt
    refine ⟨_, zl_pixel_north table hD hI lon ⟨hx1, hx2⟩ e he hlt hfl, ?_⟩
    have := zl_pixel_north table hD hI lon ⟨hx1, hx2⟩ 0 (le_refl 0) hinv0 r0
    rw [sub_zero] at this
    exact this
  · intro lat hy1 hy2 hfl hlt
    refine ⟨_, zl_pixel_west table hD hI lat ⟨hy1, hy2⟩ e he hlt hfl, ?_⟩
    have := zl_pixel_west table hD hI lat ⟨hy1, hy2⟩ 0 (le_refl 0) hinv0 r0w
    rw [add_zero] at this
    exact this
  · intro lon hx1 hx2 hgrid hle
    obtain ⟨a1, a2, a3, _⟩ := zl_pixel_south table hD hgrid lon ⟨hx1, hx2⟩ e he
      (le_trans hle hinv)
    obtain ⟨b1, _, _, b4⟩ := zl_pixel_south table hD hgrid lon ⟨hx1, hx2⟩ 0 (le_refl 0)
      (by norm_num)
    refine ⟨_, ?_, a1, a2, a3⟩
    have := b1 (by rw [b4 rfl]; linarith)
    rw [add_zero] at this
    exact this
  · intro lat hy1 hy2 hgrid hle
    obtain ⟨a1, a2, a3, _⟩ := zl_pixel_east table hD hgrid lat ⟨hy1, hy2⟩ e he
      (le_trans hle hinv)
    obtain ⟨b1, _, _, b4⟩ := zl_pixel_east table hD hgrid lat ⟨hy1, hy2⟩ 0 (le_refl 0)
      (by norm_num)
    refine ⟨_, ?_, a1, a2, a3⟩
    have := b1 (by rw [b4 rfl]; linarith)
    rw [sub_zero] at this
    exact this
  · intro lon hbig
    apply zl_pixel_none_of_lat table (-90) lon (180 * table.deg_pixels) _ hbig
    unfold floatSub
    rw [show (90 : ℚ) - -90 = 180 by norm_num, r180]
    have := (doubleMul_grid 180 table.deg_pixels (by norm_num) hD hI).1
    norm_num at this ⊢
    exact this
  · intro lat hbig
    apply zl_pixel_none_of_lon table lat 180 (360 * table.deg_pixels) _ hbig
    unfold floatAdd
    rw [show (180 : ℚ) + 180 = 360 by norm_num, r360]
    have := (doubleMul_grid 360 table.deg_pixels (by norm_num) hD hI).1
    norm_num at this ⊢
    exact this

/-- Witness for C6 (amended): `borderTable` (12 pixels per degree) with `e = 1 / 16`, at the
longitude 0: the `float` latitude `90 - 1 / 16` and the latitude 90 have the same pixel, in
the row 0. -/
theorem zl_pixel_borders_witness :
    1 ≤ borderTable.deg_pixels ∧ borderTable.deg_pixels < 2 ^ 31 ∧ (0 : ℚ) ≤ 1 / 16 ∧
    IsFloat (90 - 1 / 16) ∧ (1 / 16 : ℚ) < 1 / borderTable.deg_pixels ∧
    ∃ x, zl_pixel borderTable (90 - 1 / 16) 0 = some (x, 0) ∧
      zl_pixel borderTable 90 0 = some (x, 0) :=
  have hsx : doubleMul (floatAdd 0 180) borderTable.deg_pixels = 2160 := by
    have hD : borderTable.deg_pixels = 12 := rfl
    have r180 : roundFloat 180 = 180 := by
      have := roundFloat_intCast 180 (by norm_num)
      norm_num at this ⊢
      exact this
    unfold floatAdd
    rw [show (0 : ℚ) + 180 = 180 by norm_num, r180, hD]
    have := (doubleMul_grid 180 12 (by norm_num) (by norm_num) (by norm_num)).1
    norm_num at this ⊢
    exact this
  have hfl : IsFloat (90 - 1 / 16) := by
    unfold IsFloat roundFloat
    have := flround_repr 24 1439 (-4) (by norm_num)
    norm_num at this ⊢
    exact this
  have hlt : (1 / 16 : ℚ) < 1 / borderTable.deg_pixels := by
    have hD : borderTable.deg_pixels = 12 := rfl
    rw [hD]
    norm_num
  ⟨by decide, by decide, by norm_num, hfl, hlt,
    (zl_pixel_borders borderTable (by decide) (by decide) (1 / 16) (by norm_num)).1 0
      (by rw [hsx]; norm_num) (by rw [hsx]; norm_num) hfl hlt⟩

/-- C7: for a level in `0..7` and tile coordinates in `0..2^14 - 1` the packing `TILEKEY` is
a round trip: the key is `level * 2^28 + tileY * 2^14 + tileX`, the three fields are read
back by `(key >> 28) & 7`, `(key >> 14) & 0x3FFF` and `key & 0x3FFF`, bit 31 is zero, and
the packing is injective on that domain; for arbitrary arguments only the low 3 bits of the
level and the low 14 bits of each coordinate contribute. -/
theorem TILEKEY_roundtrip (level tileX tileY : Nat) (hl : level < 8) (hx : tileX < 2 ^ 14)
    (hy : tileY < 2 ^ 14) :
    TILEKEY level tileX tileY = level * 2 ^ 28 + tileY * 2 ^ 14 + tileX ∧
    (TILEKEY level tileX tileY >>> 28) &&& 7 = level ∧
    (TILEKEY level tileX tileY >>> 14) &&& 0x3FFF = tileY ∧
    TILEKEY level tileX tileY &&& 0x3FFF = tileX ∧
    TILEKEY level tileX tileY < 2 ^ 31 ∧
    (∀ level2 tileX2 tileY2 : Nat, level2 < 8 → tileX2 < 2 ^ 14 → tileY2 < 2 ^ 14 →
      TILEKEY level tileX tileY = TILEKEY level2 tileX2 tileY2 →
      level = level2 ∧ tileX = tileX2 ∧ tileY = tileY2) ∧
    (∀ size x y : Int,
      TILEKEY size x y = TILEKEY (size % 2 ^ 3) (x % 2 ^ 14) (y % 2 ^ 14)) := by
  have hkey : ∀ l x y : Nat, l < 8 → x < 2 ^ 14 → y < 2 ^ 14 →
      TILEKEY l x y = l * 2 ^ 28 + y * 2 ^ 14 + x := by
    intro l x y h1 h2 h3
    rw [TILEKEY_eq_sum, maskBits_of_lt l 3 h1, maskBits_of_lt x 14 h2, maskBits_of_lt y 14 h3]
  have h7 : ∀ n : Nat, n &&& 7 = n % 8 := fun n => Nat.and_pow_two_sub_one_eq_mod n 3
  have h14 : ∀ n : Nat, n &&& 0x3FFF = n % 16384 := fun n => Nat.and_pow_two_sub_one_eq_mod n 14
  rw [hkey level tileX tileY hl hx hy]
  refine ⟨rfl, ?_, ?_, ?_, ?_, ?_, ?_⟩
  · rw [h7, Nat.shiftRight_eq_div_pow]; omega
  · rw [h14, Nat.shiftRight_eq_div_pow]; omega
  · rw [h14]; omega
  · omega
  · intro l2 x2 y2 h1 h2 h3 he
    rw [hkey l2 x2 y2 h1 h2 h3] at he
    omega
  · intro size x y
    rw [TILEKEY_eq_sum, TILEKEY_eq_sum, maskBits_emod, maskBits_emod, maskBits_emod]

/-- Witness for C7: level 5, tile `(3, 9)`. -/
theorem TILEKEY_roundtrip_witness :
    (5 < 8 ∧ 3 < 2 ^ 14 ∧ 9 < 2 ^ 14) ∧
    TILEKEY (5 : Nat) (3 : Nat) (9 : Nat) = 5 * 2 ^ 28 + 9 * 2 ^ 14 + 3 :=
  ⟨by decide, (TILEKEY_roundtrip 5 3 9 (by decide) (by decide) (by decide)).1⟩

/-- C8: at a level `L` in `0..5`, two pixels with coordinates in `[0, 2^17)` get the same key
from the walker exactly when they lie in the same `(1 << (L+3)) x (1 << (L+3))` block, that
is when `x >> (L+3)` and `y >> (L+3)` agree; and keys computed at two different levels are
never equal, whatever the pixels. -/
theorem pixelKey_same_block (L : Nat) (hL : L < 6) (x y x2 y2 : Int)
    (hx : 0 ≤ x ∧ x < 2 ^ 17) (hy : 0 ≤ y ∧ y < 2 ^ 17)
    (hx2 : 0 ≤ x2 ∧ x2 < 2 ^ 17) (hy2 : 0 ≤ y2 ∧ y2 < 2 ^ 17) :
    (pixelKey L x y = pixelKey L x2 y2 ↔
      x >>> (L + 3) = x2 >>> (L + 3) ∧ y >>> (L + 3) = y2 >>> (L + 3)) ∧
    (∀ L2 : Nat, L2 < 6 → L2 ≠ L → ∀ a b c d : Int, pixelKey L a b ≠ pixelKey L2 c d) := by
  constructor
  · rw [pixelKey_eq_sum L (by omega), pixelKey_eq_sum L (by omega), Nat.add_comm L 3]
    have ex := maskBits_tile x (3 + L) hx.1 hx.2 (by omega)
    have ey := maskBits_tile y (3 + L) hy.1 hy.2 (by omega)
    have ex2 := maskBits_tile x2 (3 + L) hx2.1 hx2.2 (by omega)
    have ey2 := maskBits_tile y2 (3 + L) hy2.1 hy2.2 (by omega)
    have bx := maskBits_lt ((x >>> (3 + L)) % 2 ^ 16) 14
    have by1 := maskBits_lt ((y >>> (3 + L)) % 2 ^ 16) 14
    have bx2 := maskBits_lt ((x2 >>> (3 + L)) % 2 ^ 16) 14
    have by2 := maskBits_lt ((y2 >>> (3 + L)) % 2 ^ 16) 14
    generalize maskBits ((x >>> (3 + L)) % 2 ^ 16) 14 = p at *
    generalize maskBits ((y >>> (3 + L)) % 2 ^ 16) 14 = q at *
    generalize maskBits ((x2 >>> (3 + L)) % 2 ^ 16) 14 = p2 at *
    generalize maskBits ((y2 >>> (3 + L)) % 2 ^ 16) 14 = q2 at *
    rw [← ex, ← ey, ← ex2, ← ey2]
    constructor
    · intro h
      have : p = p2 ∧ q = q2 := by omega
      rw [this.1, this.2]
      exact ⟨rfl, rfl⟩
    · rintro ⟨h1, h2⟩
      have h1' : p = p2 := by exact_mod_cast h1
      have h2' : q = q2 := by exact_mod_cast h2
      rw [h1', h2']
  · intro L2 hL2 hne a b c d
    rw [pixelKey_eq_sum L (by omega), pixelKey_eq_sum L2 (by omega)]
    have ba := maskBits_lt ((a >>> (3 + L)) % 2 ^ 16) 14
    have bb := maskBits_lt ((b >>> (3 + L)) % 2 ^ 16) 14
    have bc := maskBits_lt ((c >>> (3 + L2)) % 2 ^ 16) 14
    have bd := maskBits_lt ((d >>> (3 + L2)) % 2 ^ 16) 14
    generalize maskBits ((a >>> (3 + L)) % 2 ^ 16) 14 = p at *
    generalize maskBits ((b >>> (3 + L)) % 2 ^ 16) 14 = q at *
    generalize maskBits ((c >>> (3 + L2)) % 2 ^ 16) 14 = p2 at *
    generalize maskBits ((d >>> (3 + L2)) % 2 ^ 16) 14 = q2 at *
    omega

/-- Witness for C8: at level 0 the pixels `(9, 1)` and `(15, 7)` lie in the same 8 x 8
block. -/
theorem pixelKey_same_block_witness :
    ((0 : Int) ≤ 9 ∧ (9 : Int) < 2 ^ 17) ∧ ((0 : Int) ≤ 1 ∧ (1 : Int) < 2 ^ 17) ∧
    ((0 : Int) ≤ 15 ∧ (15 : Int) < 2 ^ 17) ∧ ((0 : Int) ≤ 7 ∧ (7 : Int) < 2 ^ 17) ∧
    (pixelKey 0 9 1 = pixelKey 0 15 7 ↔
      (9 : Int) >>> (0 + 3) = (15 : Int) >>> (0 + 3) ∧
        (1 : Int) >>> (0 + 3) = (7 : Int) >>> (0 + 3)) :=
  ⟨by decide, by decide, by decide, by decide,
    (pixelKey_same_block 0 (by decide) 9 1 15 7 (by decide) (by decide) (by decide)
      (by decide)).1⟩

/-- C9: whenever `zoneLokupPixel`, and hence `zl_lookup`, returns a non-null result, that
result is the code stored in some Uniform (`'S'`) leaf of the table; therefore, if the code
of every Uniform leaf is two ASCII uppercase letters, every result that is returned is
either `NULL` or a string of two ASCII uppercase letters. -/
theorem lookup_result_uniform_code (fuel : Nat) (table : zl_table) :
    (∀ (x y : Int) (z : String),
      zoneLokupPixel fuel table x y = .ret (some z) → IsUniformCode table z) ∧
    (∀ (lat lon : ℚ) (z : String),
      zl_lookup fuel table lat lon = .ret (some z) → IsUniformCode table z) ∧
    ((∀ leaf ∈ table.leaves, leaf.type = 'S' → ∀ c, leaf.name = some c → IsCountryCode c) →
      (∀ (x y : Int) (r : Zone), zoneLokupPixel fuel table x y = .ret r →
        r = none ∨ ∃ z, r = some z ∧ IsCountryCode z) ∧
      (∀ (lat lon : ℚ) (r : Zone), zl_lookup fuel table lat lon = .ret r →
        r = none ∨ ∃ z, r = some z ∧ IsCountryCode z)) := by
  have hpix : ∀ (x y : Int) (z : String),
      zoneLokupPixel fuel table x y = .ret (some z) → IsUniformCode table z :=
    fun x y z h => zoneLokupPixel_loop_some fuel table x y z 6 h
  have hlook : ∀ (lat lon : ℚ) (z : String),
      zl_lookup fuel table lat lon = .ret (some z) → IsUniformCode table z := by
    intro lat lon z h
    unfold zl_lookup at h
    split at h
    · simp at h
    · exact hpix _ _ z h
  refine ⟨hpix, hlook, ?_⟩
  intro hcodes
  have hcode : ∀ z, IsUniformCode table z → IsCountryCode z :=
    fun z ⟨leaf, hmem, hS, hname⟩ => hcodes leaf hmem hS z hname
  constructor
  · intro x y r h
    cases r with
    | none => exact Or.inl rfl
    | some z => exact Or.inr ⟨z, rfl, hcode z (hpix x y z h)⟩
  · intro lat lon r h
    cases r with
    | none => exact Or.inl rfl
    | some z => exact Or.inr ⟨z, rfl, hcode z (hlook lat lon z h)⟩

/-- Witness for C9: `borderTable` at the pixel `(9, 1)`, where the lookup returns `FR`. -/
theorem lookup_result_uniform_code_witness :
    zoneLokupPixel 2 borderTable 9 1 = .ret (some "FR") ∧ IsUniformCode borderTable "FR" ∧
    IsCountryCode "FR" :=
  ⟨by decide, (lookup_result_uniform_code 2 borderTable).1 9 1 "FR" (by decide), by decide⟩

/-- C10: for a Bitmap leaf with the 64-bit mask `bits`, among the 64 cells `(x, y)` with
`0 ≤ x, y < 8` exactly `popcount(bits)` are resolved by `leafLookupBitmap` through `idx[1]`
(the selector bit `8 * y + x` is set) and exactly `64 - popcount(bits)` through `idx[0]`;
and `(x, y) ↦ 8 * y + x` is a bijection from the cells onto the bit positions `0..63`. -/
theorem bitmap_cell_count (leaf : zl_leaf) :
    (∀ (zone : Nat → Outcome Zone) (x y : Int),
      leafLookupBitmap zone leaf x y = zone (leaf.idx (leafLookupBitmap.sel leaf x y))) ∧
    (∀ c ∈ cells, (leafLookupBitmap.sel leaf c.1 c.2 = 1 ↔
      leaf.bits.testBit (8 * c.2 + c.1) = true)) ∧
    cells.countP (fun c => leafLookupBitmap.sel leaf c.1 c.2 = 1) = popcount 64 leaf.bits ∧
    cells.countP (fun c => leafLookupBitmap.sel leaf c.1 c.2 = 0)
      = 64 - popcount 64 leaf.bits ∧
    cells.length = 64 ∧
    (∀ c ∈ cells, 8 * c.2 + c.1 < 64) ∧
    (∀ c ∈ cells, ∀ d ∈ cells, 8 * c.2 + c.1 = 8 * d.2 + d.1 → c = d) ∧
    (∀ n, n < 64 → ∃ c ∈ cells, 8 * c.2 + c.1 = n) := by
  have hsel1 : ∀ c ∈ cells, (leafLookupBitmap.sel leaf c.1 c.2 = 1 ↔
      leaf.bits.testBit (8 * c.2 + c.1) = true) := by
    intro c hc
    rw [sel_cell leaf c hc]
    by_cases hb : leaf.bits.testBit (8 * c.2 + c.1) = true <;> simp [hb]
  have hsel0 : ∀ c ∈ cells, (leafLookupBitmap.sel leaf c.1 c.2 = 0 ↔
      ¬ (leafLookupBitmap.sel leaf c.1 c.2 = 1)) := by
    intro c hc
    rw [sel_cell leaf c hc]
    by_cases hb : leaf.bits.testBit (8 * c.2 + c.1) = true <;> simp [hb]
  have hcount1 : cells.countP (fun c => leafLookupBitmap.sel leaf c.1 c.2 = 1)
      = popcount 64 leaf.bits := by
    rw [← countP_testBit_range 64 leaf.bits, ← cells_positions, List.countP_map]
    apply List.countP_congr
    intro c hc
    simpa using hsel1 c hc
  have hcount0 : cells.countP (fun c => leafLookupBitmap.sel leaf c.1 c.2 = 0)
      = 64 - popcount 64 leaf.bits := by
    have hlen := List.length_eq_countP_add_countP
      (fun c : Nat × Nat => decide (leafLookupBitmap.sel leaf c.1 c.2 = 1)) cells
    have hneg : cells.countP (fun c => leafLookupBitmap.sel leaf c.1 c.2 = 0)
        = cells.countP (fun c => ¬ (decide (leafLookupBitmap.sel leaf c.1 c.2 = 1)) = true) := by
      apply List.countP_congr
      intro c hc
      simpa using hsel0 c hc
    have h64 : cells.length = 64 := by decide
    rw [hneg]
    rw [h64, hcount1] at hlen
    omega
  refine ⟨fun _ _ _ => rfl, hsel1, hcount1, hcount0, by decide, ?_, ?_, ?_⟩
  · intro c hc
    have := (mem_cells c).mp hc
    omega
  · intro c hc d hd h
    have h1 := (mem_cells c).mp hc
    have h2 := (mem_cells d).mp hd
    apply Prod.ext <;> omega
  · intro n hn
    exact ⟨(n % 8, n / 8), (mem_cells _).mpr ⟨by simp only []; omega, by simp only []; omega⟩,
      by simp only []; omega⟩

/-- Witness for C10: the bitmap leaf of `borderTable`, whose mask `0xFF00` has 8 set bits
(the row `y = 1`): 8 cells go through `idx[1]` and 56 through `idx[0]`. -/
theorem bitmap_cell_count_witness :
    popcount 64 (bitmapLeaf 0 1 0xFF00).bits = 8 ∧
    cells.countP (fun c => leafLookupBitmap.sel (bitmapLeaf 0 1 0xFF00) c.1 c.2 = 1)
      = popcount 64 (bitmapLeaf 0 1 0xFF00).bits ∧
    cells.countP (fun c => leafLookupBitmap.sel (bitmapLeaf 0 1 0xFF00) c.1 c.2 = 0)
      = 64 - popcount 64 (bitmapLeaf 0 1 0xFF00).bits :=
  ⟨by decide, (bitmap_cell_count (bitmapLeaf 0 1 0xFF00)).2.2.1,
    (bitmap_cell_count (bitmapLeaf 0 1 0xFF00)).2.2.2.1⟩

/-- C11 (counterexample): in `chainTable` the cell of the pixel `(0, 0)` in the Pixmap leaf 0
holds the index 1, not the sentinel, and yet resolving leaf 0 returns `NULL`: leaf 1 is
resolved in turn and its cell holds the sentinel. -/
theorem pixmap_null_without_sentinel :
    chainTable.leaves[0]? = some (pixmapLeaf ([0, 1] ++ List.replicate 126 255)) ∧
    pixmapCell (pixmapLeaf ([0, 1] ++ List.replicate 126 255)) 0 0 = 1 ∧
    leafLookupZone chainTable 0 0 0 2 0 = .ret none := by
  set_option maxRecDepth 8000 in exact ⟨rfl, by decide, by decide⟩

/-- C11 (amended): a Pixmap leaf (`'P'`, 128 bytes) returns `NULL` for every pixel whose cell
holds the sentinel `0xFFFF`; for a pixel whose cell holds another value `sub` it returns
what the resolution of the leaf `sub` returns.  So it returns `NULL` if and only if the cell
holds the sentinel or the leaf that the cell names resolves to `NULL`. -/
theorem pixmap_null_iff (table : zl_table) (x y : Int) (tk fuel i : Nat) (leaf : zl_leaf)
    (hleaf : table.leaves[i]? = some leaf) (hP : leaf.type = 'P')
    (hlen : leaf.pixmap.length = 128) :
    (pixmapCell leaf x y = 0xFFFF → leafLookupZone table x y tk (fuel + 1) i = .ret none) ∧
    (pixmapCell leaf x y ≠ 0xFFFF →
      leafLookupZone table x y tk (fuel + 1) i
        = leafLookupZone table x y tk fuel (pixmapCell leaf x y)) ∧
    (leafLookupZone table x y tk (fuel + 1) i = .ret none ↔
      pixmapCell leaf x y = 0xFFFF ∨
        leafLookupZone table x y tk fuel (pixmapCell leaf x y) = .ret none) := by
  have hnext := leafNext_pixmap table x y i leaf hleaf hP hlen
  have hs := leafLookupZone_succ table x y tk fuel i
  have hsent : pixmapCell leaf x y = 0xFFFF →
      leafLookupZone table x y tk (fuel + 1) i = .ret none := by
    intro hc
    have hS : leaf.type ≠ 'S' := by rw [hP]; decide
    have h2 : leaf.type ≠ '2' := by rw [hP]; decide
    rw [if_pos hc] at hnext
    have h1 := (hs.2 hnext).1
    rw [h1, leafLookupZone, hleaf]
    simp only []
    rw [if_neg hS, if_neg h2, if_pos hP]
    rw [leafNext, hleaf] at hnext
    simp only [] at hnext
    rw [if_neg hS, if_neg h2, if_pos hP] at hnext
    unfold leafLookupPixmap
    have hxl := low3_lt x
    have hyl := low3_lt y
    have hj1 : 2 * (low3 y * 8 + low3 x) < leaf.pixmap.length := by omega
    have hj2 : 2 * (low3 y * 8 + low3 x) + 1 < leaf.pixmap.length := by omega
    simp only [List.getElem?_eq_getElem hj1, List.getElem?_eq_getElem hj2] at hnext ⊢
    by_cases ho : (((leaf.pixmap[2 * (low3 y * 8 + low3 x)] % 256) <<< 8)
        + leaf.pixmap[2 * (low3 y * 8 + low3 x) + 1] % 256) % 2 ^ 16 = OCEAN_INDEX
    · rw [if_pos ho]
    · rw [if_neg ho] at hnext
      exact absurd hnext (by simp)
  have hsub : pixmapCell leaf x y ≠ 0xFFFF →
      leafLookupZone table x y tk (fuel + 1) i
        = leafLookupZone table x y tk fuel (pixmapCell leaf x y) := by
    intro hc
    rw [if_neg hc] at hnext
    exact hs.1 _ hnext
  refine ⟨hsent, hsub, ?_⟩
  by_cases hc : pixmapCell leaf x y = 0xFFFF
  · exact ⟨fun _ => Or.inl hc, fun _ => hsent hc⟩
  · rw [hsub hc]
    exact ⟨fun h => Or.inr h, fun h => h.resolve_left hc⟩

/-- Witness for C11 (amended): leaf 0 of `chainTable` at the pixel `(0, 0)`. -/
theorem pixmap_null_iff_witness :
    chainTable.leaves[0]? = some (pixmapLeaf ([0, 1] ++ List.replicate 126 255)) ∧
    (pixmapLeaf ([0, 1] ++ List.replicate 126 255)).type = 'P' ∧
    (pixmapLeaf ([0, 1] ++ List.replicate 126 255)).pixmap.length = 128 ∧
    (leafLookupZone chainTable 0 0 0 (1 + 1) 0 = .ret none ↔
      pixmapCell (pixmapLeaf ([0, 1] ++ List.replicate 126 255)) 0 0 = 0xFFFF ∨
        leafLookupZone chainTable 0 0 0 1
          (pixmapCell (pixmapLeaf ([0, 1] ++ List.replicate 126 255)) 0 0) = .ret none) := by
  set_option maxRecDepth 8000 in
  exact ⟨rfl, rfl, by decide,
    (pixmap_null_iff chainTable 0 0 0 1 0 (pixmapLeaf ([0, 1] ++ List.replicate 126 255))
      rfl rfl (by decide)).2.2⟩

/-- C12: on a table in which every leaf has one of the tags `'S'`, `'2'`, `'P'` and every
Uniform leaf holds a non-null code, whenever `leafLookupZone` returns `NULL` the leaf visited
last in the chain is a Pixmap whose cell for the pixel holds the sentinel `0xFFFF`: the
sentinel is the only way a non-uniform leaf yields `NULL`.  A Bitmap index equal to `0xFFFF`
is not treated as ocean: it is resolved as the leaf `0xFFFF`. -/
theorem null_only_from_sentinel (table : zl_table) (x y : Int) (tk fuel i : Nat)
    (hwf : TagsAndCodes table)
    (hnull : leafLookupZone table x y tk fuel i = .ret none) :
    (∃ (k j : Nat) (leaf : zl_leaf), leafSeq table x y k i = some j ∧
      leafNext table x y j = none ∧ table.leaves[j]? = some leaf ∧ leaf.type = 'P' ∧
      pixmapCell leaf x y = 0xFFFF) ∧
    (∀ (b : Nat) (leaf : zl_leaf), table.leaves[b]? = some leaf → leaf.type = '2' →
      leaf.idx (leafLookupBitmap.sel leaf x y) = 0xFFFF →
      ∀ f, leafLookupZone table x y tk (f + 1) b = leafLookupZone table x y tk f 0xFFFF) := by
  refine ⟨leafLookupZone_null_chain table x y tk hwf fuel i hnull, ?_⟩
  intro b leaf hb h2 hidx f
  have hn := leafNext_bitmap table x y b leaf hb h2
  rw [hidx] at hn
  exact (leafLookupZone_succ table x y tk f b).1 _ hn

/-- Witness for C12: `chainTable` at the pixel `(0, 0)`, started on leaf 0. -/
theorem null_only_from_sentinel_witness :
    TagsAndCodes chainTable ∧ leafLookupZone chainTable 0 0 0 2 0 = .ret none ∧
    ∃ (k j : Nat) (leaf : zl_leaf), leafSeq chainTable 0 0 k 0 = some j ∧
      leafNext chainTable 0 0 j = none ∧ chainTable.leaves[j]? = some leaf ∧
      leaf.type = 'P' ∧ pixmapCell leaf 0 0 = 0xFFFF := by
  set_option maxRecDepth 8000 in
  exact ⟨by decide, by decide,
    (null_only_from_sentinel chainTable 0 0 0 2 0 (by decide) (by decide)).1⟩

/-- C13 (counterexample): the only leaf of `selfLoopTable` is a bitmap that refers back to
itself.  With a budget of 16 nested calls its resolution has not come back, and no budget
at all makes it return `NULL`, or anything else: the chain is not cut off. -/
theorem self_loop_never_returns :
    leafNext selfLoopTable 0 0 0 = some 0 ∧
    leafLookupZone selfLoopTable 0 0 0 16 0 = .fault .outOfFuel ∧
    ¬ ∃ fuel r, leafLookupZone selfLoopTable 0 0 0 fuel 0 = .ret r := by
  refine ⟨by decide, by decide, ?_⟩
  rintro ⟨fuel, r, h⟩
  have := leafLookupZone_of_chain_endless selfLoopTable 0 0 0 0
    (fun n => by rw [leafSeq_self_loop selfLoopTable 0 0 0 (by decide) n]; simp) fuel
  rw [this] at h
  exact Outcome.noConfusion h

/-- C13 (amended): leaf resolution has no recursion cap.  For every table, malformed ones
included, every leaf index and every pixel, it terminates exactly when the chain of leaf
references ends: when the chain has ended within `n` nested calls, every budget of at least
`n` calls (16 when `n ≤ 16`) gives one and the same result; when the chain never ends, as
for a Bitmap or Pixmap leaf that refers back to itself, the resolution is not cut off and
no budget makes it return. -/
theorem leaf_resolution_no_cap (table : zl_table) (x y : Int) (tk i : Nat) :
    (Terminates table x y tk i ↔ ∃ n, leafSeq table x y n i = none) ∧
    (∀ n, leafSeq table x y n i = none →
      leafLookupZone table x y tk n i ≠ .fault .outOfFuel ∧
      ∀ fuel, n ≤ fuel →
        leafLookupZone table x y tk fuel i = leafLookupZone table x y tk n i) ∧
    (∀ n, n ≤ 16 → leafSeq table x y n i = none →
      leafLookupZone table x y tk 16 i ≠ .fault .outOfFuel) ∧
    ((∀ n, leafSeq table x y n i ≠ none) →
      ∀ fuel, leafLookupZone table x y tk fuel i = .fault .outOfFuel) ∧
    (leafNext table x y i = some i →
      ∀ fuel, leafLookupZone table x y tk fuel i = .fault .outOfFuel) := by
  refine ⟨?_, fun n h => leafLookupZone_of_chain_end table x y tk i n h, ?_,
    leafLookupZone_of_chain_endless table x y tk i, ?_⟩
  · constructor
    · rintro ⟨fuel, h⟩
      refine ⟨fuel, ?_⟩
      by_contra hc
      exact h ((leafLookupZone_outOfFuel_iff table x y tk fuel i).mpr hc)
    · rintro ⟨n, h⟩
      exact ⟨n, (leafLookupZone_of_chain_end table x y tk i n h).1⟩
  · intro n hn h
    have := leafLookupZone_of_chain_end table x y tk i n h
    rw [this.2 16 hn]
    exact this.1
  · intro h
    exact leafLookupZone_of_chain_endless table x y tk i
      (fun n => by rw [leafSeq_self_loop table x y i h n]; simp)

/-- Witness for C13 (amended): the chain of `chainTable` from leaf 0 ends within two calls,
and the leaf of `selfLoopTable` refers to itself. -/
theorem leaf_resolution_no_cap_witness :
    leafSeq chainTable 0 0 2 0 = none ∧
    leafLookupZone chainTable 0 0 0 16 0 ≠ .fault .outOfFuel ∧
    leafNext selfLoopTable 0 0 0 = some 0 ∧
    ∀ fuel, leafLookupZone selfLoopTable 0 0 0 fuel 0 = .fault .outOfFuel := by
  set_option maxRecDepth 8000 in
  exact ⟨by decide,
    (leaf_resolution_no_cap chainTable 0 0 0 0).2.2.1 2 (by decide) (by decide),
    by decide,
    (leaf_resolution_no_cap selfLoopTable 0 0 0 0).2.2.2.2 (by decide)⟩

/-- C14: for a valid leaf index `i` whose leaf has a tag other than `'S'`, `'2'`, `'P'`,
`leafLookupZone` returns `NULL` without any nested call (a budget of one call is enough, and
the leaf passes no index on); hence a tile that names such a leaf yields `NULL` in
`zoomLevelLookupTile`, and `zoneLokupPixel` treats it like ocean: its loop moves on to the
finer levels as after a miss. -/
theorem unknown_tag_is_null (table : zl_table) (x y : Int) (tk i : Nat) (leaf : zl_leaf)
    (hleaf : table.leaves[i]? = some leaf) (hS : leaf.type ≠ 'S') (h2 : leaf.type ≠ '2')
    (hP : leaf.type ≠ 'P') :
    (∀ fuel, leafLookupZone table x y tk (fuel + 1) i = .ret none) ∧
    leafNext table x y i = none ∧
    (∀ (fuel : Nat) (l : Fin 6) (t : zl_tile),
      searchTileKey (table.zoom_levels l) (pixelKey l x y) = .ret (some t) → t.idx = i →
      zoomLevelLookupTile (fuel + 1) table l x y (pixelKey l x y) = .ret none ∧
      zoneLokupPixel.loop (fuel + 1) table x y (l + 1)
        = zoneLokupPixel.loop (fuel + 1) table x y l) := by
  refine ⟨fun fuel => (leafLookupZone_unknown_tag table x y tk fuel i leaf hleaf hS h2 hP).2,
    (leafLookupZone_unknown_tag table x y tk 0 i leaf hleaf hS h2 hP).1, ?_⟩
  intro fuel l t hfind hidx
  have htile : zoomLevelLookupTile (fuel + 1) table l x y (pixelKey l x y) = .ret none := by
    rw [zoomLevelLookupTile_found (fuel + 1) table l x y _ t hfind, hidx]
    exact (leafLookupZone_unknown_tag table x y _ fuel i leaf hleaf hS h2 hP).2
  refine ⟨htile, ?_⟩
  rw [zoneLokupPixel.loop, htile]

/-- Witness for C14: the leaf 0 of `badTagTable`, which has the tag `'X'`. -/
theorem unknown_tag_is_null_witness :
    (badTagTable.leaves[0]?.map (fun leaf => leaf.type)) = some 'X' ∧
    (∀ fuel, leafLookupZone badTagTable 0 0 0 (fuel + 1) 0 = .ret none) ∧
    zoneLokupPixel 1 badTagTable 0 0 = .ret none :=
  ⟨by decide,
    (unknown_tag_is_null badTagTable 0 0 0 0
      { type := 'X', name := none, pixmap := [], idx := fun _ => 0, bits := 0 }
      rfl (by decide) (by decide) (by decide)).1,
    by decide⟩

/-- C15 (counterexample): `borderTable` has three leaves, so the index 3 is outside the
table, and `leafLookupZone` on the index 3 reads `leaves[3]`: it performs no bounds check
before the read.  The read is undefined behaviour; what the call returns, if it returns, is
not determined by the table. -/
theorem leaf_index_out_of_range_reads :
    borderTable.leaves.length = 3 ∧
    borderTable.leaves[3]? = none ∧
    leafNext borderTable 9 1 3 = none ∧
    leafLookupZone borderTable 9 1 0 1 3 = .fault .outOfBounds :=
  ⟨by decide, rfl, by decide, by decide⟩

/-- C15 (amended): for a table with `N` leaves and a leaf index `i ≥ N`, `leafLookupZone`
performs no bounds check (the table stores no leaf count): it reads `leaves[i]` outside the
table, and the result of the call is undefined.  This is so whether the index comes from a
tile entry, from a Bitmap index or from a Pixmap cell other than `0xFFFF`. -/
theorem leaf_index_out_of_range (table : zl_table) (x y : Int) (tk i : Nat)
    (hi : table.leaves.length ≤ i) :
    table.leaves[i]? = none ∧
    (∀ fuel, leafLookupZone table x y tk (fuel + 1) i = .fault .outOfBounds) ∧
    (∀ (fuel : Nat) (l : Fin 6) (t : zl_tile),
      searchTileKey (table.zoom_levels l) (pixelKey l x y) = .ret (some t) → t.idx = i →
      zoomLevelLookupTile (fuel + 1) table l x y (pixelKey l x y) = .fault .outOfBounds) ∧
    (∀ (fuel b : Nat) (leaf : zl_leaf), table.leaves[b]? = some leaf → leaf.type = '2' →
      leaf.idx (leafLookupBitmap.sel leaf x y) = i →
      leafLookupZone table x y tk (fuel + 2) b = .fault .outOfBounds) ∧
    (∀ (fuel b : Nat) (leaf : zl_leaf), table.leaves[b]? = some leaf → leaf.type = 'P' →
      leaf.pixmap.length = 128 → pixmapCell leaf x y = i → i ≠ 0xFFFF →
      leafLookupZone table x y tk (fuel + 2) b = .fault .outOfBounds) := by
  have hoob : ∀ tk' fuel, leafLookupZone table x y tk' (fuel + 1) i = .fault .outOfBounds :=
    fun tk' fuel => (leafLookupZone_out_of_range table x y tk' fuel i hi).2
  refine ⟨List.getElem?_eq_none hi, hoob tk, ?_, ?_, ?_⟩
  · intro fuel l t hfind hidx
    rw [zoomLevelLookupTile_found (fuel + 1) table l x y _ t hfind, hidx]
    exact hoob _ fuel
  · intro fuel b leaf hb h2 hidx
    have hn := leafNext_bitmap table x y b leaf hb h2
    rw [hidx] at hn
    rw [(leafLookupZone_succ table x y tk (fuel + 1) b).1 i hn]
    exact hoob tk fuel
  · intro fuel b leaf hb hP hlen hcell hne
    have hn := leafNext_pixmap table x y b leaf hb hP hlen
    rw [hcell, if_neg hne] at hn
    rw [(leafLookupZone_succ table x y tk (fuel + 1) b).1 i hn]
    exact hoob tk fuel

/-- Witness for C15 (amended): the index 3 in `borderTable`, which has three leaves. -/
theorem leaf_index_out_of_range_witness :
    borderTable.leaves.length ≤ 3 ∧
    ∀ fuel, leafLookupZone borderTable 9 1 0 (fuel + 1) 3 = .fault .outOfBounds :=
  ⟨by decide, (leaf_index_out_of_range borderTable 9 1 0 3 (by decide)).2.1⟩

/-- C16 (the code at the failing input): invoked with exactly one path argument
(`argc = 2`), `main` prints the usage line and returns 1 without opening a file or rendering
a row, whatever the environment.  The exit code is 1 exactly when `argc ≠ 1`: the test
`argc == 1` is off by one.  Invoked without an argument (`argc = 1`), `main` calls
`write_png_file` with `argv[1]`, which is `NULL`: no file is opened, no row is rendered and
`main` does not return 0; `fopen` fails and the run ends in `abort_`, unless the size of the
image overflows `int` before. -/
theorem main_one_path_argument :
    (∀ (env : Env) (fuel : Nat) (table : zl_table) (argv : List String),
      main env fuel table 2 argv
        = { exit := .returned 1, usage := true, opened := none, rows := [] }) ∧
    main goodEnv 1 borderTable 2 ["zonelooker_output", "world.png"]
      = { exit := .returned 1, usage := true, opened := none, rows := [] } ∧
    (∀ (env : Env) (fuel : Nat) (table : zl_table) (argc : Int) (argv : List String),
      (main env fuel table argc argv).exit = .returned 1 ↔ argc ≠ 1) ∧
    (∀ (env : Env) (fuel : Nat) (table : zl_table) (prog : String),
      (main env fuel table 1 [prog]).exit ≠ .returned 0 ∧
      (main env fuel table 1 [prog]).usage = false ∧
      (main env fuel table 1 [prog]).opened = none ∧
      (main env fuel table 1 [prog]).rows = [] ∧
      (mulInt32 360 (zl_deg_pixels table) ≠ none →
        (main env fuel table 1 [prog]).exit = .aborted)) ∧
    (∀ (env : Env) (fuel : Nat), main env fuel borderTable 1 ["zonelooker_output"]
      = { exit := .aborted, usage := false, opened := none, rows := [] }) := by
  have hnull : ∀ (env : Env) (fuel : Nat) (table : zl_table) (prog : String),
      main env fuel table 1 [prog]
        = (match mulInt32 360 (zl_deg_pixels table), mulInt32 180 (zl_deg_pixels table) with
          | some _, some _ => { exit := .aborted, usage := false, opened := none, rows := [] }
          | _, _ =>
            { exit := .undefined .outOfRange, usage := false, opened := none, rows := [] }) := by
    intro env fuel table prog
    have e : ([prog] : List String)[1]? = none := rfl
    unfold main
    rw [if_pos rfl, e]
    simp only [write_png_file_null]
    cases mulInt32 360 (zl_deg_pixels table) <;> cases mulInt32 180 (zl_deg_pixels table) <;> rfl
  refine ⟨?_, ?_, ?_, ?_, ?_⟩
  · intro env fuel table argv
    unfold main
    rw [if_neg (by decide)]
  · unfold main
    rw [if_neg (by decide)]
  · intro env fuel table argc argv
    unfold main
    by_cases h : argc = 1
    · simp only [h, if_true, ne_eq, not_true_eq_false, iff_false]
      cases (write_png_file env fuel table argv[1]?).ending <;> simp
    · simp [h]
  · intro env fuel table prog
    rw [hnull env fuel table prog]
    refine ⟨?_, ?_, ?_, ?_, ?_⟩
    · cases mulInt32 360 (zl_deg_pixels table) <;> cases mulInt32 180 (zl_deg_pixels table) <;>
        simp
    · cases mulInt32 360 (zl_deg_pixels table) <;> cases mulInt32 180 (zl_deg_pixels table) <;>
        rfl
    · cases mulInt32 360 (zl_deg_pixels table) <;> cases mulInt32 180 (zl_deg_pixels table) <;>
        rfl
    · cases mulInt32 360 (zl_deg_pixels table) <;> cases mulInt32 180 (zl_deg_pixels table) <;>
        rfl
    · intro h
      have h2 := mulInt32_180_of_360 (zl_deg_pixels table) h
      cases h360 : mulInt32 360 (zl_deg_pixels table) with
      | none => exact absurd h360 h
      | some w =>
        cases h180 : mulInt32 180 (zl_deg_pixels table) with
        | none => exact absurd h180 h2
        | some hh => rfl
  · intro env fuel
    rw [hnull env fuel borderTable "zonelooker_output"]
    rfl

/-- C17: for two pixels with `x & 7 = x' & 7` and `y & 7 = y' & 7`, `leafLookupZone` on the
same leaf index visits the same chain of leaves and returns the same result, whatever the
two tile key arguments are: the resolver depends on the pixel only through the low 3 bits of
`x` and `y`, which every nested call receives unchanged, and not on the tile key. -/
theorem leafLookupZone_low_bits (table : zl_table) (x y x2 y2 : Int) (i : Nat)
    (hx : x % 8 = x2 % 8) (hy : y % 8 = y2 % 8) :
    (∀ tk tk2 fuel : Nat,
      leafLookupZone table x y tk fuel i = leafLookupZone table x2 y2 tk2 fuel i) ∧
    (∀ k, leafSeq table x y k i = leafSeq table x2 y2 k i) :=
  ⟨fun tk tk2 fuel =>
      leafLookupZone_congr table x y x2 y2 tk tk2 (low3_congr x x2 hx) (low3_congr y y2 hy)
        fuel i,
    fun k => leafSeq_congr table x y x2 y2 (low3_congr x x2 hx) (low3_congr y y2 hy) k i⟩

/-- Witness for C17: the pixels `(9, 1)` and `(17, 9)` at the bitmap leaf of `borderTable`,
with two different tile keys. -/
theorem leafLookupZone_low_bits_witness :
    ((9 : Int) % 8 = 17 % 8 ∧ (1 : Int) % 8 = 9 % 8) ∧
    leafLookupZone borderTable 9 1 0 2 2 = .ret (some "FR") ∧
    leafLookupZone borderTable 9 1 0 2 2 = leafLookupZone borderTable 17 9 7 2 2 :=
  ⟨by decide, by decide,
    (leafLookupZone_low_bits borderTable 9 1 17 9 2 (by decide) (by decide)).1 0 7 2⟩

/-- C18: `color_for_country` returns the ocean colour `(0, 0, 0xff)` for the `NULL` code and
for every code of two characters that is not in its table, and for every code listed in the
table it returns the entry of that code: the table is strictly increasing under the
comparison of two characters, so the binary search finds every listed code. -/
theorem color_for_country_correct :
    color_for_country none = ocean_color ∧
    (ocean_color.r = 0 ∧ ocean_color.g = 0 ∧ ocean_color.b = 0xff) ∧
    colors.Pairwise (fun a b => color_for_country_cmp a.cc b < 0) ∧
    (∀ e ∈ colors, color_for_country (some e.cc) = e) ∧
    (∀ key : String, key.data.length = 2 → (∀ e ∈ colors, e.cc ≠ key) →
      color_for_country (some key) = ocean_color) := by
  have hlen : ∀ e ∈ colors, e.cc.data.length = 2 := fun e he => (colors_codes e he).1
  refine ⟨rfl, ⟨rfl, rfl, rfl⟩, ?_, ?_, ?_⟩
  · refine List.Pairwise.imp_of_mem ?_ colors_sorted
    intro a b ha hb hab
    exact (color_for_country_cmp_sign a.cc (hlen a ha) b hb).1.mpr hab
  · intro e he
    have h := (bsearch_spec (color_for_country_cmp e.cc) colors
      (fun c => codeRank c.cc.data) (codeRank e.cc.data) colors_sorted
      (fun c hc => color_for_country_cmp_sign e.cc (hlen e he) c hc)).1 e he rfl
    rw [color_for_country_of_bsearch e.cc _ h]
    rfl
  · intro key hkey hno
    have h := (bsearch_spec (color_for_country_cmp key) colors
      (fun c => codeRank c.cc.data) (codeRank key.data) colors_sorted
      (fun c hc => color_for_country_cmp_sign key hkey c hc)).2 (by
        intro c hc hrank
        obtain ⟨a0, a1, ha⟩ := List.length_eq_two.mp hkey
        obtain ⟨b0, b1, hb⟩ := List.length_eq_two.mp (hlen c hc)
        apply hno c hc
        apply String.ext
        simp only [ha, hb] at hrank ⊢
        exact codeRank_two_inj hrank)
    rw [color_for_country_of_bsearch key _ h]
    rfl

/-- Witness for C18: the code `DE` is listed and gets its own entry, the code `XO` is not
listed and gets the ocean colour. -/
theorem color_for_country_correct_witness :
    color_for_country (some "DE") = ⟨"DE", 0xea, 0xfc, 0xfb⟩ ∧
    color_for_country (some "XO") = ocean_color := by
  set_option maxRecDepth 100000 in
  exact ⟨color_for_country_correct.2.2.2.1 ⟨"DE", 0xea, 0xfc, 0xfb⟩ (by decide),
    color_for_country_correct.2.2.2.2 "XO" (by decide) (by decide)⟩

/-- C19: on a table with strictly sorted levels, `zoneLokupPixel` returns the result of the
coarsest level whose matching tile resolves to a non-null code: a code is returned exactly
when some level has a matching tile that resolves to it while every matching tile of a
coarser level resolves to `NULL`.  It returns `NULL` if and only if at every level the key
of the pixel is absent or the matching tile resolves to `NULL`; so a `NULL` answer of a
matched coarse tile falls through to the finer levels.  When the leaf resolution of every
matching tile terminates with a result, so does `zoneLokupPixel`. -/
theorem zoneLokupPixel_coarsest_nonnull (fuel : Nat) (table : zl_table) (x y : Int)
    (hs : SortedTable table) :
    (∀ z : String, zoneLokupPixel fuel table x y = .ret (some z) ↔
      ∃ (L : Fin 6) (t : zl_tile), t ∈ (table.zoom_levels L).tiles ∧
        t.key = pixelKey L x y ∧
        leafLookupZone table x y (pixelKey L x y) fuel t.idx = .ret (some z) ∧
        ∀ l : Fin 6, L < l → ∀ u ∈ (table.zoom_levels l).tiles, u.key = pixelKey l x y →
          leafLookupZone table x y (pixelKey l x y) fuel u.idx = .ret none) ∧
    (zoneLokupPixel fuel table x y = .ret none ↔
      ∀ (l : Fin 6) (t : zl_tile), t ∈ (table.zoom_levels l).tiles →
        t.key = pixelKey l x y →
        leafLookupZone table x y (pixelKey l x y) fuel t.idx = .ret none) ∧
    ((∀ (l : Fin 6) (t : zl_tile), t ∈ (table.zoom_levels l).tiles →
        t.key = pixelKey l x y →
        ∃ r, leafLookupZone table x y (pixelKey l x y) fuel t.idx = .ret r) →
      ∃ r, zoneLokupPixel fuel table x y = .ret r) := by
  refine ⟨?_, ?_, ?_⟩
  · intro z
    constructor
    · intro h
      obtain ⟨L, hL, hres, habove⟩ := zoneLokupPixel_loop_some_level fuel table x y z 6 h
      obtain ⟨t, ht, hk, hz⟩ :=
        (zoomLevelLookupTile_some_iff fuel table hs ⟨L, hL⟩ x y _ z).mp hres
      refine ⟨⟨L, hL⟩, t, ht, hk, hz, ?_⟩
      intro l hlt u hu hku
      exact (zoomLevelLookupTile_none_iff fuel table hs l x y _).mp
        (habove l.val hlt l.isLt) u hu hku
    · rintro ⟨L, t, ht, hk, hz, habove⟩
      have hskip : zoneLokupPixel fuel table x y
          = zoneLokupPixel.loop fuel table x y (L + 1) := by
        unfold zoneLokupPixel
        apply zoneLokupPixel_loop_skip fuel table x y (L + 1) 6 (by omega)
        intro l h1 h2
        exact (zoomLevelLookupTile_none_iff fuel table hs ⟨l, h2⟩ x y _).mpr
          (fun u hu hku => habove ⟨l, h2⟩ (by simp only [Fin.lt_def]; omega) u hu hku)
      have hL := (zoomLevelLookupTile_some_iff fuel table hs L x y _ z).mpr ⟨t, ht, hk, hz⟩
      rw [hskip, zoneLokupPixel.loop]
      simp only [hL]
  · constructor
    · intro h l t ht hk
      exact (zoomLevelLookupTile_none_iff fuel table hs l x y _).mp
        (zoneLokupPixel_loop_none fuel table x y 6 h l.val l.isLt) t ht hk
    · intro h
      have hskip := zoneLokupPixel_loop_skip fuel table x y 0 6 (by omega)
        (fun l _ h2 => (zoomLevelLookupTile_none_iff fuel table hs ⟨l, h2⟩ x y _).mpr
          (fun u hu hku => h ⟨l, h2⟩ u hu hku))
      unfold zoneLokupPixel
      rw [hskip]
      rfl
  · intro hterm
    apply zoneLokupPixel_loop_ret fuel table x y 6
    intro l hl
    by_cases hex : HasKey (table.zoom_levels ⟨l, hl⟩) (pixelKey l x y)
    · obtain ⟨t, ht, hk⟩ := hex
      obtain ⟨r, hr⟩ := hterm ⟨l, hl⟩ t ht hk
      exact ⟨r, by
        rw [zoomLevelLookupTile_of_mem fuel table hs ⟨l, hl⟩ x y _ t ht hk]; exact hr⟩
    · exact ⟨none, zoomLevelLookupTile_of_absent fuel table hs ⟨l, hl⟩ x y _ hex⟩

/-- Witness for C19: in `overlapTable` the level 5 tile of the pixel `(0, 0)` resolves to
`NULL`, and the lookup returns the code `DE` of its level 0 tile. -/
theorem zoneLokupPixel_coarsest_nonnull_witness :
    SortedTable overlapTable ∧
    leafLookupZone overlapTable 0 0 (pixelKey 5 0 0) 2 1 = .ret none ∧
    zoneLokupPixel 2 overlapTable 0 0 = .ret (some "DE") := by
  set_option maxRecDepth 8000 in
  exact ⟨by decide, by decide,
    ((zoneLokupPixel_coarsest_nonnull 2 overlapTable 0 0 (by decide)).1 "DE").mpr
      ⟨0, ⟨TILEKEY 0 0 0, 0⟩, by decide, by decide, by decide, by decide⟩⟩

/-- C20: on a table with `N` leaves in which all leaf references are valid, for every start
index `i < N` and every pixel, the leaf resolution terminates if and only if the sequence of
leaf indices it visits never repeats an index; consequently a terminating resolution visits
at most `N` leaves (its chain has ended after `N` nested calls), and a budget of `N` nested
calls gives the same answer as every larger budget. -/
theorem leaf_resolution_terminates_iff (table : zl_table) (x y : Int) (tk i : Nat)
    (hv : ValidLeafRefs table) (hi : i < table.leaves.length) :
    (Terminates table x y tk i ↔ NoRepeat table x y i) ∧
    (Terminates table x y tk i → leafSeq table x y table.leaves.length i = none) ∧
    (∀ fuel, table.leaves.length ≤ fuel →
      leafLookupZone table x y tk fuel i
        = leafLookupZone table x y tk table.leaves.length i) := by
  have hnorep : Terminates table x y tk i → NoRepeat table x y i := by
    rintro ⟨fuel, hf⟩ k l a hkl hk hl
    have hend : leafSeq table x y fuel i = none := by
      by_contra hc
      exact hf ((leafLookupZone_outOfFuel_iff table x y tk fuel i).mpr hc)
    exact leafSeq_repeat_endless table x y i k l a hkl hk hl fuel hend
  have hendN : NoRepeat table x y i → leafSeq table x y table.leaves.length i = none := by
    intro hnr
    by_contra hc
    obtain ⟨k, l, a, hkl, hk, hl⟩ := leafSeq_pigeonhole table hv x y i hi hc
    exact hnr k l a hkl hk hl
  refine ⟨⟨hnorep, ?_⟩, fun ht => hendN (hnorep ht), ?_⟩
  · intro hnr
    exact ⟨table.leaves.length,
      (leafLookupZone_of_chain_end table x y tk i _ (hendN hnr)).1⟩
  · intro fuel hfuel
    by_cases hend : leafSeq table x y table.leaves.length i = none
    · exact (leafLookupZone_of_chain_end table x y tk i _ hend).2 fuel hfuel
    · obtain ⟨k, l, a, hkl, hk, hl⟩ := leafSeq_pigeonhole table hv x y i hi hend
      have hall := leafLookupZone_of_chain_endless table x y tk i
        (leafSeq_repeat_endless table x y i k l a hkl hk hl)
      rw [hall fuel, hall table.leaves.length]

/-- Witness for C20: `borderTable` (three leaves), started on its bitmap leaf 2 at the pixel
`(9, 1)`. -/
theorem leaf_resolution_terminates_iff_witness :
    ValidLeafRefs borderTable ∧ 2 < borderTable.leaves.length ∧
    leafSeq borderTable 9 1 borderTable.leaves.length 2 = none ∧
    (Terminates borderTable 9 1 0 2 ↔ NoRepeat borderTable 9 1 2) :=
  ⟨by decide, by decide, by decide,
    (leaf_resolution_terminates_iff borderTable 9 1 0 2 (by decide) (by decide)).1⟩

/-- C21: for all `int` pixel coordinates `x` and `y`, negative ones included (`x & 7` is the
bitwise and of the two's complement representation), the cell index `8 * (y & 7) + (x & 7)`
lies in `0..63`, so the Bitmap shift `1ULL << (8 * (y & 7) + (x & 7))` shifts a 64-bit value
by less than 64 and loses no bit, and the Pixmap byte offsets `i = 2 * (8 * (y & 7) + (x & 7))`
and `i + 1` lie in `0..127`: on a pixmap of 128 bytes both reads succeed and the
out-of-bounds branch is not taken. -/
theorem cell_index_in_bounds (x y : Int) :
    (Int.land x 7 = (low3 x : Int) ∧ Int.land y 7 = (low3 y : Int)) ∧
    (low3 x < 8 ∧ low3 y < 8) ∧
    8 * low3 y + low3 x < 64 ∧
    (1 <<< (8 * low3 y + low3 x)) % 2 ^ 64 = 2 ^ (8 * low3 y + low3 x) ∧
    2 * (low3 y * 8 + low3 x) + 1 < 128 ∧
    (∀ (zone : Nat → Outcome Zone) (leaf : zl_leaf), leaf.pixmap.length = 128 →
      (∃ hi lo : Nat, leaf.pixmap[2 * (low3 y * 8 + low3 x)]? = some hi ∧
        leaf.pixmap[2 * (low3 y * 8 + low3 x) + 1]? = some lo) ∧
      leafLookupPixmap zone leaf x y
        = if pixmapCell leaf x y = 0xFFFF then .ret none
          else zone (pixmapCell leaf x y)) := by
  have hx := low3_lt x
  have hy := low3_lt y
  have hland : ∀ v : Int, Int.land v 7 = (low3 v : Int) := by
    intro v
    have h := land_mask_eq_maskBits v 3
    have e : (((2 ^ 3 - 1 : Nat) : Nat) : Int) = 7 := by norm_num
    rw [e] at h
    exact h
  refine ⟨⟨hland x, hland y⟩, ⟨hx, hy⟩, by omega, ?_, by omega, ?_⟩
  · rw [Nat.one_shiftLeft]
    exact Nat.mod_eq_of_lt (Nat.pow_lt_pow_right (by decide) (by omega))
  · intro zone leaf hlen
    have hj1 : 2 * (low3 y * 8 + low3 x) < leaf.pixmap.length := by omega
    have hj2 : 2 * (low3 y * 8 + low3 x) + 1 < leaf.pixmap.length := by omega
    have hj : 2 * (8 * low3 y + low3 x) = 2 * (low3 y * 8 + low3 x) := by omega
    refine ⟨⟨_, _, List.getElem?_eq_getElem hj1, List.getElem?_eq_getElem hj2⟩, ?_⟩
    have hcell : (((leaf.pixmap[2 * (low3 y * 8 + low3 x)] % 256) <<< 8)
        + leaf.pixmap[2 * (low3 y * 8 + low3 x) + 1] % 256) % 2 ^ 16
        = pixmapCell leaf x y := by
      unfold pixmapCell
      simp only [hj, List.getD_eq_getElem?_getD, List.getElem?_eq_getElem hj1,
        List.getElem?_eq_getElem hj2, Option.getD_some, Nat.shiftLeft_eq]
      have h1 : leaf.pixmap[2 * (low3 y * 8 + low3 x)] % 256 < 256 :=
        Nat.mod_lt _ (by decide)
      have h3 : leaf.pixmap[2 * (low3 y * 8 + low3 x) + 1] % 256 < 256 :=
        Nat.mod_lt _ (by decide)
      omega
    unfold leafLookupPixmap
    simp only [List.getElem?_eq_getElem hj1, List.getElem?_eq_getElem hj2, hcell, OCEAN_INDEX]

/-- Witness for C21: the negative pixel `(-1, -9)`, whose low bits are `(7, 7)`: the cell
index is 63 and the byte offsets are 126 and 127. -/
theorem cell_index_in_bounds_witness :
    low3 (-1) = 7 ∧ low3 (-9) = 7 ∧ 8 * low3 (-9) + low3 (-1) = 63 ∧
    Int.land (-1) 7 = (low3 (-1) : Int) ∧
    2 * (low3 (-9) * 8 + low3 (-1)) + 1 < 128 :=
  ⟨by decide, by decide, by decide, (cell_index_in_bounds (-1) (-9)).1.1,
    (cell_index_in_bounds (-1) (-9)).2.2.2.2.1⟩

end ZoneLooker
